import Mathlib

/-!
Line parser, SGR resolver, search functions and viewport moves of the pager
`ov`: a shallow embedding of `internal/oviewer/content.go`, of
`oviewer/search.go` and of the wrap-mode moves of `oviewer/move.go`, with the
properties proved about them.

* A Go `rune` is a natural number (its code point, type `Nat`); a Go `string`
  is the list of runes that `for _, r := range s` yields.  The parser writes
  only ASCII into the CSI parameter buffer, so runes and bytes coincide there.
* `tcell.Style` and `tcell.Color` belong to the terminal library.  A style is
  represented by what `Style.Decompose` observes: foreground, background and
  the attribute flags.
* `runewidth.RuneWidth` and the package variables `OverStrikeStyle` and
  `OverLineStyle` are supplied through `Env`; the regular-expression engine and
  `strings.ToLower` are supplied through `Lib`; the method `leftMostX` is an
  argument of the moves.
* A Go map `map[int]int` is an association list, latest assignment first.
* A run-time panic (index or slice out of range) is the result `none`.
* Go integer division and remainder truncate; they are `Int.tdiv` and
  `Int.tmod`, or the operators on `Nat` where both operands are non-negative.
-/

namespace Ov

/-- The runes of a literal. -/
def str (s : String) : List Nat := s.toList.map Char.toNat

/-! ## tcell colours and styles -/

/-- A `tcell.Color` (an `int32`): `0..255` are palette entries, values from
`ColorIsRGB` upwards carry a 24-bit RGB triple. -/
abbrev Color := Int

/-- The constant `tcell.ColorDefault`. -/
def ColorDefault : Color := -1

/-- The constant `tcell.ColorIsRGB`, `1 << 24`. -/
def ColorIsRGB : Color := 16777216

/-- The function `tcell.NewHexColor`: `ColorIsRGB | Color(v)`.  The bitwise or
with the single bit `1 << 24` is written arithmetically: the bit is added when
it is not already set. -/
def NewHexColor (v : Int) : Color :=
  if (v / 16777216) % 2 = 1 then v else v + 16777216

/-- The function `tcell.NewRGBColor`: the three components are masked to eight
bits and packed. -/
def NewRGBColor (r g b : Int) : Color :=
  NewHexColor ((r % 256) * 65536 + (g % 256) * 256 + b % 256)

/-- A `tcell.Style`, by its decomposition into foreground, background and
attributes. -/
structure Style where
  fg : Color
  bg : Color
  bold : Bool
  blink : Bool
  reverse : Bool
  underline : Bool
  dim : Bool
deriving DecidableEq, Repr

/-- The constant `tcell.StyleDefault`. -/
def StyleDefault : Style :=
  { fg := ColorDefault, bg := ColorDefault, bold := false, blink := false,
    reverse := false, underline := false, dim := false }

namespace Style

/-- The method `Style.Foreground`: the colour is stored in 25 bits;
`ColorDefault` clears it. -/
def Foreground (s : Style) (c : Color) : Style :=
  if c = ColorDefault then { s with fg := ColorDefault } else { s with fg := c % 33554432 }

/-- The method `Style.Background`. -/
def Background (s : Style) (c : Color) : Style :=
  if c = ColorDefault then { s with bg := ColorDefault } else { s with bg := c % 33554432 }

/-- The method `Style.Bold`. -/
def Bold (s : Style) (v : Bool) : Style := { s with bold := v }

/-- The method `Style.Dim`. -/
def Dim (s : Style) (v : Bool) : Style := { s with dim := v }

/-- The method `Style.Underline`. -/
def Underline (s : Style) (v : Bool) : Style := { s with underline := v }

/-- The method `Style.Blink`. -/
def Blink (s : Style) (v : Bool) : Style := { s with blink := v }

/-- The method `Style.Reverse`. -/
def Reverse (s : Style) (v : Bool) : Style := { s with reverse := v }

/-- The method `Style.Normal`: every attribute is switched off, the colours
stay. -/
def Normal (s : Style) : Style :=
  { s with bold := false, blink := false, reverse := false, underline := false, dim := false }

end Style

/-! ## strconv, fmt and colour names -/

/-- The digit loop of `strconv.ParseUint(s, 10, 64)`: `none` is a syntax error;
on overflow the loop stops at once with the largest value. -/
def parseUintLoop : List Nat → Nat → Option Nat
  | [], acc => some acc
  | c :: cs, acc =>
    if 48 ≤ c ∧ c ≤ 57 then
      if acc ≥ 1844674407370955162 then some 18446744073709551615
      else if acc * 10 + (c - 48) > 18446744073709551615 then some 18446744073709551615
      else parseUintLoop cs (acc * 10 + (c - 48))
    else none

/-- The value of `strconv.Atoi` (64-bit `int`); the error is dropped, as the
callers do.  A syntax error yields 0, a range error the nearest bound. -/
def Atoi (s : List Nat) : Int :=
  match s with
  | [] => 0
  | c :: cs =>
    let neg := decide (c = 45)
    let digits := if c = 45 ∨ c = 43 then cs else s
    if digits = [] then 0
    else
      match parseUintLoop digits 0 with
      | none => 0
      | some un =>
        if neg then (if un > 9223372036854775808 then -9223372036854775808 else -(un : Int))
        else (if un ≥ 9223372036854775808 then 9223372036854775807 else (un : Int))

/-- One lower-case hexadecimal digit. -/
def hexDigit (d : Nat) : Nat := if d < 10 then 48 + d else 97 + (d - 10)

/-- The hexadecimal digits of `v`, most significant first, in front of `acc`. -/
def hexDigitsAux : Nat → Nat → List Nat → List Nat
  | 0, _, acc => acc
  | fuel + 1, v, acc =>
    if v / 16 = 0 then hexDigit (v % 16) :: acc
    else hexDigitsAux fuel (v / 16) (hexDigit (v % 16) :: acc)

/-- The verb `%02x` of `fmt.Sprintf` on an `int`: at least two characters, the
sign included, padded with zeros. -/
def fmtHex02 (v : Int) : List Nat :=
  let ds := hexDigitsAux (v.natAbs + 1) v.natAbs []
  if v < 0 then 45 :: ds
  else if ds.length < 2 then 48 :: ds else ds

/-- The call `fmt.Sprintf("#%02x%02x%02x", r, g, b)`. -/
def sprintfColor (r g b : Int) : List Nat :=
  35 :: (fmtHex02 r ++ fmtHex02 g ++ fmtHex02 b)

/-- The value of one digit for `strconv.ParseInt(s, 16, 32)`. -/
def hexValue (c : Nat) : Option Nat :=
  if 48 ≤ c ∧ c ≤ 57 then some (c - 48)
  else if 97 ≤ c ∧ c ≤ 102 then some (c - 97 + 10)
  else if 65 ≤ c ∧ c ≤ 70 then some (c - 65 + 10)
  else none

/-- The digit loop of `strconv.ParseInt(s, 16, 32)`; the strings it receives
here have six characters, so no overflow arises. -/
def parseHexLoop : List Nat → Nat → Option Nat
  | [], acc => some acc
  | c :: cs, acc =>
    match hexValue c with
    | some d => parseHexLoop cs (acc * 16 + d)
    | none => none

/-- The call `strconv.ParseInt(s, 16, 32)` on a string of at most six
characters: `none` is an error. -/
def parseHexInt (s : List Nat) : Option Int :=
  match s with
  | [] => none
  | c :: cs =>
    let digits := if c = 45 ∨ c = 43 then cs else s
    if digits = [] then none
    else
      match parseHexLoop digits 0 with
      | none => none
      | some un => if c = 45 then some (-(un : Int)) else some (un : Int)

/-- The sixteen colour names that `lookupColor` returns, in palette order. -/
def colorNames : List (List Nat) :=
  [str "black", str "maroon", str "green", str "olive", str "navy", str "purple",
   str "teal", str "silver", str "gray", str "red", str "lime", str "yellow",
   str "blue", str "fuchsia", str "aqua", str "white"]

/-- The function `tcell.GetColor` on the strings `csToStyle` passes to it: a
name of the table `tcell.ColorNames` (the sixteen names above stand for the
palette entries 0 to 15), or `#` and six hexadecimal digits; anything else is
`ColorDefault`. -/
def GetColor (name : List Nat) : Color :=
  if name ∈ colorNames then (colorNames.indexOf name : Int)
  else if name.length = 7 ∧ name.head? = some 35 then
    match parseHexInt name.tail with
    | some v => NewHexColor v
    | none => ColorDefault
  else ColorDefault

/-- The function `strings.Split(s, ";")`. -/
def splitSemi : List Nat → List (List Nat)
  | [] => [[]]
  | c :: cs =>
    if c = 59 then [] :: splitSemi cs
    else
      match splitSemi cs with
      | f :: fs => (c :: f) :: fs
      | [] => [[c]]

/-! ## content.go -/

/-- The function `lookupColor`. -/
def lookupColor (colorNumber : Int) : List Nat :=
  if colorNumber < 0 ∨ colorNumber > 15 then str "black"
  else colorNames.getD colorNumber.toNat (str "black")

/-- The colour string computed in the `"38", "48"` case of `csToStyle` from the
fields that follow; the empty string when none is chosen. -/
def extendedColor (rest : List (List Nat)) : List Nat :=
  match rest with
  | [] => []
  | f1 :: rest1 =>
    if f1 = str "5" ∧ rest1.length > 0 then
      let colorNumber := Atoi (rest1.getD 0 [])
      if colorNumber ≤ 7 then lookupColor colorNumber
      else if colorNumber ≤ 15 then lookupColor colorNumber
      else if colorNumber ≤ 231 then
        let red := Int.tdiv (colorNumber - 16) 36
        let green := Int.tmod (Int.tdiv (colorNumber - 16) 6) 6
        let blue := Int.tmod (colorNumber - 16) 6
        sprintfColor (Int.tdiv (255 * red) 5) (Int.tdiv (255 * green) 5) (Int.tdiv (255 * blue) 5)
      else if colorNumber ≤ 255 then
        let grey := Int.tdiv (255 * (colorNumber - 232)) 23
        sprintfColor grey grey grey
      else []
    else if f1 = str "2" ∧ rest1.length > 2 then
      let red := Atoi (rest1.getD 0 [])
      let green := Atoi (rest1.getD 1 [])
      let blue := Atoi (rest1.getD 2 [])
      sprintfColor red green blue
    else []

/-- The loop `FieldLoop` of `csToStyle` over the fields not yet visited: the
head is `field`, the tail holds `fields[index+1:]`. -/
def fieldLoop : List (List Nat) → Style → Style
  | [], style => style
  | field :: rest, style =>
    if field = str "1" ∨ field = str "01" then fieldLoop rest (style.Bold true)
    else if field = str "2" ∨ field = str "02" then fieldLoop rest (style.Dim true)
    else if field = str "4" ∨ field = str "04" then fieldLoop rest (style.Underline true)
    else if field = str "5" ∨ field = str "05" then fieldLoop rest (style.Blink true)
    else if field = str "7" ∨ field = str "07" then fieldLoop rest (style.Reverse true)
    else if field ∈ [str "22", str "24", str "25", str "27"] then fieldLoop rest style.Normal
    else if field ∈ [str "30", str "31", str "32", str "33", str "34", str "35", str "36",
        str "37"] then
      fieldLoop rest (style.Foreground (Atoi field - 30))
    else if field = str "39" then fieldLoop rest (style.Foreground ColorDefault)
    else if field ∈ [str "40", str "41", str "42", str "43", str "44", str "45", str "46",
        str "47"] then
      fieldLoop rest (style.Background (Atoi field - 40))
    else if field = str "49" then fieldLoop rest (style.Background ColorDefault)
    else if field ∈ [str "90", str "91", str "92", str "93", str "94", str "95", str "96",
        str "97"] then
      fieldLoop rest (style.Foreground (Atoi field - 82))
    else if field ∈ [str "100", str "101", str "102", str "103", str "104", str "105",
        str "106", str "107"] then
      fieldLoop rest (style.Background (Atoi field - 92))
    else if field = str "38" ∨ field = str "48" then
      let color := extendedColor rest
      if color.length > 0 then
        if field = str "38" then style.Foreground (GetColor color)
        else style.Background (GetColor color)
      else fieldLoop rest style
    else fieldLoop rest style

/-- The function `csToStyle`. -/
def csToStyle (style : Style) (csiParameter : List Nat) : Style :=
  let fields := splitSemi csiParameter
  let style :=
    if fields.length = 0 ∨ (fields.length = 1 ∧ fields.getD 0 [] = str "0") then
      StyleDefault.Normal
    else style
  fieldLoop fields style

/-- The type `Content`: one character on the terminal. -/
structure Content where
  width : Nat
  mainc : Nat
  combc : List Nat
  style : Style
deriving DecidableEq, Repr

/-- The type `lineContents`.  The map `byteMap` is an association list with the
latest assignment first; `byteMapGet` reads it. -/
structure lineContents where
  contents : List Content
  byteMap : List (Nat × Nat)
deriving DecidableEq, Repr

/-- The map read `m[k]`, with `none` for an absent key. -/
def byteMapGet (m : List (Nat × Nat)) (k : Nat) : Option Nat := m.lookup k

/-- The states of the ANSI escape code parser. -/
inductive AnsiState where
  | ansiText
  | ansiEscape
  | ansiSubstring
  | ansiControlSequence
deriving DecidableEq, Repr

/-- The variable `DefaultContent`, which is also the zero value `Content{}`. -/
def DefaultContent : Content :=
  { width := 0, mainc := 0, combc := [], style := StyleDefault }

/-- What the package takes from outside the file: the function
`runewidth.RuneWidth` and the style variables `OverStrikeStyle` and
`OverLineStyle`. -/
structure Env where
  RuneWidth : Nat → Nat
  OverStrikeStyle : Style
  OverLineStyle : Style

/-- The length `len(string(r))` of the UTF-8 encoding of a rune; a surrogate or
a value beyond the last code point is encoded as U+FFFD. -/
def utf8Len (r : Nat) : Nat :=
  if r < 128 then 1
  else if r < 2048 then 2
  else if r < 65536 then 3
  else if r ≤ 1114111 then 4
  else 3

/-- The function `overstrike`. -/
def overstrike (env : Env) (p m : Nat) (style : Style) : Style :=
  if p = m then env.OverStrikeStyle
  else if p = 95 then env.OverLineStyle
  else style

/-- The function `lastContent`. -/
def lastContent (contents : List Content) : Content :=
  let n := contents.length
  if n = 0 then DefaultContent
  else if n > 1 ∧ (contents.getD (n - 2) DefaultContent).width > 1 then
    contents.getD (n - 2) DefaultContent
  else contents.getD (n - 1) DefaultContent

/-- The local variables of `parseString` that live across loop iterations. -/
structure ParseState where
  contents : List Content
  byteMap : List (Nat × Nat)
  state : AnsiState
  csiParameter : List Nat
  style : Style
  x : Nat
  n : Nat
  bsFlag : Bool
  bsContent : Content
deriving DecidableEq, Repr

/-- The variables of `parseString` before the loop. -/
def initState : ParseState :=
  { contents := [], byteMap := [], state := AnsiState.ansiText, csiParameter := [],
    style := StyleDefault, x := 0, n := 0, bsFlag := false, bsContent := DefaultContent }

/-- The two statements `lc.byteMap[n] = len(lc.contents)` and
`n += len(string(runeValue))`. -/
def record (s : ParseState) (r : Nat) : ParseState :=
  { s with byteMap := (s.n, s.contents.length) :: s.byteMap, n := s.n + utf8Len r }

/-- The style of a cell of width 1 or 2 and the overstrike variables after it:
the `if bsFlag` block. -/
def emitStyle (env : Env) (s : ParseState) (r : Nat) : Style :=
  if s.bsFlag then overstrike env s.bsContent.mainc r s.style else s.style

/-- The loop body of `parseString` from the second `switch` on: the rune is
handled as text.  In `x % tabWidth` both operands are non-negative where it is
evaluated, so the remainder of `Int` is the one of Go. -/
def textStep (env : Env) (tabWidth : Int) (s0 : ParseState) (r : Nat) : Option ParseState :=
  if r = 27 then some { s0 with state := AnsiState.ansiEscape }
  else if r = 10 then some s0
  else
    let s := record s0 r
    match env.RuneWidth r with
    | 0 =>
      if r = 9 then
        if tabWidth > 0 then
          let tabStop := (tabWidth - (s.x : Int) % tabWidth).toNat
          let c : Content := { DefaultContent with mainc := 32, width := 1, style := s.style }
          some { s with contents := s.contents ++ List.replicate tabStop c, x := s.x + tabStop }
        else if tabWidth < 0 then
          let s1 := record s r
          let c : Content := { DefaultContent with width := 1, style := s1.style.Reverse true }
          some { s1 with
            contents := s1.contents ++ [{ c with mainc := 92 }, { c with mainc := 116 }],
            x := s1.x + 2 }
        else some s
      else if r = 8 then
        if s.contents.length = 0 then some s
        else
          let bsContent := lastContent s.contents
          if bsContent.width > 1 then
            if s.contents.length < 2 then none
            else some { s with bsFlag := true, bsContent := bsContent,
                               contents := s.contents.take (s.contents.length - 2) }
          else some { s with bsFlag := true, bsContent := bsContent,
                             contents := s.contents.take (s.contents.length - 1) }
      else
        let content := lastContent s.contents
        let content := { content with combc := content.combc ++ [r] }
        if content.width ≤ s.contents.length ∧ s.contents.length > 0 then
          if s.contents.length - content.width < s.contents.length then
            some { s with contents := s.contents.set (s.contents.length - content.width) content }
          else none
        else some s
    | 1 =>
      let c : Content :=
        { DefaultContent with mainc := r, width := 1, style := emitStyle env s r }
      some { s with contents := s.contents ++ [c], x := s.x + 1,
                    bsContent := if s.bsFlag then DefaultContent else s.bsContent,
                    bsFlag := false }
    | 2 =>
      let c : Content :=
        { DefaultContent with mainc := r, width := 2, style := emitStyle env s r }
      some { s with contents := s.contents ++ [c, DefaultContent], x := s.x + 2,
                    bsContent := if s.bsFlag then DefaultContent else s.bsContent,
                    bsFlag := false }
    | _ => some s

/-- One iteration of the loop of `parseString`: the `switch state` and, where
it does not `continue`, the text handling. -/
def step (env : Env) (tabWidth : Int) (s : ParseState) (r : Nat) : Option ParseState :=
  match s.state with
  | AnsiState.ansiEscape =>
    if r = 91 then some { s with csiParameter := [], state := AnsiState.ansiControlSequence }
    else if r = 99 then some { s with style := StyleDefault, state := AnsiState.ansiText }
    else if r = 80 ∨ r = 93 ∨ r = 88 ∨ r = 94 ∨ r = 95 then
      some { s with state := AnsiState.ansiSubstring }
    else textStep env tabWidth { s with state := AnsiState.ansiText } r
  | AnsiState.ansiSubstring =>
    if r = 27 then some { s with state := AnsiState.ansiEscape }
    else textStep env tabWidth s r
  | AnsiState.ansiControlSequence =>
    if r = 109 then
      some { s with style := csToStyle s.style s.csiParameter, state := AnsiState.ansiText }
    else if 65 ≤ r ∧ r ≤ 84 then some { s with state := AnsiState.ansiText }
    else if 48 ≤ r ∧ r ≤ 63 then some { s with csiParameter := s.csiParameter ++ [r] }
    else some { s with state := AnsiState.ansiText }
  | AnsiState.ansiText => textStep env tabWidth s r

/-- The loop of `parseString` over the runes of the line. -/
def run (env : Env) (tabWidth : Int) : List Nat → ParseState → Option ParseState
  | [], s => some s
  | r :: rs, s =>
    match step env tabWidth s r with
    | some s1 => run env tabWidth rs s1
    | none => none

/-- The statements after the loop: the last `byteMap` entry and the result. -/
def finish (s : ParseState) : lineContents :=
  { contents := s.contents, byteMap := (s.n, s.contents.length) :: s.byteMap }

/-- The function `parseString`. -/
def parseString (env : Env) (line : List Nat) (tabWidth : Int) : Option lineContents :=
  (run env tabWidth line initState).map finish

/-- The function `strToContents`. -/
def strToContents (env : Env) (line : List Nat) (tabWidth : Int) : Option (List Content) :=
  (parseString env line tabWidth).map (fun lc => lc.contents)

/-- An instance of the outside data for running examples: control characters
and the combining diacritical marks have width 0, the CJK and full-width blocks
width 2, every other rune width 1; the overstrike styles are the ones the tests
of the package expect. -/
def sampleEnv : Env :=
  { RuneWidth := fun r =>
      if r < 32 ∨ (127 ≤ r ∧ r < 160) ∨ (768 ≤ r ∧ r ≤ 879) then 0
      else if (4352 ≤ r ∧ r ≤ 4447) ∨ (11904 ≤ r ∧ r ≤ 42191) ∨ (44032 ≤ r ∧ r ≤ 55203)
          ∨ (63744 ≤ r ∧ r ≤ 64255) ∨ (65281 ≤ r ∧ r ≤ 65376) then 2
      else 1
    OverStrikeStyle := StyleDefault.Bold true
    OverLineStyle := StyleDefault.Underline true }


/-! ## Predicates on parser states -/

/-- A cell sequence built from cells of width 1 and from pairs of a cell of
width 2 and the placeholder `DefaultContent`. -/
inductive WellFormed : List Content → Prop
  | nil : WellFormed []
  | single {l : List Content} {c : Content} : WellFormed l → c.width = 1 → WellFormed (l ++ [c])
  | wide {l : List Content} {c : Content} :
      WellFormed l → c.width = 2 → WellFormed (l ++ [c, DefaultContent])

/-- How one loop iteration changes `byteMap`, `n` and `contents`: either it
leaves all three as they are, or it first assigns `byteMap[n] = len(contents)`
and moves `n` forward, any further key lying strictly between the old and the
new `n`. -/
def Recorded (s s1 : ParseState) : Prop :=
  (s1.byteMap = s.byteMap ∧ s1.n = s.n ∧ s1.contents = s.contents) ∨
  (∃ extra, s1.byteMap = extra ++ (s.n, s.contents.length) :: s.byteMap ∧ s.n < s1.n ∧
      ∀ p ∈ extra, s.n < p.1 ∧ p.1 < s1.n)

/-- Every key of `byteMap` lies below the offset counter `n`. -/
def KeysBelow (s : ParseState) : Prop := ∀ p ∈ s.byteMap, p.1 < s.n

/-- Nothing is assigned yet and no cell exists, or key 0 holds 0. -/
def ZeroKey (s : ParseState) : Prop :=
  (s.n = 0 ∧ s.byteMap = [] ∧ s.contents = []) ∨ (0 < s.n ∧ byteMapGet s.byteMap 0 = some 0)

/-- The invariant of the loop of `parseString`. -/
def Inv (s : ParseState) : Prop := WellFormed s.contents ∧ KeysBelow s ∧ ZeroKey s

/-- The decimal numeral of a number, as it is written in an SGR parameter. -/
def decimal (n : Nat) : List Nat := (Nat.toDigits 10 n).map Char.toNat

/-- The rendering of a tab that follows the runes `pre` on a line, for a
positive tab width: the loop reaches the tab in a state `s`, and reading the
tab appends `tabWidth - (c mod tabWidth)` cells of width 1 holding a space in
the ambient style, `c` being the cell count of `s`, and assigns the one
`byteMap` entry `n -> c` at the offset counter `n` of `s`. -/
def TabRendered (env : Env) (tabWidth : Int) (pre : List Nat) : Prop :=
  ∃ s s1, run env tabWidth pre initState = some s ∧ step env tabWidth s 9 = some s1 ∧
    s1.contents = s.contents ++
      List.replicate (tabWidth.toNat - s.contents.length % tabWidth.toNat)
        { width := 1, mainc := 32, combc := [], style := s.style } ∧
    s1.byteMap = (s.n, s.contents.length) :: s.byteMap

/-- The state `s` as it is when one byte more was read before it with no cell
produced: every key of `byteMap` and the offset counter are one higher, and key
0 holds 0. -/
def shiftState (s : ParseState) : ParseState :=
  { s with n := s.n + 1, byteMap := s.byteMap.map (fun p => (p.1 + 1, p.2)) ++ [(0, 0)] }

/-- The cells that a glyph of width 1 or 2 occupies: its own cell, carrying the
combining runes `combc`, and the placeholder when the glyph is double-width. -/
def glyphCells (env : Env) (r : Nat) (combc : List Nat) (style : Style) : List Content :=
  if env.RuneWidth r = 2 then
    [{ width := 2, mainc := r, combc := combc, style := style }, DefaultContent]
  else [{ width := 1, mainc := r, combc := combc, style := style }]

/-- Whether the loop body handles the rune `r`, met in state `s`, as text and
reaches the assignment `lc.byteMap[n] = len(lc.contents)`: the `switch state`
does not `continue`, and the rune is neither ESC nor a newline. -/
def readAsText (s : ParseState) (r : Nat) : Bool :=
  (match s.state with
    | AnsiState.ansiEscape =>
      !(decide (r = 91 ∨ r = 99 ∨ r = 80 ∨ r = 93 ∨ r = 88 ∨ r = 94 ∨ r = 95))
    | AnsiState.ansiSubstring => true
    | AnsiState.ansiControlSequence => false
    | AnsiState.ansiText => true) && decide (r ≠ 27) && decide (r ≠ 10)

/-- The number of bytes of the runes of `line` that the loop, started in state
`s`, handles as text: the bytes of escape sequences and newlines are not
counted. -/
def textBytes (env : Env) (tabWidth : Int) : List Nat → ParseState → Nat
  | [], _ => 0
  | r :: rs, s =>
    (if readAsText s r then utf8Len r else 0) +
      (match step env tabWidth s r with
        | some s1 => textBytes env tabWidth rs s1
        | none => 0)

/-- The number of bytes of a string given by its runes. -/
def byteLen (s : List Nat) : Nat := (s.map utf8Len).sum

/-- The fields that the `switch field` of `csToStyle` names in a `case`. -/
def sgrCodes : List (List Nat) :=
  [str "1", str "01", str "2", str "02", str "4", str "04", str "5", str "05", str "7",
   str "07", str "22", str "24", str "25", str "27", str "30", str "31", str "32", str "33",
   str "34", str "35", str "36", str "37", str "39", str "40", str "41", str "42", str "43",
   str "44", str "45", str "46", str "47", str "49", str "90", str "91", str "92", str "93",
   str "94", str "95", str "96", str "97", str "100", str "101", str "102", str "103",
   str "104", str "105", str "106", str "107", str "38", str "48"]

/-! ## search.go

The functions `strings.Index`, `len` and slicing act on bytes: in
`rangePosition` and `searchPosition` a string is the list of its bytes.  In
`stripEscapeSequence` a string is the list of its runes, since the `.` of the
regular expression consumes one rune. -/

/-- Search for `strings.Index(s, substr)`: the least offset at which `substr`
starts in `s`. -/
def indexAux (substr : List Nat) : List Nat → Option Nat
  | [] => if substr = [] then some 0 else none
  | c :: cs =>
    if substr <+: c :: cs then some 0
    else (indexAux substr cs).map (fun i => i + 1)

/-- The function `strings.Index`: -1 when `substr` does not occur. -/
def Index (s substr : List Nat) : Int :=
  match indexAux substr s with
  | some i => (i : Int)
  | none => -1

/-- The function `strings.Contains`. -/
def Contains (s substr : List Nat) : Bool := decide (Index s substr ≥ 0)

/-- The function `strings.ContainsAny`. -/
def ContainsAny (s chars : List Nat) : Bool := s.any (fun c => decide (c ∈ chars))

/-- The bytes that `regexp.QuoteMeta` escapes. -/
def specialBytes : List Nat := str "\\.+*?()|[]\x7b\x7d^$"

/-- The function `regexp.QuoteMeta`. -/
def QuoteMeta : List Nat → List Nat
  | [] => []
  | c :: cs => if c ∈ specialBytes then 92 :: c :: QuoteMeta cs else c :: QuoteMeta cs

/-- The longest run of characters of the class `[\d;*]` is dropped. -/
def skipParams : List Nat → List Nat
  | [] => []
  | c :: cs => if (48 ≤ c ∧ c ≤ 57) ∨ c = 59 ∨ c = 42 then skipParams cs else c :: cs

/-- A match of the first alternative of `stripRegexpES`, `ESC \[ [\d;*]* m`, at
the head of the string: what follows the match.  The class does not hold `m`,
so the run of the class is the longest one. -/
def matchSGR : List Nat → Option (List Nat)
  | 27 :: 91 :: rest =>
    match skipParams rest with
    | 109 :: rest1 => some rest1
    | _ => none
  | _ => none

/-- The call `stripRegexpES.ReplaceAllString(s, "")`: at each offset, from the
left, the first alternative is tried, then the second, `.` and a backspace
(`.` is any rune but the newline); a match is dropped and the scan goes on
behind it. -/
def stripLoop : Nat → List Nat → List Nat
  | 0, s => s
  | _ + 1, [] => []
  | fuel + 1, c :: cs =>
    match matchSGR (c :: cs) with
    | some rest => stripLoop fuel rest
    | none =>
      match cs with
      | 8 :: rest => if c ≠ 10 then stripLoop fuel rest else c :: stripLoop fuel cs
      | _ => c :: stripLoop fuel cs

/-- The function `stripEscapeSequence`. -/
def stripEscapeSequence (s : List Nat) : List Nat :=
  if ContainsAny s [27, 8] then stripLoop s.length s else s

/-- What `search.go` takes from the standard library and is not modelled
here: the type `*regexp.Regexp` (without `nil`), `regexp.Compile` (`none` is an
error), the method `MatchString`, and `strings.ToLower`. -/
structure Lib where
  Regexp : Type
  Compile : List Nat → Option Regexp
  MatchString : Regexp → List Nat → Bool
  ToLower : List Nat → List Nat

/-- The implementations of the interface `searchMatch`: `searchWord`,
`sensitiveWord` and `regexpWord`, whose field may be `nil`. -/
inductive searchMatch (R : Type) where
  | searchWord (word : List Nat)
  | sensitiveWord (word : List Nat)
  | regexpWord (word : Option R)

/-- The three methods `match`; `none` is the panic of `MatchString` on a `nil`
expression. -/
def searchMatch.isMatch (lib : Lib) : searchMatch lib.Regexp → List Nat → Option Bool
  | searchMatch.searchWord word, s =>
    some (Contains (lib.ToLower (stripEscapeSequence s)) word)
  | searchMatch.sensitiveWord word, s => some (Contains (stripEscapeSequence s) word)
  | searchMatch.regexpWord (some re), s => some (lib.MatchString re (stripEscapeSequence s))
  | searchMatch.regexpWord none, _ => none

/-- The function `getSearchMatch`. -/
def getSearchMatch (lib : Lib) (searhWord : List Nat) (searchReg : Option lib.Regexp)
    (caseSensitive regexpSearch : Bool) : searchMatch lib.Regexp :=
  if regexpSearch = true ∧ searhWord ≠ QuoteMeta searhWord then searchMatch.regexpWord searchReg
  else if caseSensitive = true then searchMatch.sensitiveWord searhWord
  else searchMatch.searchWord (lib.ToLower searhWord)

/-- The function `regexpCompile`; `none` is the result `nil`. -/
def regexpCompile (lib : Lib) (r : List Nat) (caseSensitive : Bool) : Option lib.Regexp :=
  let r := if caseSensitive = false then str "(?i)" ++ r else r
  match lib.Compile r with
  | some re => some re
  | none =>
    let r := QuoteMeta r
    match lib.Compile r with
    | some re => some re
    | none => none

/-- The `for` loop of `rangePosition`: the offset `i` after `count` further
delimiters, or `none` where the function returns `(-1, -1)`. -/
def rangePositionLoop (s substr : List Nat) : Nat → Int → Option Int
  | 0, i => some i
  | count + 1, i =>
    let j := Index (s.drop i.toNat) substr
    if j < 0 then none
    else rangePositionLoop s substr count (i + j + substr.length)

/-- The function `rangePosition`. -/
def rangePosition (s substr : List Nat) (number : Int) : Int × Int :=
  if number = 0 then (0, 0 + Index s substr)
  else
    match rangePositionLoop s substr (number - 1).toNat 0 with
    | none => (-1, -1)
    | some i =>
      let ds := Index (s.drop i.toNat) substr
      if ds < 0 then (-1, -1)
      else
        let start := i + ds + substr.length
        let de := if start < s.length then Index (s.drop start.toNat) substr else -1
        if de < 0 then (start, (s.length : Int)) else (start, start + de)

/-- The `for` loop of `searchPosition`; a pair is one `[]int` of two offsets. -/
def searchPositionLoop (substr : List Nat) : Nat → List Nat → Int → List (Int × Int)
  | 0, _, _ => []
  | fuel + 1, searchText, offSet =>
    let loc := Index searchText substr
    if loc ≠ -1 then
      (loc + offSet, loc + offSet + substr.length) ::
        searchPositionLoop substr fuel (searchText.drop (loc + substr.length).toNat)
          (offSet + (loc + substr.length))
    else []

/-- The function `searchPosition`; `[]` is `nil`.  Each pass of the loop drops
at least one byte of `searchText`, so its length bounds the passes. -/
def searchPosition (lib : Lib) (caseSensitive : Bool) (searchText substr : List Nat) :
    List (Int × Int) :=
  if substr = [] then []
  else
    let searchText := if caseSensitive = false then lib.ToLower searchText else searchText
    let substr := if caseSensitive = false then lib.ToLower substr else substr
    searchPositionLoop substr (searchText.length + 1) searchText 0

/-- The errors `ErrCancel` and `ErrNotFound`. -/
inductive SearchError where
  | ErrCancel
  | ErrNotFound
deriving DecidableEq, Repr

/-- The document behind `root.Doc`: the functions `BufEndNum` and `GetLine`. -/
structure Document where
  BufEndNum : Int
  GetLine : Int → List Nat

/-- The `for` loop of `searchLine` from line `n`; `search` is the method
`match` of the matcher and `done n` tells whether `ctx.Done()` is ready when
polled after line `n`. -/
def searchLineLoop (doc : Document) (search : List Nat → Bool) (done : Int → Bool) :
    Nat → Int → Except SearchError Int
  | 0, _ => Except.error SearchError.ErrNotFound
  | fuel + 1, n =>
    if n < doc.BufEndNum then
      if search (doc.GetLine n) then Except.ok n
      else if done n then Except.error SearchError.ErrCancel
      else searchLineLoop doc search done fuel (n + 1)
    else Except.error SearchError.ErrNotFound

/-- The function `searchLine`; the loop makes `BufEndNum - num` passes at
most. -/
def searchLine (doc : Document) (search : List Nat → Bool) (done : Int → Bool) (num : Int) :
    Except SearchError Int :=
  let num := max num 0
  searchLineLoop doc search done (doc.BufEndNum - num).toNat num

/-- The `for` loop of `backSearchLine` from line `n` downwards. -/
def backSearchLineLoop (doc : Document) (search : List Nat → Bool) (done : Int → Bool) :
    Nat → Int → Except SearchError Int
  | 0, _ => Except.error SearchError.ErrNotFound
  | fuel + 1, n =>
    if n ≥ 0 then
      if search (doc.GetLine n) then Except.ok n
      else if done n then Except.error SearchError.ErrCancel
      else backSearchLineLoop doc search done fuel (n - 1)
    else Except.error SearchError.ErrNotFound

/-- The function `backSearchLine`; the loop makes `num + 1` passes at most. -/
def backSearchLine (doc : Document) (search : List Nat → Bool) (done : Int → Bool)
    (num : Int) : Except SearchError Int :=
  let num := min num (doc.BufEndNum - 1)
  backSearchLineLoop doc search done (num + 1).toNat num

/-- Lower case of an ASCII letter. -/
def asciiLower (c : Nat) : Nat := if 65 ≤ c ∧ c ≤ 90 then c + 32 else c

/-- An instance of the library for running examples: `ToLower` acts on ASCII
letters, an expression is the literal it matches, and `Compile` rejects the two
patterns with an open parenthesis that the examples use. -/
def sampleLib : Lib :=
  { Regexp := List Nat
    Compile := fun p => if p = str "(?i)a(" ∨ p = str "a(" then none else some p
    MatchString := fun re s => Contains s re
    ToLower := fun s => s.map asciiLower }

/-- The list `ranges` holds the successive non-overlapping occurrences of `w`
in `s`, found from the left: every range `[a, b)` lies in `s`, has the length
of `w` and `s[a:b] = w`; every range starts at or after the end of the ranges
before it; every occurrence of `w` in `s` starts inside one of the ranges, so
that none lies wholly in a gap before, between or after them and every range
is the leftmost occurrence behind the range before it; and the list is
non-empty iff `s` contains `w`. -/
def Occurrences (s w : List Nat) (ranges : List (Int × Int)) : Prop :=
  (∀ p ∈ ranges, 0 ≤ p.1 ∧ p.2 = p.1 + w.length ∧ p.2 ≤ s.length ∧
    (s.drop p.1.toNat).take w.length = w) ∧
  ranges.Pairwise (fun p q => p.2 ≤ q.1) ∧
  (∀ j : Nat, w <+: s.drop j → ∃ p ∈ ranges, p.1 ≤ j ∧ (j : Int) < p.2) ∧
  (ranges ≠ [] ↔ Contains s w = true)

/-- The fields of `s` between the non-overlapping occurrences of the delimiter
`d`, taken from the left, for `fuel` occurrences at most. -/
def splitOn (d : List Nat) : Nat → List Nat → List (List Nat)
  | 0, s => [s]
  | fuel + 1, s =>
    match indexAux d s with
    | none => [s]
    | some i => s.take i :: splitOn d fuel (s.drop (i + d.length))

/-- The string `s` split on a non-empty delimiter `d`, as `strings.Split`
does: a delimiter takes at least one byte, so the length of `s` bounds their
number. -/
def Split (s d : List Nat) : List (List Nat) := splitOn d (s.length + 1) s

/-! ## The viewport: move.go and the start of the incremental search

The method `root.leftMostX`, which returns the wrap index of a line (the
offsets at which its visual rows start) or an error, is not among the source
files: the functions below take it as the argument `leftMostX`, `none` being
the error.  The method `resetSelect` clears the selection and touches none of
the fields below.  Line numbers and offsets are Go values of type `int` far
from its bounds; they are integers. -/

/-- The fields of `Root` and of `root.Doc` that the functions below read or
write. -/
structure Root where
  topLN : Int
  topLX : Int
  Header : Int
  WrapMode : Bool
  endNum : Int
  searchWord : List Nat
  OriginStr : List Nat
  OriginPos : Int
deriving DecidableEq, Repr

/-- The function `returnStartPosition`: its result and the receiver after the
call. -/
def returnStartPosition (root : Root) : Int × Root :=
  let start := if Contains root.searchWord root.OriginStr = false then root.OriginPos
    else root.topLN
  (start, { root with OriginStr := root.searchWord })

/-- The `for` loop of `numOfReverseSlice` with the indices below `k` still to
visit. -/
def numOfReverseSliceLoop (listX : List Int) (x : Int) : Nat → Nat
  | 0 => 0
  | k + 1 => if listX.getD k 0 ≤ x then k else numOfReverseSliceLoop listX x k

/-- The function `numOfReverseSlice`; its result is never negative. -/
def numOfReverseSlice (listX : List Int) (x : Int) : Nat :=
  numOfReverseSliceLoop listX x listX.length

/-- The last three statements of the loop body of `moveNumDown`: the value of
`x` for the row `n` of `listX`. -/
def rowX (listX : List Int) (n : Nat) : Int :=
  if listX.length > 0 ∧ n < listX.length then listX.getD n 0 else 0

/-- The `for` loop of `moveNumDown` with `y` passes left: `none` is the
`return` after an error of `leftMostX`, and the result holds `num` and `x` as
they are behind the loop. -/
def moveNumDownLoop (leftMostX : Int → Option (List Int)) (endNum : Int) :
    Nat → Int → Int → List Int → Nat → Option (Int × Int)
  | 0, num, x, _, _ => some (num, x)
  | y + 1, num, x, listX, n =>
    if n ≥ listX.length then
      if num + 1 > endNum then some (num + 1, x)
      else
        match leftMostX (num + 1) with
        | none => none
        | some listX1 => moveNumDownLoop leftMostX endNum y (num + 1) (rowX listX1 0) listX1 1
    else moveNumDownLoop leftMostX endNum y num (rowX listX n) listX (n + 1)

/-- The function `moveNumDown`. -/
def moveNumDown (leftMostX : Int → Option (List Int)) (root : Root) (moveY : Int) : Root :=
  if root.WrapMode = false then { root with topLN := root.topLN + moveY }
  else
    let num := root.topLN + root.Header
    let x := root.topLX
    match leftMostX num with
    | none => root
    | some listX =>
      let n := numOfReverseSlice listX x
      match moveNumDownLoop leftMostX root.endNum moveY.toNat num x listX n with
      | none => root
      | some (num, x) => { root with topLN := num - root.Header, topLX := x }

/-- The statements of `moveUp` from the comment `Previous line` on. -/
def moveUpPrevious (leftMostX : Int → Option (List Int)) (root : Root) : Root :=
  let root := { root with topLN := root.topLN - 1 }
  if root.topLN < 0 then { root with topLN := 0, topLX := 0 }
  else
    match leftMostX (root.topLN + root.Header) with
    | none => root
    | some listX =>
      if listX.length > 0 then { root with topLX := listX.getD (listX.length - 1) 0 }
      else { root with topLX := 0 }

/-- The function `moveUp`; `none` is the panic of `listX[n-1]` at `n = 0`. -/
def moveUp (leftMostX : Int → Option (List Int)) (root : Root) : Option Root :=
  if root.topLN = 0 ∧ root.topLX = 0 then some root
  else if root.WrapMode = false then some { root with topLN := root.topLN - 1, topLX := 0 }
  else if root.topLX > 0 then
    match leftMostX (root.topLN + root.Header) with
    | none => some root
    | some listX =>
      match listX.findIdx? (fun x => decide (x ≥ root.topLX)) with
      | some n =>
        if n = 0 then none else some { root with topLX := listX.getD (n - 1) 0 }
      | none => some (moveUpPrevious leftMostX root)
  else some (moveUpPrevious leftMostX root)

/-- The function `moveDown`. -/
def moveDown (leftMostX : Int → Option (List Int)) (root : Root) : Root :=
  if root.WrapMode = false then { root with topLX := 0, topLN := root.topLN + 1 }
  else
    match leftMostX (root.topLN + root.Header) with
    | none => root
    | some listX =>
      match listX.find? (fun x => decide (x > root.topLX)) with
      | some x => { root with topLX := x }
      | none => { root with topLX := 0, topLN := root.topLN + 1 }

/-- An instance of `leftMostX` for running examples: every line from 0 on has
the two visual rows that start at the offsets 0 and 80, and no line with a
negative number is available. -/
def sampleLeftMostX (lN : Int) : Option (List Int) :=
  if lN < 0 then none else some [0, 80]

/-- A viewport in wrap mode at the top of a document of ten lines without
header. -/
def sampleRoot : Root :=
  { topLN := 0, topLX := 0, Header := 0, WrapMode := true, endNum := 9,
    searchWord := [], OriginStr := [], OriginPos := 0 }

/-- The viewport `sampleRoot` at the top line 5 during an incremental search
that started at line 2: the previous term and the new one. -/
def sampleSearch (OriginStr searchWord : List Nat) : Root :=
  { sampleRoot with topLN := 5, OriginPos := 2, OriginStr := OriginStr, searchWord := searchWord }

/-! ## Rendered columns, and lines of characters and SGR sequences -/

/-- The rendered column count of a cell sequence: the sum of the widths. -/
def columns (l : List Content) : Nat := (l.map Content.width).sum

/-- A piece of a line: a character, or an SGR sequence given by the bytes
between `ESC [` and the final `m`. -/
inductive Piece where
  | char (c : Nat)
  | sgr (params : List Nat)
deriving DecidableEq, Repr

/-- The character of a piece is printable ASCII (0x20..0x7e); the parameters
of an SGR sequence are digits and `;`. -/
def Piece.valid : Piece → Bool
  | Piece.char c => decide (32 ≤ c ∧ c ≤ 126)
  | Piece.sgr params => params.all (fun b => decide ((48 ≤ b ∧ b ≤ 57) ∨ b = 59))

/-- The runes of a piece: the character, or `ESC`, `[`, the parameters and
`m`. -/
def Piece.bytes : Piece → List Nat
  | Piece.char c => [c]
  | Piece.sgr params => 27 :: 91 :: (params ++ [109])

/-- The line made of the pieces `ps`. -/
def lineOf : List Piece → List Nat
  | [] => []
  | p :: ps => p.bytes ++ lineOf ps

/-- The characters among the pieces `ps`, in order. -/
def textOf : List Piece → List Nat
  | [] => []
  | Piece.char c :: ps => c :: textOf ps
  | Piece.sgr _ :: ps => textOf ps

/-! ## The final offset -/

/-- The bytes by which one pass of the loop over the rune `r`, met in state
`s`, advances the offset counter `n`: none where the pass does not reach the
assignment to `byteMap`; the encoded length of the rune where it does; and that
length twice for a tab of width 0 read with a negative tab width, where the
assignment and the increment are made a second time. -/
def consumed (env : Env) (tabWidth : Int) (s : ParseState) (r : Nat) : Nat :=
  if readAsText s r then
    if r = 9 ∧ env.RuneWidth r = 0 ∧ tabWidth < 0 then utf8Len r + utf8Len r else utf8Len r
  else 0

/-- The bytes by which the loop, started in state `s`, advances the offset
counter over the runes of `line`: the final consumed byte offset, when the loop
starts at offset 0. -/
def consumedBytes (env : Env) (tabWidth : Int) : List Nat → ParseState → Nat
  | [], _ => 0
  | r :: rs, s =>
    consumed env tabWidth s r +
      (match step env tabWidth s r with
        | some s1 => consumedBytes env tabWidth rs s1
        | none => 0)

/-! # Theorems -/

/-! ## Cell sequences -/

theorem WellFormed.getLast_width {l : List Content} (h : WellFormed l) :
    ∀ d, l.getLast? = some d → d.width ≤ 1 := by
  intro d hd
  cases h with
  | nil => simp at hd
  | single _ hc => simp at hd; subst hd; omega
  | wide _ hc => simp at hd; subst hd; simp [DefaultContent]

theorem lastContent_single {l : List Content} {c : Content} (h : WellFormed l) :
    lastContent (l ++ [c]) = c := by
  unfold lastContent
  simp only [List.length_append, List.length_singleton]
  rw [if_neg (by omega)]
  have h2 : ¬ (l.length + 1 > 1 ∧ ((l ++ [c]).getD (l.length + 1 - 2) DefaultContent).width > 1) := by
    rintro ⟨h1, h3⟩
    have hl : l ≠ [] := by
      intro h0; subst h0; simp at h1
    have : (l ++ [c]).getD (l.length + 1 - 2) DefaultContent = l.getLast hl := by
      rw [List.getD_append _ _ _ _ (by have := List.length_pos.mpr hl; omega)]
      rw [List.getLast_eq_getElem]
      rw [List.getD_eq_getElem _ _ (by have := List.length_pos.mpr hl; omega)]
      congr 1
    rw [this] at h3
    have := h.getLast_width (l.getLast hl) (List.getLast?_eq_getLast _ hl)
    omega
  rw [if_neg h2]
  simp [List.getD_append_right]

theorem lastContent_wide {l : List Content} {c : Content} (hc : c.width = 2) :
    lastContent (l ++ [c, DefaultContent]) = c := by
  unfold lastContent
  simp only [List.length_append, List.length_cons, List.length_singleton, List.length_nil]
  rw [if_neg (by omega)]
  have : (l ++ [c, DefaultContent]).getD (l.length + (0 + 1 + 1) - 2) DefaultContent = c := by
    rw [List.getD_append_right _ _ _ _ (by omega)]
    simp
  rw [this, if_pos ⟨by omega, by omega⟩]

theorem WellFormed.cases_last {l : List Content} (h : WellFormed l) :
    l = [] ∨
    (∃ l1 c, WellFormed l1 ∧ c.width = 1 ∧ l = l1 ++ [c] ∧ lastContent l = c) ∨
    (∃ l1 c, WellFormed l1 ∧ c.width = 2 ∧ l = l1 ++ [c, DefaultContent] ∧ lastContent l = c) := by
  cases h with
  | nil => exact Or.inl rfl
  | single h1 hc => exact Or.inr (Or.inl ⟨_, _, h1, hc, rfl, lastContent_single h1⟩)
  | wide h1 hc => exact Or.inr (Or.inr ⟨_, _, h1, hc, rfl, lastContent_wide hc⟩)

theorem set_last_single (l : List Content) (c d : Content) :
    (l ++ [c]).set ((l ++ [c]).length - 1) d = l ++ [d] := by
  simp [List.set_append]

theorem set_last_wide (l : List Content) (c e d : Content) :
    (l ++ [c, e]).set ((l ++ [c, e]).length - 2) d = l ++ [d, e] := by
  simp [List.set_append]

theorem utf8Len_pos (r : Nat) : 0 < utf8Len r := by
  unfold utf8Len; split_ifs <;> omega

theorem WellFormed.append_replicate {l : List Content} (h : WellFormed l) (c : Content)
    (hc : c.width = 1) (k : Nat) : WellFormed (l ++ List.replicate k c) := by
  induction k with
  | zero => simpa using h
  | succ k ih =>
    rw [List.replicate_succ', ← List.append_assoc]
    exact WellFormed.single ih hc

theorem WellFormed.append_two {l : List Content} (h : WellFormed l) {a b : Content}
    (ha : a.width = 1) (hb : b.width = 1) : WellFormed (l ++ [a, b]) := by
  have : l ++ [a, b] = (l ++ [a]) ++ [b] := by simp
  rw [this]
  exact WellFormed.single (WellFormed.single h ha) hb

theorem Recorded.of_record (s : ParseState) (r : Nat) (s1 : ParseState)
    (hb : s1.byteMap = (record s r).byteMap) (hn : s1.n = (record s r).n) : Recorded s s1 := by
  right
  refine ⟨[], ?_, ?_, ?_⟩
  · simpa [record] using hb
  · have := utf8Len_pos r
    simp [record] at hn; omega
  · intro p hp; simp at hp

theorem textStep_ok (env : Env) (tabWidth : Int) (s : ParseState) (r : Nat)
    (h : WellFormed s.contents) :
    ∃ s1, textStep env tabWidth s r = some s1 ∧ WellFormed s1.contents ∧ Recorded s s1 := by
  unfold textStep
  by_cases h27 : r = 27
  · rw [if_pos h27]; exact ⟨_, rfl, h, Or.inl ⟨rfl, rfl, rfl⟩⟩
  rw [if_neg h27]
  by_cases h10 : r = 10
  · rw [if_pos h10]; exact ⟨_, rfl, h, Or.inl ⟨rfl, rfl, rfl⟩⟩
  rw [if_neg h10]
  simp only []
  split
  · -- width 0
    by_cases h9 : r = 9
    · rw [if_pos h9]
      by_cases hp : tabWidth > 0
      · rw [if_pos hp]
        refine ⟨_, rfl, ?_, Recorded.of_record s r _ rfl rfl⟩
        exact h.append_replicate _ rfl _
      · rw [if_neg hp]
        by_cases hn : tabWidth < 0
        · rw [if_pos hn]
          refine ⟨_, rfl, ?_, ?_⟩
          · exact WellFormed.append_two h rfl rfl
          · right
            refine ⟨[(s.n + utf8Len r, s.contents.length)], ?_, ?_, ?_⟩
            · simp [record]
            · have := utf8Len_pos r
              simp [record]; omega
            · intro p hp
              have := utf8Len_pos r
              simp at hp; subst hp; simp [record]; omega
        · rw [if_neg hn]
          exact ⟨_, rfl, h, Recorded.of_record s r _ rfl rfl⟩
    · rw [if_neg h9]
      have hc : (record s r).contents = s.contents := rfl
      by_cases h8 : r = 8
      · rw [if_pos h8]
        rcases h.cases_last with h0 | ⟨l1, c, hl1, hw, hl, hlast⟩ | ⟨l1, c, hl1, hw, hl, hlast⟩
        · rw [if_pos (by rw [hc, h0]; rfl)]
          exact ⟨_, rfl, h, Recorded.of_record s r _ rfl rfl⟩
        · rw [if_neg (by rw [hc, hl]; simp)]
          simp only [hc, hlast]
          rw [if_neg (by omega)]
          refine ⟨_, rfl, ?_, Recorded.of_record s r _ rfl rfl⟩
          simp only [hl]
          rw [List.take_left' (by simp)]
          exact hl1
        · rw [if_neg (by rw [hc, hl]; simp)]
          simp only [hc, hlast]
          rw [if_pos (by omega), if_neg (by rw [hl]; simp)]
          refine ⟨_, rfl, ?_, Recorded.of_record s r _ rfl rfl⟩
          simp only [hl]
          rw [List.take_left' (by simp)]
          exact hl1
      · rw [if_neg h8]
        rcases h.cases_last with h0 | ⟨l1, c, hl1, hw, hl, hlast⟩ | ⟨l1, c, hl1, hw, hl, hlast⟩
        · rw [if_neg (by rw [hc, h0]; simp)]
          exact ⟨_, rfl, h, Recorded.of_record s r _ rfl rfl⟩
        · simp only [hc, hlast]
          rw [if_pos (by rw [hl]; simp; omega), if_pos (by rw [hl]; simp; omega)]
          refine ⟨_, rfl, ?_, Recorded.of_record s r _ rfl rfl⟩
          simp only [hl, hw]
          rw [set_last_single]
          exact WellFormed.single hl1 rfl
        · simp only [hc, hlast]
          rw [if_pos (by rw [hl]; simp; omega), if_pos (by rw [hl]; simp; omega)]
          refine ⟨_, rfl, ?_, Recorded.of_record s r _ rfl rfl⟩
          simp only [hl, hw]
          rw [set_last_wide]
          exact WellFormed.wide hl1 rfl
  · exact ⟨_, rfl, WellFormed.single h rfl, Recorded.of_record s r _ rfl rfl⟩
  · refine ⟨_, rfl, ?_, Recorded.of_record s r _ rfl rfl⟩
    exact WellFormed.wide h rfl
  · exact ⟨_, rfl, h, Recorded.of_record s r _ rfl rfl⟩

theorem step_ok (env : Env) (tabWidth : Int) (s : ParseState) (r : Nat)
    (h : WellFormed s.contents) :
    ∃ s1, step env tabWidth s r = some s1 ∧ WellFormed s1.contents ∧ Recorded s s1 := by
  unfold step
  split
  · split_ifs
    · exact ⟨_, rfl, h, Or.inl ⟨rfl, rfl, rfl⟩⟩
    · exact ⟨_, rfl, h, Or.inl ⟨rfl, rfl, rfl⟩⟩
    · exact ⟨_, rfl, h, Or.inl ⟨rfl, rfl, rfl⟩⟩
    · exact textStep_ok env tabWidth { s with state := AnsiState.ansiText } r h
  · split_ifs
    · exact ⟨_, rfl, h, Or.inl ⟨rfl, rfl, rfl⟩⟩
    · exact textStep_ok env tabWidth s r h
  · split_ifs <;> exact ⟨_, rfl, h, Or.inl ⟨rfl, rfl, rfl⟩⟩
  · exact textStep_ok env tabWidth s r h

/-! ## The byte map -/

theorem lookup_append_skip (k : Nat) (extra rest : List (Nat × Nat))
    (h : ∀ p ∈ extra, p.1 ≠ k) : (extra ++ rest).lookup k = rest.lookup k := by
  induction extra with
  | nil => rfl
  | cons p ps ih =>
    obtain ⟨a, b⟩ := p
    have hne : a ≠ k := h (a, b) (by simp)
    have hbeq : (k == a) = false := by simpa using fun h1 => hne h1.symm
    simp only [List.cons_append, List.lookup_cons, hbeq]
    exact ih (fun p hp => h p (by simp [hp]))

theorem mem_of_lookup {k v : Nat} {m : List (Nat × Nat)} (h : m.lookup k = some v) :
    (k, v) ∈ m := by
  induction m with
  | nil => simp at h
  | cons p ps ih =>
    obtain ⟨a, b⟩ := p
    rw [List.lookup_cons] at h
    by_cases hk : k = a
    · subst hk; simp at h; subst h; simp
    · have hbeq : (k == a) = false := by simpa using hk
      rw [hbeq] at h
      exact List.mem_cons_of_mem _ (ih h)

theorem Recorded.keysBelow {s s1 : ParseState} (h : Recorded s s1) (hk : KeysBelow s) :
    KeysBelow s1 := by
  rcases h with ⟨hb, hn, _⟩ | ⟨extra, hb, hn, he⟩
  · intro p hp; rw [hb] at hp; rw [hn]; exact hk p hp
  · intro p hp
    rw [hb] at hp
    rcases List.mem_append.mp hp with h1 | h1
    · exact (he p h1).2
    · rcases List.mem_cons.mp h1 with h2 | h2
      · subst h2; exact hn
      · exact lt_trans (hk p h2) hn

theorem Recorded.get_old {s s1 : ParseState} (h : Recorded s s1)
    (k : Nat) (hlt : k < s.n) : byteMapGet s1.byteMap k = byteMapGet s.byteMap k := by
  rcases h with ⟨hb, _, _⟩ | ⟨extra, hb, hn, he⟩
  · rw [hb]
  · unfold byteMapGet
    rw [hb, lookup_append_skip k extra _ (fun p hp => by have := (he p hp).1; omega)]
    have hbeq : (k == s.n) = false := by simpa using (show k ≠ s.n by omega)
    rw [List.lookup_cons, hbeq]

theorem Recorded.zeroKey {s s1 : ParseState} (h : Recorded s s1) (hz : ZeroKey s) :
    ZeroKey s1 := by
  rcases h with ⟨hb, hn, hc⟩ | ⟨extra, hb, hn, he⟩
  · unfold ZeroKey; rw [hb, hn, hc]; exact hz
  · right
    refine ⟨by omega, ?_⟩
    unfold byteMapGet
    rw [hb, lookup_append_skip 0 extra _ (fun p hp => by have := (he p hp).1; omega)]
    rw [List.lookup_cons]
    rcases hz with ⟨h0, _, hc⟩ | ⟨hpos, hg⟩
    · simp [h0, hc]
    · have hbeq : ((0 : Nat) == s.n) = false := by simpa using (show (0 : Nat) ≠ s.n by omega)
      rw [hbeq]; exact hg

theorem step_inv (env : Env) (tabWidth : Int) (s : ParseState) (r : Nat) (h : Inv s) :
    ∃ s1, step env tabWidth s r = some s1 ∧ Inv s1 ∧ Recorded s s1 := by
  obtain ⟨s1, h1, hw, hr⟩ := step_ok env tabWidth s r h.1
  exact ⟨s1, h1, ⟨hw, hr.keysBelow h.2.1, hr.zeroKey h.2.2⟩, hr⟩

theorem initState_inv : Inv initState :=
  ⟨WellFormed.nil, fun p hp => by simp [initState] at hp, Or.inl ⟨rfl, rfl, rfl⟩⟩

theorem run_append (env : Env) (tabWidth : Int) (l1 l2 : List Nat) (s : ParseState) :
    run env tabWidth (l1 ++ l2) s = (run env tabWidth l1 s).bind (run env tabWidth l2) := by
  induction l1 generalizing s with
  | nil => rfl
  | cons r rs ih =>
    simp only [List.cons_append, run]
    cases step env tabWidth s r with
    | none => rfl
    | some s1 => exact ih s1

theorem run_inv (env : Env) (tabWidth : Int) (line : List Nat) (s : ParseState) (h : Inv s) :
    ∃ s1, run env tabWidth line s = some s1 ∧ Inv s1 ∧ s.n ≤ s1.n ∧
      ∀ k, k < s.n → byteMapGet s1.byteMap k = byteMapGet s.byteMap k := by
  induction line generalizing s with
  | nil => exact ⟨s, rfl, h, le_refl _, fun _ _ => rfl⟩
  | cons r rs ih =>
    obtain ⟨s1, h1, hi1, hr⟩ := step_inv env tabWidth s r h
    obtain ⟨s2, h2, hi2, hn2, hg2⟩ := ih s1 hi1
    have hn1 : s.n ≤ s1.n := by
      rcases hr with ⟨_, hn, _⟩ | ⟨_, _, hn, _⟩ <;> omega
    refine ⟨s2, by simp [run, h1, h2], hi2, le_trans hn1 hn2, ?_⟩
    intro k hk
    rw [hg2 k (by omega), hr.get_old k hk]

/-- The first assignment after a state stores the present cell count under the
present offset, whatever follows on the line. -/
theorem run_next_record (env : Env) (tabWidth : Int) (line : List Nat) (s : ParseState)
    (h : Inv s) :
    ∃ s1, run env tabWidth line s = some s1 ∧
      byteMapGet (finish s1).byteMap s.n = some s.contents.length := by
  induction line generalizing s with
  | nil =>
    refine ⟨s, rfl, ?_⟩
    simp [finish, byteMapGet, List.lookup_cons]
  | cons r rs ih =>
    obtain ⟨s1, h1, hi1, hr⟩ := step_inv env tabWidth s r h
    rcases hr with ⟨hb, hn, hc⟩ | ⟨extra, hb, hn, he⟩
    · obtain ⟨s2, h2, hg⟩ := ih s1 hi1
      refine ⟨s2, by simp [run, h1, h2], ?_⟩
      rw [← hn, ← hc]; exact hg
    · obtain ⟨s2, h2, hi2, hn2, hg2⟩ := run_inv env tabWidth rs s1 hi1
      refine ⟨s2, by simp [run, h1, h2], ?_⟩
      have hne : (s.n == s2.n) = false := by simpa using (show s.n ≠ s2.n by omega)
      have : byteMapGet (finish s2).byteMap s.n = byteMapGet s2.byteMap s.n := by
        simp [finish, byteMapGet, List.lookup_cons, hne]
      rw [this, hg2 s.n hn]
      unfold byteMapGet
      rw [hb, lookup_append_skip s.n extra _ (fun p hp => by have := (he p hp).1; omega)]
      simp [List.lookup_cons]

theorem WellFormed.width_two {l : List Content} (h : WellFormed l) :
    ∀ i c, l[i]? = some c → c.width = 2 →
      ∃ d, l[i + 1]? = some d ∧ d.width = 0 ∧ d.mainc = 0 := by
  induction h with
  | nil => intro i c hc; simp at hc
  | @single l c0 _ hw ih =>
    intro i c hc h2
    by_cases hi : i < l.length
    · rw [List.getElem?_append_left hi] at hc
      obtain ⟨d, hd, hd0⟩ := ih i c hc h2
      have hi1 : i + 1 < l.length := by
        by_contra hcon
        rw [List.getElem?_eq_none (by omega)] at hd; simp at hd
      exact ⟨d, by rw [List.getElem?_append_left hi1]; exact hd, hd0⟩
    · rw [List.getElem?_append_right (by omega)] at hc
      have : i - l.length = 0 := by
        by_contra hcon
        rw [List.getElem?_eq_none (by simp; omega)] at hc; simp at hc
      rw [this] at hc; simp at hc; subst hc; omega
  | @wide l c0 _ hw ih =>
    intro i c hc h2
    by_cases hi : i < l.length
    · rw [List.getElem?_append_left hi] at hc
      obtain ⟨d, hd, hd0⟩ := ih i c hc h2
      have hi1 : i + 1 < l.length := by
        by_contra hcon
        rw [List.getElem?_eq_none (by omega)] at hd; simp at hd
      exact ⟨d, by rw [List.getElem?_append_left hi1]; exact hd, hd0⟩
    · rw [List.getElem?_append_right (by omega)] at hc
      rcases Nat.lt_or_ge (i - l.length) 1 with h0 | h0
      · have h00 : i - l.length = 0 := by omega
        refine ⟨DefaultContent, ?_, rfl, rfl⟩
        rw [List.getElem?_append_right (by omega)]
        have : i + 1 - l.length = 1 := by omega
        rw [this]; rfl
      · rcases Nat.lt_or_ge (i - l.length) 2 with h1 | h1
        · have h11 : i - l.length = 1 := by omega
          rw [h11] at hc; simp at hc; subst hc; simp [DefaultContent] at h2
        · rw [List.getElem?_eq_none (by simp; omega)] at hc; simp at hc

theorem WellFormed.width_zero {l : List Content} (h : WellFormed l) :
    ∀ i c, l[i]? = some c → c.width = 0 →
      ∃ p, 0 < i ∧ l[i - 1]? = some p ∧ p.width = 2 := by
  induction h with
  | nil => intro i c hc; simp at hc
  | @single l c0 _ hw ih =>
    intro i c hc h2
    by_cases hi : i < l.length
    · rw [List.getElem?_append_left hi] at hc
      obtain ⟨p, hp0, hp, hp2⟩ := ih i c hc h2
      exact ⟨p, hp0, by rw [List.getElem?_append_left (by omega)]; exact hp, hp2⟩
    · rw [List.getElem?_append_right (by omega)] at hc
      have : i - l.length = 0 := by
        by_contra hcon
        rw [List.getElem?_eq_none (by simp; omega)] at hc; simp at hc
      rw [this] at hc; simp at hc; subst hc; omega
  | @wide l c0 _ hw ih =>
    intro i c hc h2
    by_cases hi : i < l.length
    · rw [List.getElem?_append_left hi] at hc
      obtain ⟨p, hp0, hp, hp2⟩ := ih i c hc h2
      exact ⟨p, hp0, by rw [List.getElem?_append_left (by omega)]; exact hp, hp2⟩
    · rw [List.getElem?_append_right (by omega)] at hc
      rcases Nat.lt_or_ge (i - l.length) 1 with h0 | h0
      · have h00 : i - l.length = 0 := by omega
        rw [h00] at hc; simp at hc; subst hc; omega
      · rcases Nat.lt_or_ge (i - l.length) 2 with h1 | h1
        · have h11 : i - l.length = 1 := by omega
          refine ⟨c0, by omega, ?_, hw⟩
          rw [List.getElem?_append_right (by omega)]
          have : i - 1 - l.length = 0 := by omega
          rw [this]; rfl
        · rw [List.getElem?_eq_none (by simp; omega)] at hc; simp at hc


/-! ## Claims on the cell sequence and the byte map -/

/-- C2: for every line and tab width, in the cells `parseString` returns every
cell of width 2 is directly followed by a cell of width 0 with `mainc` 0, and
every cell of width 0 is directly preceded by a cell of width 2; a line that is
one double-width glyph yields the width-2 cell and its placeholder, with
`byteMap` holding 0 at key 0 and 2 at the encoded length of the glyph. -/
theorem parseString_wide_cells (env : Env) (line : List Nat) (tabWidth : Int) :
    (∃ lc, parseString env line tabWidth = some lc ∧
      (∀ i c, lc.contents[i]? = some c → c.width = 2 →
        ∃ d, lc.contents[i + 1]? = some d ∧ d.width = 0 ∧ d.mainc = 0) ∧
      (∀ i c, lc.contents[i]? = some c → c.width = 0 →
        ∃ p, 0 < i ∧ lc.contents[i - 1]? = some p ∧ p.width = 2)) ∧
    (∀ r, env.RuneWidth r = 2 → r ≠ 27 → r ≠ 10 →
      parseString env [r] tabWidth =
        some { contents := [{ width := 2, mainc := r, combc := [], style := StyleDefault },
                            { width := 0, mainc := 0, combc := [], style := StyleDefault }],
               byteMap := [(utf8Len r, 2), (0, 0)] }) := by
  constructor
  · obtain ⟨s, hs, ⟨hw, _, _⟩, _, _⟩ := run_inv env tabWidth line initState initState_inv
    exact ⟨finish s, by simp [parseString, hs], hw.width_two, hw.width_zero⟩
  · intro r h2 h27 h10
    simp [parseString, run, step, textStep, initState, h2, h27, h10, record, finish,
      DefaultContent, emitStyle]

/-- Witness for C2 at the line made of the hiragana letter U+3042. -/
theorem parseString_wide_cells_witness :
    parseString sampleEnv [12354] 4 =
      some { contents := [{ width := 2, mainc := 12354, combc := [], style := StyleDefault },
                          { width := 0, mainc := 0, combc := [], style := StyleDefault }],
             byteMap := [(3, 2), (0, 0)] } :=
  (parseString_wide_cells sampleEnv [12354] 4).2 12354 (by decide) (by decide) (by decide)


/-! ## Printable ASCII text -/

theorem utf8Len_ascii {r : Nat} (h : r ≤ 126) : utf8Len r = 1 := by
  unfold utf8Len; rw [if_pos (by omega)]

/-- One printable ASCII rune read in the text state, with no overstrike
pending, appends its cell and one `byteMap` entry. -/
theorem step_printable (env : Env) (tabWidth : Int) (s : ParseState) (r : Nat)
    (hw : ∀ r, 32 ≤ r → r ≤ 126 → env.RuneWidth r = 1)
    (hr : 32 ≤ r ∧ r ≤ 126) (hst : s.state = AnsiState.ansiText) (hbs : s.bsFlag = false) :
    step env tabWidth s r = some { s with
      contents := s.contents ++ [{ width := 1, mainc := r, combc := [], style := s.style }],
      byteMap := (s.n, s.contents.length) :: s.byteMap,
      x := s.x + 1, n := s.n + 1 } := by
  have h27 : r ≠ 27 := by omega
  have h10 : r ≠ 10 := by omega
  obtain ⟨c, b, st, cp, sty, x, n, bf, bc⟩ := s
  simp only at hst hbs
  subst hst hbs
  simp [step, textStep, h27, h10, hw r hr.1 hr.2, record, utf8Len_ascii hr.2, emitStyle,
    DefaultContent]

/-- A run of printable ASCII runes read in the text state, with no overstrike
pending. -/
theorem run_printable (env : Env) (tabWidth : Int) (line : List Nat)
    (hw : ∀ r, 32 ≤ r → r ≤ 126 → env.RuneWidth r = 1)
    (hline : ∀ r ∈ line, 32 ≤ r ∧ r ≤ 126) (s : ParseState)
    (hst : s.state = AnsiState.ansiText) (hbs : s.bsFlag = false) :
    ∃ s1, run env tabWidth line s = some s1 ∧
      s1.state = AnsiState.ansiText ∧ s1.bsFlag = false ∧ s1.style = s.style ∧
      s1.contents = s.contents ++
        line.map (fun r => { width := 1, mainc := r, combc := [], style := s.style }) ∧
      s1.n = s.n + line.length ∧ s1.x = s.x + line.length ∧
      ∀ k, byteMapGet s1.byteMap k =
        if s.n ≤ k ∧ k < s.n + line.length then some (s.contents.length + (k - s.n))
        else byteMapGet s.byteMap k := by
  induction line generalizing s with
  | nil =>
    refine ⟨s, rfl, hst, hbs, rfl, by simp, rfl, rfl, ?_⟩
    intro k; rw [if_neg (by simp)]
  | cons r rs ih =>
    have hr := hline r (by simp)
    have hstep := step_printable env tabWidth s r hw hr hst hbs
    obtain ⟨s1, h1, hs1, hb1, hy1, hc1, hn1, hx1, hg1⟩ :=
      ih (fun q hq => hline q (by simp [hq]))
        { s with
          contents := s.contents ++ [{ width := 1, mainc := r, combc := [], style := s.style }],
          byteMap := (s.n, s.contents.length) :: s.byteMap,
          x := s.x + 1, n := s.n + 1 } hst hbs
    dsimp only at hy1 hc1 hn1 hx1 hg1
    refine ⟨s1, by simp [run, hstep, h1], hs1, hb1, hy1, ?_, ?_, ?_, ?_⟩
    · simpa using hc1
    · rw [hn1, List.length_cons]; omega
    · rw [hx1, List.length_cons]; omega
    · intro k
      rw [hg1 k]
      simp only [List.length_append, List.length_singleton, List.length_cons, List.length_nil,
        byteMapGet, List.lookup_cons]
      by_cases hk : k = s.n
      · subst hk
        simp
      · have hbeq : (k == s.n) = false := by simpa using hk
        rw [hbeq]
        by_cases h2 : s.n + 1 ≤ k ∧ k < s.n + 1 + rs.length
        · rw [if_pos h2, if_pos (by omega)]
          exact congrArg some (by omega)
        · rw [if_neg h2, if_neg (by omega)]

/-- C1: a line of printable ASCII characters (0x20..0x7e) is parsed, for every
tab width, into one cell per character, in order, each of width 1 with the
character as `mainc`, no combining runes and the default style; `byteMap` maps
every `i` with `0 ≤ i ≤ len(line)` to `i` and holds no other key. -/
theorem parseString_printable_ascii (env : Env) (line : List Nat) (tabWidth : Int)
    (hw : ∀ r, 32 ≤ r → r ≤ 126 → env.RuneWidth r = 1)
    (hline : ∀ r ∈ line, 32 ≤ r ∧ r ≤ 126) :
    ∃ lc, parseString env line tabWidth = some lc ∧
      lc.contents =
        line.map (fun r => { width := 1, mainc := r, combc := [], style := StyleDefault }) ∧
      ∀ k, byteMapGet lc.byteMap k = if k ≤ line.length then some k else none := by
  obtain ⟨s, hs, _, _, _, hc, hn, _, hg⟩ :=
    run_printable env tabWidth line hw hline initState rfl rfl
  refine ⟨finish s, by simp [parseString, hs], by simpa [finish, initState] using hc, ?_⟩
  intro k
  simp only [finish, byteMapGet, List.lookup_cons]
  have hn0 : s.n = line.length := by simpa [initState] using hn
  have hlen : s.contents.length = line.length := by rw [hc]; simp [initState]
  by_cases hk : k = s.n
  · subst hk
    simp [hlen, hn0]
  · have hbeq : (k == s.n) = false := by simpa using hk
    rw [hbeq]
    have := hg k
    simp only [byteMapGet, initState] at this
    rw [this]
    by_cases h2 : k < line.length
    · simp [h2, le_of_lt h2]
    · have : ¬ k ≤ line.length := by omega
      simp [h2, this]

/-- Witness for C1 at the line `abc` of the package tests. -/
theorem parseString_printable_ascii_witness :
    ∃ lc, parseString sampleEnv [97, 98, 99] 4 = some lc ∧
      lc.contents =
        [97, 98, 99].map
          (fun r => { width := 1, mainc := r, combc := [], style := StyleDefault }) ∧
      ∀ k, byteMapGet lc.byteMap k = if k ≤ [97, 98, 99].length then some k else none :=
  parseString_printable_ascii sampleEnv [97, 98, 99] 4
    (fun r h1 h2 => by simp only [sampleEnv]; rw [if_neg (by omega), if_neg (by omega)])
    (by decide)


/-! ## Claims on the SGR resolver -/

/-- C4, as the code behaves: with the parameter string `0` the result is the
default style, but with the empty parameter string of `ESC[m` the style comes
back unchanged, so the text after `ESC[m` keeps the attributes set before it:
in `ESC[1m A ESC[m B` the cell of `B` is bold. -/
theorem csToStyle_empty_parameter (s : Style) :
    csToStyle s (str "0") = StyleDefault ∧
    csToStyle s (str "") = s ∧
    csToStyle (StyleDefault.Bold true) (str "") ≠ StyleDefault ∧
    parseString sampleEnv (str "\x1b[1mA\x1b[mB") 8 =
      some { contents := [{ width := 1, mainc := 65, combc := [], style := StyleDefault.Bold true },
                          { width := 1, mainc := 66, combc := [], style := StyleDefault.Bold true }],
             byteMap := [(2, 2), (1, 1), (0, 0)] } ∧
    parseString sampleEnv (str "\x1b[1mA\x1b[0mB") 8 =
      some { contents := [{ width := 1, mainc := 65, combc := [], style := StyleDefault.Bold true },
                          { width := 1, mainc := 66, combc := [], style := StyleDefault }],
             byteMap := [(2, 2), (1, 1), (0, 0)] } :=
  ⟨rfl, rfl, by decide, by decide, by decide⟩

/-- C5: a parameter string that is one colour code changes one colour of the
current style and nothing else: codes 30..37 set the foreground to palette
entries 0..7, 40..47 the background to 0..7, 90..97 the foreground to 8..15,
100..107 the background to 8..15, 39 and 49 reset the foreground and the
background to the terminal default. -/
theorem csToStyle_colour_code (s : Style) :
    (∀ i : Fin 8, csToStyle s (decimal (30 + i)) = { s with fg := (i : Int) }) ∧
    (∀ i : Fin 8, csToStyle s (decimal (40 + i)) = { s with bg := (i : Int) }) ∧
    (∀ i : Fin 8, csToStyle s (decimal (90 + i)) = { s with fg := (90 + i : Int) - 82 }) ∧
    (∀ i : Fin 8, csToStyle s (decimal (100 + i)) = { s with bg := (100 + i : Int) - 92 }) ∧
    csToStyle s (decimal 39) = { s with fg := ColorDefault } ∧
    csToStyle s (decimal 49) = { s with bg := ColorDefault } := by
  refine ⟨?_, ?_, ?_, ?_, rfl, rfl⟩ <;> intro i <;> fin_cases i <;> rfl


/-- C6: for the parameter strings `38;5;n` (foreground) and `48;5;n`
(background) with `n` written in decimal: for `16 ≤ n ≤ 231` the colour is the
RGB triple `(255*r/5, 255*g/5, 255*b/5)` with `r = (n-16)/36`,
`g = ((n-16)/6) mod 6`, `b = (n-16) mod 6`, each component one of
0, 51, 102, 153, 204, 255; for `232 ≤ n ≤ 255` it is the grey `(v, v, v)` with
`v = 255*(n-232)/23`, which is 0 at 232, 255 at 255 and never above 255; for
`n ≤ 15` it is the `n`-th named colour of `lookupColor`, palette entry `n`
(1 is maroon); `n = 21` gives `#0000ff`. -/
theorem csToStyle_palette (s : Style) (n : Nat) :
    (16 ≤ n → n ≤ 231 →
      csToStyle s (str "38;5;" ++ decimal n) =
        { s with fg := NewRGBColor (255 * ((n - 16) / 36) / 5 : Nat)
                        (255 * ((n - 16) / 6 % 6) / 5 : Nat) (255 * ((n - 16) % 6) / 5 : Nat) } ∧
      csToStyle s (str "48;5;" ++ decimal n) =
        { s with bg := NewRGBColor (255 * ((n - 16) / 36) / 5 : Nat)
                        (255 * ((n - 16) / 6 % 6) / 5 : Nat) (255 * ((n - 16) % 6) / 5 : Nat) } ∧
      255 * ((n - 16) / 36) / 5 ∈ [0, 51, 102, 153, 204, 255] ∧
      255 * ((n - 16) / 6 % 6) / 5 ∈ [0, 51, 102, 153, 204, 255] ∧
      255 * ((n - 16) % 6) / 5 ∈ [0, 51, 102, 153, 204, 255]) ∧
    (232 ≤ n → n ≤ 255 →
      csToStyle s (str "38;5;" ++ decimal n) =
        { s with fg := NewRGBColor (255 * (n - 232) / 23 : Nat) (255 * (n - 232) / 23 : Nat)
                        (255 * (n - 232) / 23 : Nat) } ∧
      csToStyle s (str "48;5;" ++ decimal n) =
        { s with bg := NewRGBColor (255 * (n - 232) / 23 : Nat) (255 * (n - 232) / 23 : Nat)
                        (255 * (n - 232) / 23 : Nat) } ∧
      255 * (n - 232) / 23 ≤ 255) ∧
    (n ≤ 15 →
      csToStyle s (str "38;5;" ++ decimal n) = { s with fg := (n : Int) } ∧
      csToStyle s (str "48;5;" ++ decimal n) = { s with bg := (n : Int) } ∧
      GetColor (lookupColor n) = (n : Int) ∧
      colorNames[n]? = some (lookupColor n)) ∧
    255 * (232 - 232) / 23 = 0 ∧ 255 * (255 - 232) / 23 = 255 ∧
    lookupColor 1 = str "maroon" ∧
    csToStyle s (str "38;5;21") = { s with fg := GetColor (str "#0000ff") } ∧
    GetColor (str "#0000ff") = NewRGBColor 0 0 255 ∧
    NewRGBColor 0 0 255 = ColorIsRGB + 255 := by
  refine ⟨?_, ?_, ?_, rfl, rfl, rfl, rfl, rfl, rfl⟩
  · intro h1 h2
    interval_cases n <;> exact ⟨rfl, rfl, by decide, by decide, by decide⟩
  · intro h1 h2
    interval_cases n <;> exact ⟨rfl, rfl, by decide⟩
  · intro h1
    interval_cases n <;> exact ⟨rfl, rfl, rfl, rfl⟩

/-- Witness for C6 at the cube colour 21, the grey 255 and the named colour
1. -/
theorem csToStyle_palette_witness :
    csToStyle StyleDefault (str "38;5;21") = { StyleDefault with fg := NewRGBColor 0 0 255 } ∧
    csToStyle StyleDefault (str "38;5;255") = { StyleDefault with fg := NewRGBColor 255 255 255 } ∧
    csToStyle StyleDefault (str "38;5;1") = { StyleDefault with fg := 1 } :=
  ⟨((csToStyle_palette StyleDefault 21).1 (by decide) (by decide)).1,
   ((csToStyle_palette StyleDefault 255).2.1 (by decide) (by decide)).1,
   ((csToStyle_palette StyleDefault 1).2.2.1 (by decide)).1⟩


/-- C7: for printable characters `p` and `m` of width 1 or 2, the line
`p`, backspace, `m` is parsed into the cell of `m` alone (with its placeholder
when `m` is double-width); its style is `OverStrikeStyle` when `p = m`,
otherwise `OverLineStyle` when `p` is the underscore, otherwise the ambient
(default) style.  The equality test comes first, so underscore over underscore
takes `OverStrikeStyle`. -/
theorem parseString_overstrike (env : Env) (tabWidth : Int) (p m : Nat)
    (hp : env.RuneWidth p = 1 ∨ env.RuneWidth p = 2)
    (hm : env.RuneWidth m = 1 ∨ env.RuneWidth m = 2)
    (hbs : env.RuneWidth 8 = 0)
    (hp27 : p ≠ 27) (hp10 : p ≠ 10) (hm27 : m ≠ 27) (hm10 : m ≠ 10) :
    (∃ lc, parseString env [p, 8, m] tabWidth = some lc ∧
      lc.contents =
        (if env.RuneWidth m = 2 then
          [{ width := 2, mainc := m, combc := [],
             style := if p = m then env.OverStrikeStyle
                      else if p = 95 then env.OverLineStyle else StyleDefault },
           DefaultContent]
         else
          [{ width := 1, mainc := m, combc := [],
             style := if p = m then env.OverStrikeStyle
                      else if p = 95 then env.OverLineStyle else StyleDefault }])) ∧
    overstrike env 95 95 StyleDefault = env.OverStrikeStyle := by
  refine ⟨?_, by simp [overstrike]⟩
  rcases hp with hp | hp <;> rcases hm with hm | hm <;>
    simp [parseString, run, step, textStep, initState, record, finish, emitStyle, overstrike,
      lastContent, DefaultContent, hp, hm, hbs, hp27, hp10, hm27, hm10]

/-- Witness for C7 at the line `_`, backspace, `a` of the package tests. -/
theorem parseString_overstrike_witness :
    (∃ lc, parseString sampleEnv [95, 8, 97] 8 = some lc ∧
      lc.contents =
        (if sampleEnv.RuneWidth 97 = 2 then
          [{ width := 2, mainc := 97, combc := [],
             style := if 95 = 97 then sampleEnv.OverStrikeStyle
                      else if 95 = 95 then sampleEnv.OverLineStyle else StyleDefault },
           DefaultContent]
         else
          [{ width := 1, mainc := 97, combc := [],
             style := if 95 = 97 then sampleEnv.OverStrikeStyle
                      else if 95 = 95 then sampleEnv.OverLineStyle else StyleDefault }])) ∧
    overstrike sampleEnv 95 95 StyleDefault = sampleEnv.OverStrikeStyle :=
  parseString_overstrike sampleEnv 8 95 97 (by decide) (by decide) (by decide) (by decide)
    (by decide) (by decide) (by decide)


/-! ## Tabs -/

theorem textStep_x_len (env : Env) (tabWidth : Int) (s s1 : ParseState) (r : Nat)
    (h : textStep env tabWidth s r = some s1) (hr : r ≠ 8) (hx : s.x = s.contents.length) :
    s1.x = s1.contents.length := by
  unfold textStep at h
  split_ifs at h <;> (try simp only at h) <;> (try split at h) <;> (try split_ifs at h) <;>
    first
    | (simp at h; done)
    | (simp at h; subst h; simp [record, hx])

theorem step_x_len (env : Env) (tabWidth : Int) (s s1 : ParseState) (r : Nat)
    (h : step env tabWidth s r = some s1) (hr : r ≠ 8) (hx : s.x = s.contents.length) :
    s1.x = s1.contents.length := by
  unfold step at h
  split at h
  · split_ifs at h
    · simp at h; subst h; exact hx
    · simp at h; subst h; exact hx
    · simp at h; subst h; exact hx
    · exact textStep_x_len env tabWidth _ s1 r h hr hx
  · split_ifs at h
    · simp at h; subst h; exact hx
    · exact textStep_x_len env tabWidth _ s1 r h hr hx
  · split_ifs at h <;> (simp at h; subst h; exact hx)
  · exact textStep_x_len env tabWidth _ s1 r h hr hx

/-- On a line without backspace the column counter `x` is the cell count. -/
theorem run_x_len (env : Env) (tabWidth : Int) (line : List Nat) (s s1 : ParseState)
    (h : run env tabWidth line s = some s1) (hline : 8 ∉ line)
    (hx : s.x = s.contents.length) : s1.x = s1.contents.length := by
  induction line generalizing s with
  | nil => simp [run] at h; subst h; exact hx
  | cons r rs ih =>
    simp only [run] at h
    cases hs : step env tabWidth s r with
    | none => rw [hs] at h; simp at h
    | some s2 =>
      rw [hs] at h
      have hr : r ≠ 8 := fun h8 => hline (by simp [h8])
      exact ih s2 h (fun h8 => hline (by simp [h8])) (step_x_len env tabWidth s s2 r hs hr hx)

theorem tabStop_eq (t x : Nat) : (((t : Int) - (x : Int) % (t : Int)).toNat) = t - x % t := by
  rw [← Int.natCast_mod, Int.toNat_sub]

theorem dvd_next_stop (t c : Nat) (ht : 0 < t) : t ∣ c + (t - c % t) := by
  have h1 := Nat.div_add_mod c t
  have h2 := Nat.mod_lt c ht
  refine ⟨c / t + 1, ?_⟩
  rw [Nat.mul_succ]
  generalize t * (c / t) = q at h1 ⊢
  omega


/-- The tab read outside a control sequence, for a positive tab width. -/
theorem step_tab_pos (env : Env) (t : Nat) (s : ParseState) (ht : 0 < t)
    (htab : env.RuneWidth 9 = 0) (hst : s.state ≠ AnsiState.ansiControlSequence) :
    ∃ s1, step env (t : Int) s 9 = some s1 ∧
      s1.contents = s.contents ++
        List.replicate (t - s.x % t) { width := 1, mainc := 32, combc := [], style := s.style } ∧
      s1.byteMap = (s.n, s.contents.length) :: s.byteMap := by
  have hpos : (t : Int) > 0 := by exact_mod_cast ht
  obtain ⟨c, b, st, cp, sty, x, n, bf, bc⟩ := s
  cases st <;>
    simp [step, textStep, htab, hpos, record, DefaultContent, tabStop_eq] at hst ⊢

/-- C8, counterexample: with tab width 4, the tab of the line `ESC [ TAB` is
read inside a control sequence and is dropped: no cell and no `byteMap` entry
come from it, where the claim asks for four space cells. -/
theorem tab_in_control_sequence_dropped :
    ¬ TabRendered sampleEnv 4 [27, 91] ∧
    parseString sampleEnv [27, 91, 9] 4 = some { contents := [], byteMap := [(0, 0)] } := by
  refine ⟨?_, by decide⟩
  rintro ⟨s, s1, hs, hstep, hc, _⟩
  have h0 : run sampleEnv 4 [27, 91] initState =
      some { initState with state := AnsiState.ansiControlSequence } := by decide
  rw [h0] at hs
  injection hs with hs
  subst hs
  have h1 : step sampleEnv 4 { initState with state := AnsiState.ansiControlSequence } 9 =
      some initState := by decide
  rw [h1] at hstep
  injection hstep with hstep
  subst hstep
  revert hc
  decide

/-- C8, amended: for a tab width `t > 0` and a line without backspace, each tab
that is read outside a control sequence (the parser is not in the state
`ansiControlSequence` when it reaches the tab) is rendered as exactly
`t - (c mod t)` cells of width 1 holding a space in the ambient style, `c`
being the number of cells before the tab; the cell count after the tab is a
multiple of `t`, and the tab adds the single `byteMap` entry `n -> c`, `n`
being the offset counter of the parser at the tab.  For `a TAB b` and `t = 4`
the cells are `a`, three spaces, `b` and `byteMap` is 0:0, 1:1, 2:4, 3:5. -/
theorem tab_rendered_outside_control_sequence (env : Env) (tabWidth : Int) (pre : List Nat)
    (ht : 0 < tabWidth) (htab : env.RuneWidth 9 = 0) (hpre : 8 ∉ pre)
    (hst : ∀ s, run env tabWidth pre initState = some s →
      s.state ≠ AnsiState.ansiControlSequence) :
    TabRendered env tabWidth pre ∧
    (∀ s1, run env tabWidth (pre ++ [9]) initState = some s1 →
      tabWidth.toNat ∣ s1.contents.length) ∧
    parseString sampleEnv (str "a\tb") 4 =
      some { contents := [{ width := 1, mainc := 97, combc := [], style := StyleDefault },
                          { width := 1, mainc := 32, combc := [], style := StyleDefault },
                          { width := 1, mainc := 32, combc := [], style := StyleDefault },
                          { width := 1, mainc := 32, combc := [], style := StyleDefault },
                          { width := 1, mainc := 98, combc := [], style := StyleDefault }],
             byteMap := [(3, 5), (2, 4), (1, 1), (0, 0)] } := by
  obtain ⟨t, rfl⟩ := Int.eq_ofNat_of_zero_le (le_of_lt ht)
  have htpos : 0 < t := by exact_mod_cast ht
  obtain ⟨s, hs, _⟩ := run_inv env (t : Int) pre initState initState_inv
  have hx : s.x = s.contents.length := run_x_len env (t : Int) pre initState s hs hpre rfl
  obtain ⟨s1, h1, hc, hb⟩ := step_tab_pos env t s htpos htab (hst s hs)
  rw [hx] at hc
  refine ⟨⟨s, s1, hs, h1, by simpa using hc, hb⟩, ?_, by decide⟩
  intro s2 h2
  rw [run_append, hs] at h2
  simp only [Option.bind, run, h1] at h2
  injection h2 with h2
  subst h2
  rw [hc, List.length_append, List.length_replicate]
  simpa using dvd_next_stop t s.contents.length htpos

/-- Witness for C8 at the tab of `a TAB` with tab width 4. -/
theorem tab_rendered_outside_control_sequence_witness :
    TabRendered sampleEnv 4 [97] ∧
    (∀ s1, run sampleEnv 4 ([97] ++ [9]) initState = some s1 →
      (4 : Int).toNat ∣ s1.contents.length) :=
  let h := tab_rendered_outside_control_sequence sampleEnv 4 [97] (by decide) (by decide)
    (by decide)
    (fun s hs => by
      have h0 : run sampleEnv 4 [97] initState = some
          { initState with
            contents := [{ width := 1, mainc := 97, combc := [], style := StyleDefault }],
            byteMap := [(0, 0)], x := 1, n := 1 } := by decide
      rw [h0] at hs
      injection hs with hs
      subst hs
      decide)
  ⟨h.1, h.2.1⟩


/-- The tab read in the text state, for a negative tab width. -/
theorem step_tab_neg (env : Env) (tabWidth : Int) (s : ParseState) (ht : tabWidth < 0)
    (htab : env.RuneWidth 9 = 0) (hst : s.state = AnsiState.ansiText) :
    step env tabWidth s 9 = some { s with
      contents := s.contents ++
        [{ width := 1, mainc := 92, combc := [], style := s.style.Reverse true },
         { width := 1, mainc := 116, combc := [], style := s.style.Reverse true }],
      byteMap := (s.n + 1, s.contents.length) :: (s.n, s.contents.length) :: s.byteMap,
      x := s.x + 2, n := s.n + 2 } := by
  have hnp : ¬ tabWidth > 0 := by omega
  obtain ⟨c, b, st, cp, sty, x, n, bf, bc⟩ := s
  simp only at hst
  subst hst
  simp [step, textStep, htab, hnp, ht, record, DefaultContent, utf8Len]

/-- C9: for a tab width `t < 0` and a line `pre`, TAB, `post` with `pre`
printable ASCII of length `k`, the tab is rendered as exactly two cells of
width 1 holding the backslash and the letter `t`, both in the ambient style
with reverse video; whatever `post` is, `byteMap` maps the offsets `k` and
`k + 1` to `k` and the offset `k + 2`, where `post` starts, to the cell index
`k + 2`.  For `a TAB b` and `t = -1` the `byteMap` is 0:0, 1:1, 2:1, 3:3,
4:4. -/
theorem parseString_tab_negative (env : Env) (tabWidth : Int) (pre post : List Nat)
    (ht : tabWidth < 0) (hw : ∀ r, 32 ≤ r → r ≤ 126 → env.RuneWidth r = 1)
    (htab : env.RuneWidth 9 = 0) (hpre : ∀ r ∈ pre, 32 ≤ r ∧ r ≤ 126) :
    (∃ s, run env tabWidth (pre ++ [9]) initState = some s ∧
      s.contents =
        pre.map (fun r => { width := 1, mainc := r, combc := [], style := StyleDefault }) ++
          [{ width := 1, mainc := 92, combc := [], style := StyleDefault.Reverse true },
           { width := 1, mainc := 116, combc := [], style := StyleDefault.Reverse true }]) ∧
    (∃ lc, parseString env (pre ++ 9 :: post) tabWidth = some lc ∧
      byteMapGet lc.byteMap pre.length = some pre.length ∧
      byteMapGet lc.byteMap (pre.length + 1) = some pre.length ∧
      byteMapGet lc.byteMap (pre.length + 2) = some (pre.length + 2)) ∧
    (∃ lc, parseString env (str "a\tb") (-1) = some lc ∧
      lc.byteMap = [(4, 4), (3, 3), (2, 1), (1, 1), (0, 0)]) := by
  obtain ⟨s, hs, hst, hbs, hsty, hc, hn, _, _⟩ :=
    run_printable env tabWidth pre hw hpre initState rfl rfl
  have hstep := step_tab_neg env tabWidth s ht htab hst
  have hn0 : s.n = pre.length := by simpa [initState] using hn
  have hlen : s.contents.length = pre.length := by rw [hc]; simp [initState]
  have hsty0 : s.style = StyleDefault := hsty
  have hrun : run env tabWidth (pre ++ [9]) initState = some { s with
      contents := s.contents ++
        [{ width := 1, mainc := 92, combc := [], style := s.style.Reverse true },
         { width := 1, mainc := 116, combc := [], style := s.style.Reverse true }],
      byteMap := (s.n + 1, s.contents.length) :: (s.n, s.contents.length) :: s.byteMap,
      x := s.x + 2, n := s.n + 2 } := by
    rw [run_append, hs]; simp [run, hstep]
  refine ⟨⟨_, hrun, ?_⟩, ?_, ?_⟩
  · simp [hc, hsty0, initState]
  · obtain ⟨s1, h1, hi1, _, _⟩ := run_inv env tabWidth (pre ++ [9]) initState initState_inv
    rw [hrun] at h1
    injection h1 with h1
    obtain ⟨s2, h2, hi2, hn2, hg2⟩ := run_inv env tabWidth post s1 hi1
    obtain ⟨s3, h3, hg3⟩ := run_next_record env tabWidth post s1 hi1
    rw [h2] at h3
    injection h3 with h3
    subst h3
    have hfull : parseString env (pre ++ 9 :: post) tabWidth = some (finish s2) := by
      have : pre ++ 9 :: post = (pre ++ [9]) ++ post := by simp
      rw [parseString, this, run_append, hrun, h1]
      simp [h2]
    have hs1n : s1.n = pre.length + 2 := by rw [← h1]; simp [hn0]
    have hs1c : s1.contents.length = pre.length + 2 := by rw [← h1]; simp [hlen]
    have hold : ∀ k, k < s1.n → byteMapGet (finish s2).byteMap k = byteMapGet s1.byteMap k := by
      intro k hk
      have hne : (k == s2.n) = false := by simpa using (show k ≠ s2.n by omega)
      rw [← hg2 k hk]
      simp [finish, byteMapGet, List.lookup_cons, hne]
    refine ⟨finish s2, hfull, ?_, ?_, ?_⟩
    · have hne : (pre.length == pre.length + 1) = false := by simp
      rw [hold _ (by omega), ← h1]
      simp [byteMapGet, List.lookup_cons, hn0, hlen, hne]
    · rw [hold _ (by omega), ← h1]
      simp [byteMapGet, List.lookup_cons, hn0, hlen]
    · rw [hs1n, hs1c] at hg3
      exact hg3
  · have h97 : env.RuneWidth 97 = 1 := hw 97 (by omega) (by omega)
    have h98 : env.RuneWidth 98 = 1 := hw 98 (by omega) (by omega)
    refine ⟨{ contents :=
                [{ width := 1, mainc := 97, combc := [], style := StyleDefault },
                 { width := 1, mainc := 92, combc := [], style := StyleDefault.Reverse true },
                 { width := 1, mainc := 116, combc := [], style := StyleDefault.Reverse true },
                 { width := 1, mainc := 98, combc := [], style := StyleDefault }],
              byteMap := [(4, 4), (3, 3), (2, 1), (1, 1), (0, 0)] }, ?_, rfl⟩
    simp [parseString, str, run, step, textStep, initState, record, finish, emitStyle, utf8Len,
      DefaultContent, h97, h98, htab]

/-- Witness for C9 at the line `a TAB b` of the package tests, tab width -1. -/
theorem parseString_tab_negative_witness :
    ∃ lc, parseString sampleEnv ([97] ++ 9 :: [98]) (-1) = some lc ∧
      byteMapGet lc.byteMap 1 = some 1 ∧
      byteMapGet lc.byteMap 2 = some 1 ∧
      byteMapGet lc.byteMap 3 = some 3 :=
  (parseString_tab_negative sampleEnv (-1) [97] [98] (by decide)
    (fun r h1 h2 => by simp only [sampleEnv]; rw [if_neg (by omega), if_neg (by omega)])
    (by decide) (by decide)).2.1


/-! ## A leading backspace -/

theorem record_shift (s : ParseState) (r : Nat) :
    record (shiftState s) r = shiftState (record s r) := by
  simp [record, shiftState]; omega

theorem shiftState_contents (s : ParseState) : (shiftState s).contents = s.contents := rfl

theorem shiftState_style (s : ParseState) : (shiftState s).style = s.style := rfl

theorem shiftState_x (s : ParseState) : (shiftState s).x = s.x := rfl

theorem shiftState_bsFlag (s : ParseState) : (shiftState s).bsFlag = s.bsFlag := rfl

theorem shiftState_bsContent (s : ParseState) : (shiftState s).bsContent = s.bsContent := rfl

theorem shiftState_state (s : ParseState) : (shiftState s).state = s.state := rfl

theorem shiftState_csiParameter (s : ParseState) :
    (shiftState s).csiParameter = s.csiParameter := rfl

theorem emitStyle_shift (env : Env) (s : ParseState) (r : Nat) :
    emitStyle env (shiftState s) r = emitStyle env s r := rfl

theorem textStep_shift (env : Env) (tabWidth : Int) (s : ParseState) (r : Nat) :
    textStep env tabWidth (shiftState s) r = (textStep env tabWidth s r).map shiftState := by
  unfold textStep
  simp only [record_shift, shiftState_contents, shiftState_style, shiftState_x,
    shiftState_bsFlag, shiftState_bsContent, emitStyle_shift]
  split_ifs <;> (try split) <;> rfl

theorem step_shift (env : Env) (tabWidth : Int) (s : ParseState) (r : Nat) :
    step env tabWidth (shiftState s) r = (step env tabWidth s r).map shiftState := by
  unfold step
  simp only [shiftState_state, shiftState_style, shiftState_csiParameter]
  split
  · split_ifs
    · rfl
    · rfl
    · rfl
    · exact textStep_shift env tabWidth { s with state := AnsiState.ansiText } r
  · split_ifs
    · rfl
    · exact textStep_shift env tabWidth s r
  · split_ifs <;> rfl
  · exact textStep_shift env tabWidth s r

theorem run_shift (env : Env) (tabWidth : Int) (line : List Nat) (s : ParseState) :
    run env tabWidth line (shiftState s) = (run env tabWidth line s).map shiftState := by
  induction line generalizing s with
  | nil => rfl
  | cons r rs ih =>
    simp only [run, step_shift]
    cases step env tabWidth s r with
    | none => rfl
    | some s1 => exact ih s1

theorem lookup_shift (m : List (Nat × Nat)) (k : Nat) :
    (m.map (fun p : Nat × Nat => (p.1 + 1, p.2)) ++ [(0, 0)]).lookup k =
      if k = 0 then some 0 else m.lookup (k - 1) := by
  induction m with
  | nil =>
    by_cases hk : k = 0
    · subst hk; rfl
    · have hbeq : (k == 0) = false := by simpa using hk
      simp [List.lookup_cons, hbeq, hk]
  | cons p ps ih =>
    obtain ⟨a, b⟩ := p
    simp only [List.map_cons, List.cons_append, List.lookup_cons]
    by_cases hk : k = 0
    · subst hk
      have hbeq : ((0 : Nat) == a + 1) = false := by simp
      rw [hbeq, ih]
      rfl
    · rw [if_neg hk]
      by_cases hka : k = a + 1
      · subst hka; simp
      · have h1 : (k == a + 1) = false := by simpa using hka
        have h2 : (k - 1 == a) = false := by simpa using (show k - 1 ≠ a by omega)
        rw [h1, h2, ih, if_neg hk]

/-- C10: a backspace read while no cell exists produces no cell and arms no
overstrike: for every line `s` and tab width the cells of `parseString` on
backspace followed by `s` are those of `parseString` on `s`, styles included,
and the `byteMap` of the former holds 0 at key 0 and, at every key `k + 1`,
what the `byteMap` of the latter holds at `k`. -/
theorem parseString_leading_backspace (env : Env) (s : List Nat) (tabWidth : Int)
    (hbs : env.RuneWidth 8 = 0) :
    ∃ lc1 lc2, parseString env (8 :: s) tabWidth = some lc1 ∧
      parseString env s tabWidth = some lc2 ∧
      lc1.contents = lc2.contents ∧
      ∀ k, byteMapGet lc1.byteMap k =
        if k = 0 then some 0 else byteMapGet lc2.byteMap (k - 1) := by
  obtain ⟨s2, h2, _⟩ := run_inv env tabWidth s initState initState_inv
  have hfirst : step env tabWidth initState 8 = some (shiftState initState) := by
    simp [step, textStep, initState, hbs, record, shiftState, utf8Len]
  have h1 : run env tabWidth (8 :: s) initState = some (shiftState s2) := by
    simp only [run, hfirst, run_shift, h2, Option.map]
  refine ⟨finish (shiftState s2), finish s2, by simp [parseString, h1],
    by simp [parseString, h2], rfl, ?_⟩
  intro k
  have : (finish (shiftState s2)).byteMap =
      (finish s2).byteMap.map (fun p : Nat × Nat => (p.1 + 1, p.2)) ++ [(0, 0)] := rfl
  rw [byteMapGet, this, lookup_shift]
  rfl

/-- Witness for C10 at the line backspace, `a` of the package tests. -/
theorem parseString_leading_backspace_witness :
    ∃ lc1 lc2, parseString sampleEnv (8 :: [97]) 8 = some lc1 ∧
      parseString sampleEnv [97] 8 = some lc2 ∧
      lc1.contents = lc2.contents ∧
      ∀ k, byteMapGet lc1.byteMap k =
        if k = 0 then some 0 else byteMapGet lc2.byteMap (k - 1) :=
  parseString_leading_backspace sampleEnv [97] 8 (by decide)


/-! ## Combining marks -/

/-- A glyph of width 1 or 2 read in the text state, with no overstrike
pending, appends its cells. -/
theorem step_glyph (env : Env) (tabWidth : Int) (s : ParseState) (r : Nat)
    (hw : env.RuneWidth r = 1 ∨ env.RuneWidth r = 2) (h27 : r ≠ 27) (h10 : r ≠ 10)
    (hst : s.state = AnsiState.ansiText) (hbs : s.bsFlag = false) :
    ∃ s1, step env tabWidth s r = some s1 ∧ s1.state = AnsiState.ansiText ∧
      s1.bsFlag = false ∧ s1.style = s.style ∧
      s1.contents = s.contents ++ glyphCells env r [] s.style := by
  obtain ⟨c, b, st, cp, sty, x, n, bf, bc⟩ := s
  simp only at hst hbs
  subst hst hbs
  rcases hw with hw | hw <;>
    simp [step, textStep, h27, h10, hw, record, emitStyle, DefaultContent, glyphCells]

theorem run_glyphs (env : Env) (tabWidth : Int) (line : List Nat)
    (hline : ∀ r ∈ line, (env.RuneWidth r = 1 ∨ env.RuneWidth r = 2) ∧ r ≠ 27 ∧ r ≠ 10)
    (s : ParseState) (hst : s.state = AnsiState.ansiText) (hbs : s.bsFlag = false) :
    ∃ s1, run env tabWidth line s = some s1 ∧ s1.state = AnsiState.ansiText ∧
      s1.bsFlag = false ∧ s1.style = s.style := by
  induction line generalizing s with
  | nil => exact ⟨s, rfl, hst, hbs, rfl⟩
  | cons r rs ih =>
    obtain ⟨hw, h27, h10⟩ := hline r (by simp)
    obtain ⟨s1, h1, hst1, hbs1, hsty1, _⟩ := step_glyph env tabWidth s r hw h27 h10 hst hbs
    obtain ⟨s2, h2, hst2, hbs2, hsty2⟩ :=
      ih (fun q hq => hline q (by simp [hq])) s1 hst1 hbs1
    exact ⟨s2, by simp [run, h1, h2], hst2, hbs2, by rw [hsty2, hsty1]⟩

/-- A combining mark read in the text state after the cells of a glyph is
appended to the combining runes of the glyph cell. -/
theorem step_combining (env : Env) (tabWidth : Int) (s : ParseState) (l : List Content)
    (b z : Nat) (comb : List Nat) (style : Style)
    (hb : env.RuneWidth b = 1 ∨ env.RuneWidth b = 2)
    (hz : env.RuneWidth z = 0) (hz9 : z ≠ 9) (hz8 : z ≠ 8) (hz27 : z ≠ 27) (hz10 : z ≠ 10)
    (hst : s.state = AnsiState.ansiText) (hl : WellFormed l)
    (hc : s.contents = l ++ glyphCells env b comb style) :
    ∃ s1, step env tabWidth s z = some s1 ∧
      s1.contents = l ++ glyphCells env b (comb ++ [z]) style := by
  obtain ⟨c, bm, st, cp, sty, x, n, bf, bc⟩ := s
  simp only at hst hc
  subst hst hc
  rcases hb with hb | hb
  · have h2 : env.RuneWidth b ≠ 2 := by omega
    simp only [glyphCells, if_neg h2]
    simp only [step, textStep, hz27, hz10, hz, hz9, hz8, record, if_false,
      lastContent_single hl]
    rw [if_pos (by simp), if_pos (by simp)]
    refine ⟨_, rfl, ?_⟩
    exact set_last_single l _ _
  · simp only [glyphCells, if_pos hb]
    simp only [step, textStep, hz27, hz10, hz, hz9, hz8, record, if_false,
      lastContent_wide (rfl : ({ width := 2, mainc := b, combc := comb, style := style } :
        Content).width = 2)]
    rw [if_pos (by simp), if_pos (by simp)]
    refine ⟨_, rfl, ?_⟩
    exact set_last_wide l _ _ _

/-- C11: after a prefix of printable glyphs and a base glyph `b` of width 1 or
2, a zero-width character `z` that is no control character leaves the number
of cells as it is and changes only the combining runes of the cell of `b`, to
which `z` is appended; for a double-width `b` that is the width-2 cell, two
cells back, and the placeholder stays as it is.  A combining mark at the start
of a line produces no cell. -/
theorem parseString_combining_mark (env : Env) (tabWidth : Int) (pre : List Nat) (b z : Nat)
    (hpre : ∀ r ∈ pre, (env.RuneWidth r = 1 ∨ env.RuneWidth r = 2) ∧ r ≠ 27 ∧ r ≠ 10)
    (hb : env.RuneWidth b = 1 ∨ env.RuneWidth b = 2) (hb27 : b ≠ 27) (hb10 : b ≠ 10)
    (hz : env.RuneWidth z = 0) (hz9 : z ≠ 9) (hz8 : z ≠ 8) (hz27 : z ≠ 27) (hz10 : z ≠ 10) :
    (∃ lc1 lc2 l, parseString env (pre ++ [b]) tabWidth = some lc1 ∧
      parseString env (pre ++ [b, z]) tabWidth = some lc2 ∧
      lc1.contents = l ++ glyphCells env b [] StyleDefault ∧
      lc2.contents = l ++ glyphCells env b [z] StyleDefault ∧
      lc2.contents.length = lc1.contents.length) ∧
    (∃ lc, parseString env [z] tabWidth = some lc ∧ lc.contents = []) := by
  constructor
  · obtain ⟨s, hs, hst, hbs, hsty⟩ := run_glyphs env tabWidth pre hpre initState rfl rfl
    obtain ⟨s0, hs0, hi0, _, _⟩ := run_inv env tabWidth pre initState initState_inv
    rw [hs] at hs0
    injection hs0 with hs0
    subst hs0
    obtain ⟨s1, h1, hst1, _, _, hc1⟩ := step_glyph env tabWidth s b hb hb27 hb10 hst hbs
    have hsty0 : s.style = StyleDefault := hsty
    rw [hsty0] at hc1
    obtain ⟨s2, h2, hc2⟩ := step_combining env tabWidth s1 s.contents b z [] StyleDefault hb hz
      hz9 hz8 hz27 hz10 hst1 hi0.1 hc1
    have hr1 : run env tabWidth (pre ++ [b]) initState = some s1 := by
      rw [run_append, hs]; simp [run, h1]
    have hr2 : run env tabWidth (pre ++ [b, z]) initState = some s2 := by
      rw [run_append, hs]; simp [run, h1, h2]
    refine ⟨finish s1, finish s2, s.contents, by simp [parseString, hr1],
      by simp [parseString, hr2], hc1, by simpa using hc2, ?_⟩
    show s2.contents.length = s1.contents.length
    rw [hc1, hc2]
    simp only [glyphCells]
    split_ifs <;> simp
  · simp [parseString, run, step, textStep, initState, hz, hz9, hz8, hz27, hz10, record,
      lastContent, finish]

/-- Witness for C11 at the line `a`, `e`, U+0301 (combining acute accent). -/
theorem parseString_combining_mark_witness :
    (∃ lc1 lc2 l, parseString sampleEnv ([97] ++ [101]) 8 = some lc1 ∧
      parseString sampleEnv ([97] ++ [101, 769]) 8 = some lc2 ∧
      lc1.contents = l ++ glyphCells sampleEnv 101 [] StyleDefault ∧
      lc2.contents = l ++ glyphCells sampleEnv 101 [769] StyleDefault ∧
      lc2.contents.length = lc1.contents.length) ∧
    (∃ lc, parseString sampleEnv [769] 8 = some lc ∧ lc.contents = []) :=
  parseString_combining_mark sampleEnv 8 [97] 101 769 (by decide) (by decide) (by decide)
    (by decide) (by decide) (by decide) (by decide) (by decide) (by decide)


/-! ## Escape sequences and the keys of the byte map -/

/-- C12, as the code behaves: a rune other than ESC that is read in the state
`ansiSubstring` is not discarded; the loop body goes on to handle it as text,
so after `ESC ]` the runes `a` and `b` produce two cells and two `byteMap`
entries, where the empty prefix alone gives no cell. -/
theorem substring_state_renders (env : Env) (tabWidth : Int) (s : ParseState) (r : Nat) :
    (s.state = AnsiState.ansiSubstring → r ≠ 27 →
      step env tabWidth s r = textStep env tabWidth s r) ∧
    parseString sampleEnv (str "\x1b]ab") 8 =
      some { contents := [{ width := 1, mainc := 97, combc := [], style := StyleDefault },
                          { width := 1, mainc := 98, combc := [], style := StyleDefault }],
             byteMap := [(2, 2), (1, 1), (0, 0)] } ∧
    parseString sampleEnv (str "") 8 = some { contents := [], byteMap := [(0, 0)] } := by
  refine ⟨?_, by decide, by decide⟩
  intro hst h27
  simp [step, hst, h27]

/-- Witness for C12 in the state reached after `ESC ]`. -/
theorem substring_state_renders_witness :
    step sampleEnv 8 { initState with state := AnsiState.ansiSubstring } 97 =
      textStep sampleEnv 8 { initState with state := AnsiState.ansiSubstring } 97 :=
  (substring_state_renders sampleEnv 8 { initState with state := AnsiState.ansiSubstring }
    97).1 rfl (by decide)

theorem textStep_n (env : Env) (tabWidth : Int) (s s1 : ParseState) (r : Nat)
    (ht : 0 ≤ tabWidth) (h : textStep env tabWidth s r = some s1) :
    s1.n = s.n + (if r ≠ 27 ∧ r ≠ 10 then utf8Len r else 0) := by
  have hneg : ¬ tabWidth < 0 := by omega
  unfold textStep at h
  split_ifs at h with h27 h10 <;> (try simp only at h) <;> (try split at h) <;>
    (try split_ifs at h) <;>
    first
    | (simp at h; done)
    | (simp at h; subst h; simp [record, h27, h10])
    | (simp at h; subst h; simp [record, *])

theorem step_n (env : Env) (tabWidth : Int) (s s1 : ParseState) (r : Nat)
    (ht : 0 ≤ tabWidth) (h : step env tabWidth s r = some s1) :
    s1.n = s.n + (if readAsText s r then utf8Len r else 0) := by
  unfold step at h
  unfold readAsText
  split at h
  · rename_i hst
    split_ifs at h with h1 h2 h3
    · simp at h; subst h; simp [hst, h1]
    · simp at h; subst h; simp [hst, h2]
    · simp at h; subst h; simp [hst, h3]
    · have := textStep_n env tabWidth _ s1 r ht h
      rw [this]
      simp [hst, h1, h2, h3]
  · rename_i hst
    split_ifs at h with h1
    · simp at h; subst h; simp [hst, h1]
    · have := textStep_n env tabWidth _ s1 r ht h
      rw [this]
      simp [hst, h1]
  · rename_i hst
    split_ifs at h <;> (simp at h; subst h; simp [hst])
  · rename_i hst
    have := textStep_n env tabWidth _ s1 r ht h
    rw [this]
    simp [hst]

theorem run_n (env : Env) (tabWidth : Int) (line : List Nat) (s s1 : ParseState)
    (ht : 0 ≤ tabWidth) (h : run env tabWidth line s = some s1) :
    s1.n = s.n + textBytes env tabWidth line s := by
  induction line generalizing s with
  | nil => simp [run] at h; subst h; simp [textBytes]
  | cons r rs ih =>
    simp only [run] at h
    cases hs : step env tabWidth s r with
    | none => rw [hs] at h; simp at h
    | some s2 =>
      rw [hs] at h
      have h1 := step_n env tabWidth s s2 r ht hs
      have h2 := ih s2 h
      simp only [textBytes, hs]
      omega

theorem textStep_state (env : Env) (tabWidth : Int) (s s1 : ParseState) (r : Nat)
    (h : textStep env tabWidth s r = some s1) (h27 : r ≠ 27) : s1.state = s.state := by
  unfold textStep at h
  split_ifs at h <;> (try simp only at h) <;> (try split at h) <;> (try split_ifs at h) <;>
    first
    | (exfalso; omega)
    | (simp at h; done)
    | (simp at h; subst h; simp [record])

/-- On a line without ESC and newline every rune is handled as text, and the
offset counter advances by the bytes of every rune. -/
theorem textBytes_plain (env : Env) (tabWidth : Int) (line : List Nat) (s : ParseState)
    (hst : s.state = AnsiState.ansiText) (hw : WellFormed s.contents)
    (h27 : 27 ∉ line) (h10 : 10 ∉ line) :
    textBytes env tabWidth line s = byteLen line := by
  induction line generalizing s with
  | nil => rfl
  | cons r rs ih =>
    have hr27 : r ≠ 27 := fun h => h27 (by simp [h])
    have hr10 : r ≠ 10 := fun h => h10 (by simp [h])
    have hread : readAsText s r = true := by simp [readAsText, hst, hr27, hr10]
    obtain ⟨s1, hs, hw1, _⟩ := step_ok env tabWidth s r hw
    have hst1 : s1.state = AnsiState.ansiText := by
      have : step env tabWidth s r = textStep env tabWidth s r := by simp [step, hst]
      rw [this] at hs
      rw [textStep_state env tabWidth s s1 r hs hr27, hst]
    have := ih s1 hst1 hw1 (fun h => h27 (by simp [h])) (fun h => h10 (by simp [h]))
    simp [textBytes, hread, hs, this, byteLen]


theorem textStep_appends (env : Env) (tabWidth : Int) (s s1 : ParseState) (r : Nat)
    (h : textStep env tabWidth s r = some s1) :
    s.contents.length < s1.contents.length → ∃ cells, s1.contents = s.contents ++ cells := by
  unfold textStep at h
  split_ifs at h <;> (try simp only at h) <;> (try split at h) <;> (try split_ifs at h) <;>
    first
    | (simp at h; done)
    | (simp at h; subst h; intro _; exact ⟨_, rfl⟩)
    | (simp at h; subst h; intro hl; exfalso; simp [record] at hl <;> omega)

theorem step_appends (env : Env) (tabWidth : Int) (s s1 : ParseState) (r : Nat)
    (h : step env tabWidth s r = some s1) :
    s.contents.length < s1.contents.length → ∃ cells, s1.contents = s.contents ++ cells := by
  unfold step at h
  split at h
  · split_ifs at h
    · simp at h; subst h; intro hl; simp at hl
    · simp at h; subst h; intro hl; simp at hl
    · simp at h; subst h; intro hl; simp at hl
    · exact textStep_appends env tabWidth { s with state := AnsiState.ansiText } s1 r h
  · split_ifs at h
    · simp at h; subst h; intro hl; simp at hl
    · exact textStep_appends env tabWidth s s1 r h
  · split_ifs at h <;> (simp at h; subst h; intro hl; simp at hl)
  · exact textStep_appends env tabWidth s s1 r h

/-- C13, counterexample: in `ESC [ 3 1 m r e d` the letter `r` stands at byte
offset 5 of the raw line and produces the cell of index 0, but `byteMap` has
no key 5; the cell index 0 is stored under key 0. -/
theorem byteMap_key_skips_escape_bytes :
    ∃ lc, parseString sampleEnv (str "\x1b[31mred") 8 = some lc ∧
      byteLen (str "\x1b[31m") = 5 ∧
      lc.contents[0]? = some { width := 1, mainc := 114, combc := [],
                               style := StyleDefault.Foreground 1 } ∧
      byteMapGet lc.byteMap 5 = none ∧
      byteMapGet lc.byteMap 0 = some 0 := by
  refine ⟨_, rfl, ?_, ?_, ?_, ?_⟩ <;> decide

/-- C13, amended: the keys of `byteMap` are byte offsets into the line without
its escape sequences: for a tab width `≥ 0`, every character of the line that
produces a cell has its cells appended at the index `c`, the cell count before
it, and `byteMap` maps to `c` the number of bytes of the characters before it
that the parser handled as text, the bytes of escape sequences and newlines not
counted; where no ESC and no newline precedes the character, that key is its
byte offset in the raw line. -/
theorem byteMap_key_text_offset (env : Env) (tabWidth : Int) (pre post : List Nat) (r : Nat)
    (ht : 0 ≤ tabWidth) :
    ∃ s s1 lc, run env tabWidth pre initState = some s ∧ step env tabWidth s r = some s1 ∧
      parseString env (pre ++ r :: post) tabWidth = some lc ∧
      (s.contents.length < s1.contents.length →
        (∃ cells, s1.contents = s.contents ++ cells) ∧
        byteMapGet lc.byteMap (textBytes env tabWidth pre initState) =
          some s.contents.length) ∧
      (27 ∉ pre → 10 ∉ pre → textBytes env tabWidth pre initState = byteLen pre) := by
  obtain ⟨s, hs, hi, _, _⟩ := run_inv env tabWidth pre initState initState_inv
  obtain ⟨s1, h1, _, _⟩ := step_inv env tabWidth s r hi
  obtain ⟨sf, hf, hg⟩ := run_next_record env tabWidth (r :: post) s hi
  have hn : s.n = textBytes env tabWidth pre initState := by
    have := run_n env tabWidth pre initState s ht hs
    simpa [initState] using this
  refine ⟨s, s1, finish sf, hs, h1, ?_, ?_, ?_⟩
  · rw [parseString, run_append, hs]
    simp [hf]
  · intro hl
    exact ⟨step_appends env tabWidth s s1 r h1 hl, by rw [← hn]; exact hg⟩
  · intro h27 h10
    exact textBytes_plain env tabWidth pre initState rfl WellFormed.nil h27 h10

/-- Witness for C13 at the letter `b` of `a b` with tab width 8. -/
theorem byteMap_key_text_offset_witness :
    ∃ s s1 lc, run sampleEnv 8 [97] initState = some s ∧ step sampleEnv 8 s 98 = some s1 ∧
      parseString sampleEnv ([97] ++ 98 :: []) 8 = some lc ∧
      (s.contents.length < s1.contents.length →
        (∃ cells, s1.contents = s.contents ++ cells) ∧
        byteMapGet lc.byteMap (textBytes sampleEnv 8 [97] initState) =
          some s.contents.length) ∧
      (27 ∉ [97] → 10 ∉ [97] → textBytes sampleEnv 8 [97] initState = byteLen [97]) :=
  byteMap_key_text_offset sampleEnv 8 [97] [] 98 (by decide)

/-! ## Values of the byte map -/

theorem textStep_values (env : Env) (tabWidth : Int) (s s1 : ParseState) (r : Nat)
    (h : textStep env tabWidth s r = some s1) (hr : r ≠ 8)
    (hv : ∀ p ∈ s.byteMap, p.2 ≤ s.contents.length) :
    ∀ p ∈ s1.byteMap, p.2 ≤ s1.contents.length := by
  unfold textStep at h
  split_ifs at h <;> (try simp only at h) <;> (try split at h) <;> (try split_ifs at h) <;>
    first
    | (simp at h; done)
    | (simp at h; subst h; exact hv)
    | (simp at h; subst h; intro p hp; simp [record] at hp ⊢
       rcases hp with rfl | hp
       · simp
       · have := hv p hp; omega)
    | (simp at h; subst h; intro p hp; simp [record] at hp ⊢
       rcases hp with rfl | rfl | hp
       · simp
       · simp
       · have := hv p hp; omega)

theorem step_values (env : Env) (tabWidth : Int) (s s1 : ParseState) (r : Nat)
    (h : step env tabWidth s r = some s1) (hr : r ≠ 8)
    (hv : ∀ p ∈ s.byteMap, p.2 ≤ s.contents.length) :
    ∀ p ∈ s1.byteMap, p.2 ≤ s1.contents.length := by
  unfold step at h
  split at h
  · split_ifs at h
    · simp at h; subst h; exact hv
    · simp at h; subst h; exact hv
    · simp at h; subst h; exact hv
    · exact textStep_values env tabWidth { s with state := AnsiState.ansiText } s1 r h hr hv
  · split_ifs at h
    · simp at h; subst h; exact hv
    · exact textStep_values env tabWidth s s1 r h hr hv
  · split_ifs at h <;> (simp at h; subst h; exact hv)
  · exact textStep_values env tabWidth s s1 r h hr hv

theorem run_values (env : Env) (tabWidth : Int) (line : List Nat) (s s1 : ParseState)
    (h : run env tabWidth line s = some s1) (hline : 8 ∉ line)
    (hv : ∀ p ∈ s.byteMap, p.2 ≤ s.contents.length) :
    ∀ p ∈ s1.byteMap, p.2 ≤ s1.contents.length := by
  induction line generalizing s with
  | nil => simp [run] at h; subst h; exact hv
  | cons r rs ih =>
    simp only [run] at h
    cases hs : step env tabWidth s r with
    | none => rw [hs] at h; simp at h
    | some s2 =>
      rw [hs] at h
      have hr : r ≠ 8 := fun h8 => hline (by simp [h8])
      exact ih s2 h (fun h8 => hline (by simp [h8])) (step_values env tabWidth s s2 r hs hr hv)

/-- C14, counterexample: in `a b BS` the entry for the backspace, `2 -> 2`, is
recorded while two cells exist; the backspace then removes one, so the value 2
exceeds the final cell count 1. -/
theorem byteMap_value_above_cell_count :
    ∃ lc, parseString sampleEnv [97, 98, 8] 8 = some lc ∧
      byteMapGet lc.byteMap 2 = some 2 ∧ lc.contents.length = 1 := by
  refine ⟨_, rfl, ?_, ?_⟩ <;> decide

/-- C14, amended: for every line that contains no backspace and every tab
width, every value stored in the `byteMap` that `parseString` returns is a
cell-count boundary of the returned cells: `0 ≤ v ≤ len(contents)` for every
entry `k -> v`. -/
theorem byteMap_values_bounded (env : Env) (line : List Nat) (tabWidth : Int)
    (hline : 8 ∉ line) :
    ∃ lc, parseString env line tabWidth = some lc ∧
      ∀ k v, byteMapGet lc.byteMap k = some v → 0 ≤ v ∧ v ≤ lc.contents.length := by
  obtain ⟨s, hs, _⟩ := run_inv env tabWidth line initState initState_inv
  have hv := run_values env tabWidth line initState s hs hline
    (fun p hp => by simp [initState] at hp)
  refine ⟨finish s, by simp [parseString, hs], ?_⟩
  intro k v hkv
  refine ⟨Nat.zero_le _, ?_⟩
  rcases List.mem_cons.mp (mem_of_lookup hkv) with h1 | h1
  · have : v = s.contents.length := congrArg Prod.snd h1
    simp [finish, this]
  · exact hv (k, v) h1

/-- Witness for C14 at the line `a TAB b`. -/
theorem byteMap_values_bounded_witness :
    ∃ lc, parseString sampleEnv [97, 9, 98] 4 = some lc ∧
      ∀ k v, byteMapGet lc.byteMap k = some v → 0 ≤ v ∧ v ≤ lc.contents.length :=
  byteMap_values_bounded sampleEnv [97, 9, 98] 4 (by decide)


/-! ## Extended colours that are not chosen -/

theorem splitSemi_single (f : List Nat) (h : 59 ∉ f) : splitSemi f = [f] := by
  induction f with
  | nil => rfl
  | cons c cs ih =>
    have hc : c ≠ 59 := fun hc => h (by simp [hc])
    have := ih (fun hm => h (by simp [hm]))
    simp [splitSemi, hc, this]

theorem splitSemi_cons_ne (c : Nat) (cs f : List Nat) (fs : List (List Nat)) (hc : c ≠ 59)
    (h : splitSemi cs = f :: fs) : splitSemi (c :: cs) = (c :: f) :: fs := by
  rw [splitSemi, if_neg hc, h]

theorem splitSemi_semi (cs : List Nat) : splitSemi (59 :: cs) = [] :: splitSemi cs := by
  rw [splitSemi, if_pos rfl]

theorem splitSemi_extended (a b : Nat) (f : List Nat) (ha : a ≠ 59) (hb : b ≠ 59)
    (h : 59 ∉ f) : splitSemi (a :: b :: 59 :: 53 :: 59 :: f) = [[a, b], [53], f] := by
  have h1 : splitSemi (59 :: f) = [[], f] := by rw [splitSemi_semi, splitSemi_single f h]
  have h2 := splitSemi_cons_ne 53 _ _ _ (by decide) h1
  have h3 : splitSemi (59 :: 53 :: 59 :: f) = [[], [53], f] := by rw [splitSemi_semi, h2]
  exact splitSemi_cons_ne a _ _ _ ha (splitSemi_cons_ne b _ _ _ hb h3)

theorem fieldLoop_unknown (f : List Nat) (rest : List (List Nat)) (s : Style)
    (h : f ∉ sgrCodes) : fieldLoop (f :: rest) s = fieldLoop rest s := by
  have two : ∀ a b : List Nat, a ∈ sgrCodes → b ∈ sgrCodes → ¬ (f = a ∨ f = b) := by
    intro a b ha hb hh
    rcases hh with rfl | rfl
    · exact h ha
    · exact h hb
  have many : ∀ l : List (List Nat), (∀ c ∈ l, c ∈ sgrCodes) → ¬ f ∈ l :=
    fun l hl hf => h (hl f hf)
  have one : ∀ a : List Nat, a ∈ sgrCodes → ¬ f = a := fun a ha hf => h (hf ▸ ha)
  rw [fieldLoop, if_neg (two _ _ (by decide) (by decide)),
    if_neg (two _ _ (by decide) (by decide)), if_neg (two _ _ (by decide) (by decide)),
    if_neg (two _ _ (by decide) (by decide)), if_neg (two _ _ (by decide) (by decide)),
    if_neg (many _ (by decide)), if_neg (many _ (by decide)), if_neg (one _ (by decide)),
    if_neg (many _ (by decide)), if_neg (one _ (by decide)), if_neg (many _ (by decide)),
    if_neg (many _ (by decide)), if_neg (two _ _ (by decide) (by decide))]

theorem fieldLoop_foreground (rest : List (List Nat)) (s : Style) :
    fieldLoop ([51, 56] :: rest) s =
      if (extendedColor rest).length > 0 then s.Foreground (GetColor (extendedColor rest))
      else fieldLoop rest s := rfl

theorem fieldLoop_background (rest : List (List Nat)) (s : Style) :
    fieldLoop ([52, 56] :: rest) s =
      if (extendedColor rest).length > 0 then s.Background (GetColor (extendedColor rest))
      else fieldLoop rest s := rfl

theorem fieldLoop_blink (rest : List (List Nat)) (s : Style) :
    fieldLoop ([53] :: rest) s = fieldLoop rest (s.Blink true) := rfl

theorem extendedColor_above (f : List Nat) (h : 255 < Atoi f) :
    extendedColor [[53], f] = [] := by
  have h1 : ¬ Atoi f ≤ 7 := by omega
  have h2 : ¬ Atoi f ≤ 15 := by omega
  have h3 : ¬ Atoi f ≤ 231 := by omega
  have h4 : ¬ Atoi f ≤ 255 := by omega
  have hc : ([53] : List Nat) = str "5" ∧ [f].length > 0 := ⟨rfl, by simp⟩
  simp only [extendedColor, if_pos hc, List.getD_cons_zero, if_neg h1, if_neg h2, if_neg h3,
    if_neg h4]

theorem extendedColor_negative (f : List Nat) (h : Atoi f < 0) :
    extendedColor [[53], f] = str "black" := by
  have h1 : Atoi f ≤ 7 := by omega
  have hc : ([53] : List Nat) = str "5" ∧ [f].length > 0 := ⟨rfl, by simp⟩
  simp only [extendedColor, if_pos hc, List.getD_cons_zero, if_pos h1, lookupColor,
    if_pos (Or.inl h : Atoi f < 0 ∨ Atoi f > 15)]

theorem not_sgrCode_of_above (f : List Nat) (h : 255 < Atoi f) : f ∉ sgrCodes := by
  intro hf
  have : ∀ c ∈ sgrCodes, Atoi c ≤ 255 := by decide
  have := this f hf
  omega

theorem csToStyle_extended_above (s : Style) (a : Nat) (f : List Nat)
    (ha : a = 51 ∨ a = 52) (hf : 59 ∉ f) (h : 255 < Atoi f) :
    csToStyle s (a :: 56 :: 59 :: 53 :: 59 :: f) = s.Blink true := by
  have hsplit := splitSemi_extended a 56 f (by omega) (by decide) hf
  have hlen : ¬ (([[a, 56], [53], f] : List (List Nat)).length = 0 ∨
      (([[a, 56], [53], f] : List (List Nat)).length = 1 ∧
        ([[a, 56], [53], f] : List (List Nat)).getD 0 [] = str "0")) := by simp
  simp only [csToStyle, hsplit, if_neg hlen]
  rcases ha with rfl | rfl
  · rw [fieldLoop_foreground, extendedColor_above f h]
    simp only [List.length_nil, gt_iff_lt, lt_self_iff_false, if_false]
    rw [fieldLoop_blink, fieldLoop_unknown f [] _ (not_sgrCode_of_above f h)]
    rfl
  · rw [fieldLoop_background, extendedColor_above f h]
    simp only [List.length_nil, gt_iff_lt, lt_self_iff_false, if_false]
    rw [fieldLoop_blink, fieldLoop_unknown f [] _ (not_sgrCode_of_above f h)]
    rfl

theorem csToStyle_extended_negative (s : Style) (f : List Nat) (hf : 59 ∉ f)
    (h : Atoi f < 0) :
    csToStyle s (51 :: 56 :: 59 :: 53 :: 59 :: f) = { s with fg := 0 } ∧
    csToStyle s (52 :: 56 :: 59 :: 53 :: 59 :: f) = { s with bg := 0 } := by
  have hlen : ∀ a : Nat, ¬ (([[a, 56], [53], f] : List (List Nat)).length = 0 ∨
      (([[a, 56], [53], f] : List (List Nat)).length = 1 ∧
        ([[a, 56], [53], f] : List (List Nat)).getD 0 [] = str "0")) := by simp
  constructor
  · simp only [csToStyle, splitSemi_extended 51 56 f (by decide) (by decide) hf,
      if_neg (hlen 51)]
    rw [fieldLoop_foreground, extendedColor_negative f h]
    rfl
  · simp only [csToStyle, splitSemi_extended 52 56 f (by decide) (by decide) hf,
      if_neg (hlen 52)]
    rw [fieldLoop_background, extendedColor_negative f h]
    rfl

/-- C15, counterexample: with the third field `-1`, no decimal number in
0..255, `38;5;-1` sets the foreground of the default style to palette colour 0
(black): `lookupColor` answers any number below 0 with `black`.  The third
field `x` does the same, since `Atoi` yields 0 for it. -/
theorem csToStyle_extended_negative_is_black :
    (csToStyle StyleDefault (str "38;5;-1")).fg = 0 ∧ StyleDefault.fg = -1 ∧
    lookupColor (-1) = str "black" ∧
    (csToStyle StyleDefault (str "38;5;x")).fg = 0 := by
  decide

/-- C15, amended: an extended-colour field that selects no colour leaves the
colours of the style unchanged: for every style `s`, when `38` or `48` is
followed by `5` and a third field whose number is above 255 (`38;5;256`), or
by too few fields (`38`, `38;5`, `38;2;1;2`), `csToStyle` returns a style with
the foreground and background of `s`; a third field whose number is negative
(`38;5;-1`) selects black, by the range guard of `lookupColor`. -/
theorem csToStyle_extended_not_chosen (s : Style) (f : List Nat) (hf : 59 ∉ f) :
    (255 < Atoi f →
      (csToStyle s (str "38;5;" ++ f)).fg = s.fg ∧ (csToStyle s (str "38;5;" ++ f)).bg = s.bg ∧
      (csToStyle s (str "48;5;" ++ f)).fg = s.fg ∧
      (csToStyle s (str "48;5;" ++ f)).bg = s.bg) ∧
    (Atoi f < 0 →
      csToStyle s (str "38;5;" ++ f) = { s with fg := 0 } ∧
      csToStyle s (str "48;5;" ++ f) = { s with bg := 0 }) ∧
    ((csToStyle s (str "38;5;256")).fg = s.fg ∧ (csToStyle s (str "38;5;256")).bg = s.bg) ∧
    ((csToStyle s (str "38")).fg = s.fg ∧ (csToStyle s (str "38")).bg = s.bg) ∧
    ((csToStyle s (str "38;5")).fg = s.fg ∧ (csToStyle s (str "38;5")).bg = s.bg) ∧
    ((csToStyle s (str "38;2;1;2")).fg = s.fg ∧ (csToStyle s (str "38;2;1;2")).bg = s.bg) ∧
    ((csToStyle s (str "48")).fg = s.fg ∧ (csToStyle s (str "48")).bg = s.bg) ∧
    ((csToStyle s (str "48;5")).fg = s.fg ∧ (csToStyle s (str "48;5")).bg = s.bg) ∧
    ((csToStyle s (str "48;2;1;2")).fg = s.fg ∧ (csToStyle s (str "48;2;1;2")).bg = s.bg) := by
  refine ⟨?_, ?_, ⟨rfl, rfl⟩, ⟨rfl, rfl⟩, ⟨rfl, rfl⟩, ⟨rfl, rfl⟩, ⟨rfl, rfl⟩, ⟨rfl, rfl⟩,
    ⟨rfl, rfl⟩⟩
  · intro h
    have h38 : csToStyle s (str "38;5;" ++ f) = s.Blink true :=
      csToStyle_extended_above s 51 f (Or.inl rfl) hf h
    have h48 : csToStyle s (str "48;5;" ++ f) = s.Blink true :=
      csToStyle_extended_above s 52 f (Or.inr rfl) hf h
    rw [h38, h48]
    exact ⟨rfl, rfl, rfl, rfl⟩
  · intro h
    exact csToStyle_extended_negative s f hf h

/-- Witness for C15 at the third fields `256` and `-1`. -/
theorem csToStyle_extended_not_chosen_witness :
    ((csToStyle StyleDefault (str "38;5;" ++ str "256")).fg = StyleDefault.fg ∧
      (csToStyle StyleDefault (str "38;5;" ++ str "256")).bg = StyleDefault.bg ∧
      (csToStyle StyleDefault (str "48;5;" ++ str "256")).fg = StyleDefault.fg ∧
      (csToStyle StyleDefault (str "48;5;" ++ str "256")).bg = StyleDefault.bg) ∧
    (csToStyle StyleDefault (str "38;5;" ++ str "-1") = { StyleDefault with fg := 0 } ∧
      csToStyle StyleDefault (str "48;5;" ++ str "-1") = { StyleDefault with bg := 0 }) :=
  ⟨(csToStyle_extended_not_chosen StyleDefault (str "256") (by decide)).1 (by decide),
   (csToStyle_extended_not_chosen StyleDefault (str "-1") (by decide)).2.1 (by decide)⟩



/-! ## Choice of the matcher -/

theorem QuoteMeta_length (w : List Nat) : w.length ≤ (QuoteMeta w).length := by
  induction w with
  | nil => simp [QuoteMeta]
  | cons c cs ih =>
    unfold QuoteMeta
    split_ifs <;> simp <;> omega

theorem QuoteMeta_eq_iff (w : List Nat) : QuoteMeta w = w ↔ ∀ c ∈ w, c ∉ specialBytes := by
  induction w with
  | nil => simp [QuoteMeta]
  | cons c cs ih =>
    unfold QuoteMeta
    by_cases hc : c ∈ specialBytes
    · rw [if_pos hc]
      constructor
      · intro h
        have hlen := congrArg List.length h
        have := QuoteMeta_length cs
        simp at hlen
        omega
      · intro h
        exact absurd hc (h c (by simp))
    · rw [if_neg hc]
      constructor
      · intro h
        have h1 : QuoteMeta cs = cs := by simpa using h
        intro d hd
        rcases List.mem_cons.mp hd with rfl | hd
        · exact hc
        · exact (ih.mp h1) d hd
      · intro h
        have h1 := ih.mpr (fun d hd => h d (by simp [hd]))
        rw [h1]

/-- C16: `getSearchMatch` returns the regular-expression matcher exactly when
`regexpSearch` is set and the word differs from `QuoteMeta` of itself, that is,
holds a metacharacter; otherwise, also with `regexpSearch` set, it returns a
substring matcher that accepts a line `s` iff `stripEscapeSequence(s)` contains
the word (case-sensitive), or iff the lower-cased `stripEscapeSequence(s)`
contains the lower-cased word.  The word `ABC` matches `xx abc yy` without
case sensitivity and does not match it with case sensitivity. -/
theorem getSearchMatch_choice (lib : Lib) (w : List Nat) (re : Option lib.Regexp)
    (caseSensitive regexpSearch : Bool) :
    (regexpSearch = true ∧ (∃ c ∈ w, c ∈ specialBytes) →
      getSearchMatch lib w re caseSensitive regexpSearch = searchMatch.regexpWord re) ∧
    (¬ (regexpSearch = true ∧ ∃ c ∈ w, c ∈ specialBytes) → caseSensitive = true →
      getSearchMatch lib w re caseSensitive regexpSearch = searchMatch.sensitiveWord w ∧
      ∀ s, (getSearchMatch lib w re caseSensitive regexpSearch).isMatch lib s =
        some (Contains (stripEscapeSequence s) w)) ∧
    (¬ (regexpSearch = true ∧ ∃ c ∈ w, c ∈ specialBytes) → caseSensitive = false →
      getSearchMatch lib w re caseSensitive regexpSearch =
        searchMatch.searchWord (lib.ToLower w) ∧
      ∀ s, (getSearchMatch lib w re caseSensitive regexpSearch).isMatch lib s =
        some (Contains (lib.ToLower (stripEscapeSequence s)) (lib.ToLower w))) ∧
    ((w ≠ QuoteMeta w) ↔ ∃ c ∈ w, c ∈ specialBytes) ∧
    (getSearchMatch sampleLib (str "ABC") none false true).isMatch sampleLib
      (str "xx abc yy") = some true ∧
    (getSearchMatch sampleLib (str "ABC") none true true).isMatch sampleLib
      (str "xx abc yy") = some false := by
  have hq : (w ≠ QuoteMeta w) ↔ ∃ c ∈ w, c ∈ specialBytes := by
    rw [ne_comm, Ne, QuoteMeta_eq_iff]
    push_neg
    rfl
  refine ⟨?_, ?_, ?_, hq, by decide, by decide⟩
  · rintro ⟨hr, hc⟩
    simp only [getSearchMatch]
    rw [if_pos ⟨hr, hq.mpr hc⟩]
  · intro hn hcs
    have hcond : ¬ (regexpSearch = true ∧ w ≠ QuoteMeta w) := fun h => hn ⟨h.1, hq.mp h.2⟩
    have : getSearchMatch lib w re caseSensitive regexpSearch = searchMatch.sensitiveWord w := by
      simp only [getSearchMatch]
      rw [if_neg hcond, if_pos hcs]
    rw [this]
    exact ⟨rfl, fun s => rfl⟩
  · intro hn hcs
    have hcond : ¬ (regexpSearch = true ∧ w ≠ QuoteMeta w) := fun h => hn ⟨h.1, hq.mp h.2⟩
    have : getSearchMatch lib w re caseSensitive regexpSearch =
        searchMatch.searchWord (lib.ToLower w) := by
      simp only [getSearchMatch]
      rw [if_neg hcond, if_neg (by simp [hcs])]
    rw [this]
    exact ⟨rfl, fun s => rfl⟩

/-- Witness for C16 at the words `a.c` (regular expression) and `ABC`
(substring) with `regexpSearch` set. -/
theorem getSearchMatch_choice_witness :
    getSearchMatch sampleLib (str "a.c") none false true = searchMatch.regexpWord none ∧
    getSearchMatch sampleLib (str "ABC") none true true =
      searchMatch.sensitiveWord (str "ABC") ∧
    getSearchMatch sampleLib (str "ABC") none false true =
      searchMatch.searchWord (sampleLib.ToLower (str "ABC")) :=
  ⟨(getSearchMatch_choice sampleLib (str "a.c") none false true).1 ⟨rfl, by decide⟩,
   ((getSearchMatch_choice sampleLib (str "ABC") none true true).2.1 (by decide) rfl).1,
   ((getSearchMatch_choice sampleLib (str "ABC") none false true).2.2.1 (by decide) rfl).1⟩

/-! ## Compilation of the pattern -/

/-- C20, as the code behaves: with `caseSensitive` set the fallback compiles
`QuoteMeta` of the raw pattern, but without it the variable `r` already holds
the prefixed pattern when it is escaped, so the fallback compiles `QuoteMeta`
of `(?i)` followed by the raw pattern, the literal `\(\?i\)` and the escaped
pattern: for the raw pattern `a(` that expression stands for the literal
`(?i)a(`, not for `a(`. -/
theorem regexpCompile_fallback (lib : Lib) (r : List Nat) :
    (lib.Compile r = none → regexpCompile lib r true = lib.Compile (QuoteMeta r)) ∧
    (lib.Compile (str "(?i)" ++ r) = none →
      regexpCompile lib r false = lib.Compile (QuoteMeta (str "(?i)" ++ r))) ∧
    QuoteMeta (str "(?i)" ++ r) = str "\\(\\?i\\)" ++ QuoteMeta r ∧
    regexpCompile sampleLib (str "a(") false = some (str "\\(\\?i\\)a\\(") ∧
    regexpCompile sampleLib (str "a(") true = some (str "a\\(") := by
  refine ⟨?_, ?_, rfl, rfl, rfl⟩
  · intro h
    simp only [regexpCompile, Bool.true_eq_false, if_false, h]
    cases lib.Compile (QuoteMeta r) <;> rfl
  · intro h
    simp only [regexpCompile, if_true, h]
    cases lib.Compile (QuoteMeta (str "(?i)" ++ r)) <;> rfl

/-- Witness for C20 at the pattern `a(`. -/
theorem regexpCompile_fallback_witness :
    regexpCompile sampleLib (str "a(") true = sampleLib.Compile (QuoteMeta (str "a(")) ∧
    regexpCompile sampleLib (str "a(") false =
      sampleLib.Compile (QuoteMeta (str "(?i)" ++ str "a(")) :=
  ⟨(regexpCompile_fallback sampleLib (str "a(")).1 rfl,
   (regexpCompile_fallback sampleLib (str "a(")).2.1 rfl⟩


/-! ## Line scans -/

theorem searchLineLoop_spec (doc : Document) (search : List Nat → Bool) (fuel : Nat) (n : Int)
    (hf : fuel = (doc.BufEndNum - n).toNat) :
    (∀ m, searchLineLoop doc search (fun _ => false) fuel n = Except.ok m ↔
      (n ≤ m ∧ m < doc.BufEndNum ∧ search (doc.GetLine m) = true ∧
        ∀ j, n ≤ j → j < m → search (doc.GetLine j) = false)) ∧
    (searchLineLoop doc search (fun _ => false) fuel n = Except.error SearchError.ErrNotFound ↔
      ∀ j, n ≤ j → j < doc.BufEndNum → search (doc.GetLine j) = false) := by
  induction fuel generalizing n with
  | zero =>
    have hn : doc.BufEndNum ≤ n := by omega
    constructor
    · intro m
      simp only [searchLineLoop]
      constructor
      · intro h; cases h
      · rintro ⟨h1, h2, _⟩; omega
    · simp only [searchLineLoop, true_iff]
      intro j h1 h2; omega
  | succ k ih =>
    have hn : n < doc.BufEndNum := by omega
    obtain ⟨ih1, ih2⟩ := ih (n + 1) (by omega)
    simp only [searchLineLoop, if_pos hn]
    by_cases hs : search (doc.GetLine n) = true
    · simp only [hs, if_true]
      constructor
      · intro m
        constructor
        · intro h
          injection h with h
          subst h
          exact ⟨le_refl _, hn, hs, fun j h1 h2 => by omega⟩
        · rintro ⟨h1, h2, h3, h4⟩
          rcases lt_or_eq_of_le h1 with hlt | heq
          · have := h4 n (le_refl _) hlt
            rw [hs] at this; cases this
          · rw [heq]
      · constructor
        · intro h; cases h
        · intro h
          have := h n (le_refl _) hn
          rw [hs] at this; cases this
    · have hs' : search (doc.GetLine n) = false := by simpa using hs
      simp only [hs', Bool.false_eq_true, if_false]
      constructor
      · intro m
        rw [ih1 m]
        constructor
        · rintro ⟨h1, h2, h3, h4⟩
          refine ⟨by omega, h2, h3, ?_⟩
          intro j hj1 hj2
          rcases lt_or_eq_of_le hj1 with hlt | heq
          · exact h4 j (by omega) hj2
          · rw [← heq]; exact hs'
        · rintro ⟨h1, h2, h3, h4⟩
          have hne : n ≠ m := by
            rintro rfl
            rw [hs'] at h3; cases h3
          exact ⟨by omega, h2, h3, fun j hj1 hj2 => h4 j (by omega) hj2⟩
      · rw [ih2]
        constructor
        · intro h j hj1 hj2
          rcases lt_or_eq_of_le hj1 with hlt | heq
          · exact h j (by omega) hj2
          · rw [← heq]; exact hs'
        · intro h j hj1 hj2
          exact h j (by omega) hj2

theorem backSearchLineLoop_spec (doc : Document) (search : List Nat → Bool) (fuel : Nat)
    (n : Int) (hf : fuel = (n + 1).toNat) :
    (∀ m, backSearchLineLoop doc search (fun _ => false) fuel n = Except.ok m ↔
      (0 ≤ m ∧ m ≤ n ∧ search (doc.GetLine m) = true ∧
        ∀ j, m < j → j ≤ n → search (doc.GetLine j) = false)) ∧
    (backSearchLineLoop doc search (fun _ => false) fuel n =
        Except.error SearchError.ErrNotFound ↔
      ∀ j, 0 ≤ j → j ≤ n → search (doc.GetLine j) = false) := by
  induction fuel generalizing n with
  | zero =>
    have hn : n < 0 := by omega
    constructor
    · intro m
      simp only [backSearchLineLoop]
      constructor
      · intro h; cases h
      · rintro ⟨h1, h2, _⟩; omega
    · simp only [backSearchLineLoop, true_iff]
      intro j h1 h2; omega
  | succ k ih =>
    have hn : n ≥ 0 := by omega
    obtain ⟨ih1, ih2⟩ := ih (n - 1) (by omega)
    simp only [backSearchLineLoop, if_pos hn]
    by_cases hs : search (doc.GetLine n) = true
    · simp only [hs, if_true]
      constructor
      · intro m
        constructor
        · intro h
          injection h with h
          subst h
          exact ⟨hn, le_refl _, hs, fun j h1 h2 => by omega⟩
        · rintro ⟨h1, h2, h3, h4⟩
          rcases lt_or_eq_of_le h2 with hlt | heq
          · have := h4 n hlt (le_refl _)
            rw [hs] at this; cases this
          · rw [heq]
      · constructor
        · intro h; cases h
        · intro h
          have := h n hn (le_refl _)
          rw [hs] at this; cases this
    · have hs' : search (doc.GetLine n) = false := by simpa using hs
      simp only [hs', Bool.false_eq_true, if_false]
      constructor
      · intro m
        rw [ih1 m]
        constructor
        · rintro ⟨h1, h2, h3, h4⟩
          refine ⟨h1, by omega, h3, ?_⟩
          intro j hj1 hj2
          rcases lt_or_eq_of_le hj2 with hlt | heq
          · exact h4 j hj1 (by omega)
          · rw [heq]; exact hs'
        · rintro ⟨h1, h2, h3, h4⟩
          have hne : n ≠ m := by
            rintro rfl
            rw [hs'] at h3; cases h3
          exact ⟨h1, by omega, h3, fun j hj1 hj2 => h4 j hj1 (by omega)⟩
      · rw [ih2]
        constructor
        · intro h j hj1 hj2
          rcases lt_or_eq_of_le hj2 with hlt | heq
          · exact h j hj1 (by omega)
          · rw [heq]; exact hs'
        · intro h j hj1 hj2
          exact h j hj1 (by omega)

/-- C17: with a context that is never cancelled, `searchLine(num)` returns the
least line number `n` with `max(num, 0) ≤ n < BufEndNum` whose line matches and
`ErrNotFound` when there is none (as from line 5 of a document of 10 lines
without a match); `backSearchLine(num)` returns the greatest `n` with
`0 ≤ n ≤ min(num, BufEndNum - 1)` whose line matches and `ErrNotFound` when
there is none. -/
theorem searchLine_least_backSearchLine_greatest (doc : Document) (search : List Nat → Bool)
    (num : Int) :
    (∀ n, searchLine doc search (fun _ => false) num = Except.ok n ↔
      (max num 0 ≤ n ∧ n < doc.BufEndNum ∧ search (doc.GetLine n) = true ∧
        ∀ j, max num 0 ≤ j → j < n → search (doc.GetLine j) = false)) ∧
    (searchLine doc search (fun _ => false) num = Except.error SearchError.ErrNotFound ↔
      ∀ j, max num 0 ≤ j → j < doc.BufEndNum → search (doc.GetLine j) = false) ∧
    (∀ n, backSearchLine doc search (fun _ => false) num = Except.ok n ↔
      (0 ≤ n ∧ n ≤ min num (doc.BufEndNum - 1) ∧ search (doc.GetLine n) = true ∧
        ∀ j, n < j → j ≤ min num (doc.BufEndNum - 1) → search (doc.GetLine j) = false)) ∧
    (backSearchLine doc search (fun _ => false) num = Except.error SearchError.ErrNotFound ↔
      ∀ j, 0 ≤ j → j ≤ min num (doc.BufEndNum - 1) → search (doc.GetLine j) = false) ∧
    searchLine { BufEndNum := 10, GetLine := fun _ => str "x" }
      (fun s => Contains s (str "y")) (fun _ => false) 5 =
        Except.error SearchError.ErrNotFound := by
  obtain ⟨h1, h2⟩ := searchLineLoop_spec doc search _ (max num 0) rfl
  obtain ⟨h3, h4⟩ := backSearchLineLoop_spec doc search _ (min num (doc.BufEndNum - 1)) rfl
  exact ⟨h1, h2, h3, h4, rfl⟩


/-! ## Occurrences of a substring -/

theorem indexAux_some (substr : List Nat) (s : List Nat) (i : Nat) :
    indexAux substr s = some i ↔
      (substr <+: s.drop i ∧ i ≤ s.length ∧ ∀ j, j < i → ¬ substr <+: s.drop j) := by
  induction s generalizing i with
  | nil =>
    simp only [indexAux, List.drop_nil, List.length_nil, Nat.le_zero, List.prefix_nil]
    by_cases h : substr = []
    · simp only [h, if_true, Option.some.injEq, true_and]
      constructor
      · intro h0; subst h0; exact ⟨rfl, fun j hj => by omega⟩
      · intro h0; exact h0.1.symm
    · simp [h]
  | cons c cs ih =>
    simp only [indexAux]
    by_cases hp : substr <+: c :: cs
    · rw [if_pos hp]
      constructor
      · intro h0
        injection h0 with h0
        subst h0
        exact ⟨by simpa using hp, by simp, fun j hj => by omega⟩
      · rintro ⟨_, _, h3⟩
        rcases Nat.eq_zero_or_pos i with h0 | h0
        · rw [h0]
        · exact absurd (by simpa using hp) (h3 0 h0)
    · rw [if_neg hp]
      constructor
      · intro h0
        rcases hk : indexAux substr cs with _ | k
        · rw [hk] at h0; simp at h0
        · rw [hk] at h0
          simp only [Option.map_some', Option.some.injEq] at h0
          subst h0
          obtain ⟨h1, h2, h3⟩ := (ih k).mp hk
          refine ⟨by simpa using h1, by simp; omega, ?_⟩
          intro j hj
          rcases j with _ | j
          · simpa using hp
          · simpa using h3 j (by omega)
      · rintro ⟨h1, h2, h3⟩
        rcases i with _ | k
        · exact absurd (by simpa using h1) hp
        · have := (ih k).mpr ⟨by simpa using h1, by simpa using h2, fun j hj => by
            simpa using h3 (j + 1) (by omega)⟩
          rw [this]; rfl

theorem indexAux_none (substr : List Nat) (s : List Nat) :
    indexAux substr s = none ↔ ∀ j, j ≤ s.length → ¬ substr <+: s.drop j := by
  induction s with
  | nil =>
    by_cases h : substr = []
    · simp [indexAux, h]
    · simp [indexAux, h]
  | cons c cs ih =>
    simp only [indexAux]
    by_cases hp : substr <+: c :: cs
    · rw [if_pos hp]
      constructor
      · intro h; cases h
      · intro h
        exact absurd (by simpa using hp) (h 0 (by simp))
    · rw [if_neg hp, Option.map_eq_none', ih]
      constructor
      · intro h j hj
        rcases j with _ | j
        · simpa using hp
        · simpa using h j (by simpa using hj)
      · intro h j hj
        simpa using h (j + 1) (by simpa using hj)

theorem prefix_drop_length {substr s : List Nat} {j : Nat} (h : substr <+: s.drop j) :
    substr.length + j ≤ s.length ∨ substr = [] := by
  have := h.length_le
  simp only [List.length_drop] at this
  rcases Nat.lt_or_ge s.length j with hlt | hge
  · right
    have h0 : substr.length = 0 := by omega
    exact List.length_eq_zero.mp h0
  · left; omega


theorem Index_of_some {s substr : List Nat} {i : Nat} (h : indexAux substr s = some i) :
    Index s substr = i := by
  simp [Index, h]

theorem Index_of_none {s substr : List Nat} (h : indexAux substr s = none) :
    Index s substr = -1 := by
  simp [Index, h]

theorem Contains_iff (s w : List Nat) :
    Contains s w = true ↔ ∃ j, j ≤ s.length ∧ w <+: s.drop j := by
  unfold Contains
  rcases h : indexAux w s with _ | i
  · rw [Index_of_none h]
    have := (indexAux_none w s).mp h
    simp only [ge_iff_le, decide_eq_true_eq]
    constructor
    · intro h0; omega
    · rintro ⟨j, hj, hp⟩; exact absurd hp (this j hj)
  · rw [Index_of_some h]
    obtain ⟨h1, h2, _⟩ := (indexAux_some w s i).mp h
    simp only [ge_iff_le, decide_eq_true_eq]
    exact ⟨fun _ => ⟨i, h2, h1⟩, fun _ => by omega⟩

/-- The loop of `searchPosition` on the rest `text` of the searched string,
which starts at offset `off`. -/
theorem searchPositionLoop_spec (w : List Nat) (hw : w ≠ []) (fuel : Nat) (text : List Nat)
    (off : Nat) (hf : text.length < fuel) :
    (∀ p ∈ searchPositionLoop w fuel text off,
      (off : Int) ≤ p.1 ∧ p.2 = p.1 + w.length ∧ p.2 ≤ off + text.length ∧
      w <+: text.drop (p.1 - off).toNat) ∧
    (searchPositionLoop w fuel text off).Pairwise (fun p q => p.2 ≤ q.1) ∧
    (∀ j : Nat, w <+: text.drop j →
      ∃ p ∈ searchPositionLoop w fuel text off, p.1 ≤ off + j ∧ (off + j : Int) < p.2) := by
  have hwl : 0 < w.length := List.length_pos.mpr hw
  induction fuel generalizing text off with
  | zero => omega
  | succ k ih =>
    rcases h : indexAux w text with _ | i
    · have hidx := Index_of_none h
      have hnone := (indexAux_none w text).mp h
      have hnil : searchPositionLoop w (k + 1) text off = [] := by
        simp [searchPositionLoop, hidx]
      rw [hnil]
      refine ⟨by simp, List.Pairwise.nil, ?_⟩
      intro j hj
      rcases prefix_drop_length hj with h1 | h1
      · exact absurd hj (hnone j (by omega))
      · exact absurd h1 hw
    · have hidx := Index_of_some h
      obtain ⟨h1, h2, h3⟩ := (indexAux_some w text i).mp h
      have hlen : w.length + i ≤ text.length := by
        rcases prefix_drop_length h1 with h4 | h4
        · exact h4
        · exact absurd h4 hw
      have hne : (i : Int) ≠ -1 := by omega
      have hcast : ((i : Int) + (w.length : Int)).toNat = i + w.length := by omega
      have hoff : (off : Int) + ((i : Int) + (w.length : Int)) = ((off + i + w.length : Nat) : Int) := by
        push_cast; ring
      have hcons : searchPositionLoop w (k + 1) text off =
          ((i : Int) + off, (i : Int) + off + w.length) ::
            searchPositionLoop w k (text.drop (i + w.length)) (off + i + w.length : Nat) := by
        simp only [searchPositionLoop, hidx, if_pos hne, hcast, hoff]
      obtain ⟨ih1, ih2, ih3⟩ := ih (text.drop (i + w.length)) (off + i + w.length)
        (by simp only [List.length_drop]; omega)
      rw [hcons]
      refine ⟨?_, ?_, ?_⟩
      · intro p hp
        rcases List.mem_cons.mp hp with rfl | hp
        · refine ⟨by simp, rfl, by simp only; omega, ?_⟩
          have : ((i : Int) + off - off).toNat = i := by omega
          simp only [this]
          exact h1
        · obtain ⟨q1, q2, q3, q4⟩ := ih1 p hp
          simp only [List.length_drop] at q3
          refine ⟨by omega, q2, by omega, ?_⟩
          rw [List.drop_drop] at q4
          have : i + w.length + (p.1 - ((off + i + w.length : Nat) : Int)).toNat =
              (p.1 - off).toNat := by omega
          rw [this] at q4
          exact q4
      · rw [List.pairwise_cons]
        refine ⟨?_, ih2⟩
        intro p hp
        have := (ih1 p hp).1
        simp only
        omega
      · intro j hj
        by_cases hji : j < i + w.length
        · refine ⟨_, List.mem_cons_self _ _, ?_, ?_⟩
          · have : i ≤ j := by
              by_contra hcon
              exact h3 j (by omega) hj
            simp only; omega
          · simp only; omega
        · have hj2 : w <+: (text.drop (i + w.length)).drop (j - (i + w.length)) := by
            rw [List.drop_drop]
            have : i + w.length + (j - (i + w.length)) = j := by omega
            rw [this]; exact hj
          obtain ⟨p, hp, hp1, hp2⟩ := ih3 _ hj2
          refine ⟨p, List.mem_cons_of_mem _ hp, ?_, ?_⟩
          · push_cast at hp1 ⊢; omega
          · push_cast at hp2 ⊢; omega

theorem searchPositionLoop_occurrences (w s : List Nat) (hw : w ≠ []) :
    Occurrences s w (searchPositionLoop w (s.length + 1) s 0) := by
  obtain ⟨h1, h2, h3⟩ := searchPositionLoop_spec w hw (s.length + 1) s 0 (by omega)
  refine ⟨?_, h2, ?_, ?_⟩
  · intro p hp
    obtain ⟨q1, q2, q3, q4⟩ := h1 p hp
    refine ⟨by simpa using q1, q2, by simpa using q3, ?_⟩
    have : (p.1 - ((0 : Nat) : Int)).toNat = p.1.toNat := by simp
    rw [this] at q4
    exact (List.prefix_iff_eq_take.mp q4).symm
  · intro j hj
    obtain ⟨p, hp, hp1, hp2⟩ := h3 j hj
    exact ⟨p, hp, by simpa using hp1, by simpa using hp2⟩
  · rw [Contains_iff]
    constructor
    · intro hne
      obtain ⟨p, hp⟩ := List.exists_mem_of_ne_nil _ hne
      obtain ⟨q1, q2, q3, q4⟩ := h1 p hp
      refine ⟨(p.1 - ((0 : Nat) : Int)).toNat, ?_, q4⟩
      simp only [Nat.cast_zero, zero_add, sub_zero] at q1 q3 ⊢
      omega
    · rintro ⟨j, _, hj⟩ hnil
      obtain ⟨p, hp, _⟩ := h3 j hj
      simp only [Nat.cast_zero] at hp
      rw [hnil] at hp
      simp at hp

/-- C18: for a non-empty pattern `w` and `caseSensitive` set, `searchPosition`
returns the ranges of the successive non-overlapping occurrences of `w` in
`s`, found from the left (`Occurrences`); for the empty pattern it returns
`nil`; without `caseSensitive`, on ASCII inputs (where `strings.ToLower`
lowers the letters byte by byte), it returns the occurrences of the lower-cased
`w` in the lower-cased `s`. -/
theorem searchPosition_occurrences (lib : Lib) (s w : List Nat) :
    (w ≠ [] → Occurrences s w (searchPosition lib true s w)) ∧
    (∀ caseSensitive, searchPosition lib caseSensitive s [] = []) ∧
    (w ≠ [] →
      (∀ x : List Nat, (∀ c ∈ x, c < 128) → lib.ToLower x = x.map asciiLower) →
      (∀ c ∈ s, c < 128) → (∀ c ∈ w, c < 128) →
      Occurrences (s.map asciiLower) (w.map asciiLower) (searchPosition lib false s w)) := by
  refine ⟨?_, ?_, ?_⟩
  · intro hw
    have : searchPosition lib true s w = searchPositionLoop w (s.length + 1) s 0 := by
      simp [searchPosition, hw]
    rw [this]
    exact searchPositionLoop_occurrences w s hw
  · intro cs
    simp [searchPosition]
  · intro hw hlib has haw
    have hs := hlib s has
    have hlw := hlib w haw
    have hw2 : w.map asciiLower ≠ [] := by simpa using hw
    have : searchPosition lib false s w =
        searchPositionLoop (w.map asciiLower) ((s.map asciiLower).length + 1)
          (s.map asciiLower) 0 := by
      simp [searchPosition, hw, hs, hlw]
    rw [this]
    exact searchPositionLoop_occurrences _ _ hw2

/-- Witness for C18 at the pattern `aa` in `aaaa` and the pattern `abc` in
`xABCx`. -/
theorem searchPosition_occurrences_witness :
    Occurrences (str "aaaa") (str "aa") (searchPosition sampleLib true (str "aaaa") (str "aa")) ∧
    Occurrences ((str "xABCx").map asciiLower) ((str "abc").map asciiLower)
      (searchPosition sampleLib false (str "xABCx") (str "abc")) :=
  ⟨(searchPosition_occurrences sampleLib (str "aaaa") (str "aa")).1 (by decide),
   (searchPosition_occurrences sampleLib (str "xABCx") (str "abc")).2.2 (by decide)
     (fun _ _ => rfl) (by decide) (by decide)⟩


/-! ## Delimited fields -/

theorem splitOn_ne_nil (d : List Nat) (fuel : Nat) (s : List Nat) : splitOn d fuel s ≠ [] := by
  cases fuel with
  | zero => simp [splitOn]
  | succ k =>
    simp only [splitOn]
    split <;> simp

theorem splitOn_some (d : List Nat) (k : Nat) (t : List Nat) (j : Nat)
    (h : indexAux d t = some j) :
    splitOn d (k + 1) t = t.take j :: splitOn d k (t.drop (j + d.length)) := by
  simp only [splitOn, h]

theorem splitOn_none (d : List Nat) (k : Nat) (t : List Nat) (h : indexAux d t = none) :
    splitOn d (k + 1) t = [t] := by
  simp only [splitOn, h]

theorem drop_drop_add (s : List Nat) (i n : Nat) : (s.drop i).drop n = s.drop (i + n) := by
  rw [List.drop_drop, Nat.add_comm]

/-- The loop of `rangePosition` from the offset `i`: it returns `(-1, -1)` when
fewer than `m` delimiters follow, and otherwise reaches the offset behind the
`m`-th of them, where the fields that remain start. -/
theorem rangePositionLoop_spec (s d : List Nat) (hd : d ≠ []) (m : Nat) :
    ∀ (i fuel : Nat), i ≤ s.length → s.length - i < fuel →
      (rangePositionLoop s d m (i : Int) = none ∧ (splitOn d fuel (s.drop i)).length ≤ m) ∨
      (∃ i1 fuel1 : Nat, rangePositionLoop s d m (i : Int) = some (i1 : Int) ∧ i1 ≤ s.length ∧
        s.length - i1 < fuel1 ∧
        (splitOn d fuel (s.drop i)).drop m = splitOn d fuel1 (s.drop i1)) := by
  have hdl : 0 < d.length := List.length_pos.mpr hd
  induction m with
  | zero =>
    intro i fuel hi hf
    exact Or.inr ⟨i, fuel, rfl, hi, hf, rfl⟩
  | succ m ih =>
    intro i fuel hi hf
    obtain ⟨k, rfl⟩ : ∃ k, fuel = k + 1 := ⟨fuel - 1, by omega⟩
    have htn : ((i : Int)).toNat = i := by simp
    rcases h : indexAux d (s.drop i) with _ | j
    · left
      have hidx := Index_of_none h
      refine ⟨?_, ?_⟩
      · simp only [rangePositionLoop, htn, hidx]
        rfl
      · rw [splitOn_none d k _ h]
        simp
    · have hidx := Index_of_some h
      obtain ⟨h1, h2, _⟩ := (indexAux_some d (s.drop i) j).mp h
      have hlen : d.length + j ≤ (s.drop i).length := by
        rcases prefix_drop_length h1 with h4 | h4
        · exact h4
        · exact absurd h4 hd
      simp only [List.length_drop] at hlen
      have hnext : rangePositionLoop s d (m + 1) (i : Int) =
          rangePositionLoop s d m ((i + j + d.length : Nat) : Int) := by
        have hnn : ¬ ((j : Int) < 0) := by omega
        simp only [rangePositionLoop, htn, hidx, if_neg hnn]
        push_cast
        rfl
      have hsplit : splitOn d (k + 1) (s.drop i) =
          (s.drop i).take j :: splitOn d k (s.drop (i + j + d.length)) := by
        rw [splitOn_some d k _ j h, drop_drop_add, Nat.add_assoc]
      rcases ih (i + j + d.length) k (by omega) (by omega) with ⟨r1, r2⟩ | ⟨i1, f1, r1, r2, r3, r4⟩
      · left
        refine ⟨by rw [hnext, r1], ?_⟩
        rw [hsplit, List.length_cons]
        omega
      · right
        refine ⟨i1, f1, by rw [hnext, r1], r2, r3, ?_⟩
        rw [hsplit, List.drop_succ_cons, r4]

theorem getElem?_of_drop {α : Type} (l : List α) (n : Nat) (a b : α) (r : List α)
    (h : l.drop n = a :: b :: r) : l[n + 1]? = some b := by
  have := congrArg (fun x => x[1]?) h
  simp only [List.getElem?_drop] at this
  simpa using this

theorem length_of_drop {α : Type} (l : List α) (n : Nat) (a : α) (h : l.drop n = [a]) :
    l.length = n + 1 := by
  have := congrArg List.length h
  simp only [List.length_drop, List.length_singleton] at this
  omega

/-- C19: `rangePosition(s, d, k)` returns the byte range of the `k`-th field
of `s`: for a non-empty delimiter `d` and `k ≥ 1`, when `s` split on `d` has an
element `k` (0-based), that is, `s` holds at least `k` non-overlapping
occurrences of `d`, the result `(start, end)` has `0 ≤ start ≤ end ≤ len(s)`
and `s[start:end]` is that element; when it has none, the result is
`(-1, -1)`.  For `k = 0` the result is `(0, e)` with `e` the index of the first
occurrence of `d` in `s`, or -1 when `d` does not occur. -/
theorem rangePosition_field (s d : List Nat) (k : Nat) (hd : d ≠ []) :
    (1 ≤ k → k < (Split s d).length →
      ∃ a b : Nat, rangePosition s d (k : Int) = ((a : Int), (b : Int)) ∧ a ≤ b ∧ b ≤ s.length ∧
        (Split s d)[k]? = some ((s.drop a).take (b - a))) ∧
    (1 ≤ k → (Split s d).length ≤ k → rangePosition s d (k : Int) = (-1, -1)) ∧
    rangePosition s d 0 = (0, Index s d) ∧
    ((∀ j, j ≤ s.length → ¬ d <+: s.drop j) → Index s d = -1) ∧
    (∀ i : Nat, d <+: s.drop i → (∀ j, j < i → ¬ d <+: s.drop j) → Index s d = i) := by
  have hdl : 0 < d.length := List.length_pos.mpr hd
  have hmain : 1 ≤ k →
      (rangePosition s d (k : Int) = (-1, -1) ∧ (Split s d).length ≤ k) ∨
      (∃ a b : Nat, rangePosition s d (k : Int) = ((a : Int), (b : Int)) ∧ a ≤ b ∧
        b ≤ s.length ∧ (Split s d)[k]? = some ((s.drop a).take (b - a)) ∧
        k < (Split s d).length) := by
    intro hk
    have hk0 : ¬ ((k : Int) = 0) := by omega
    have hk1 : ((k : Int) - 1).toNat = k - 1 := by omega
    have hsp := rangePositionLoop_spec s d hd (k - 1) 0 (s.length + 1) (by omega) (by omega)
    simp only [List.drop_zero, Nat.cast_zero] at hsp
    rcases hsp with ⟨r1, r2⟩ | ⟨i1, f1, r1, r2, r3, r4⟩
    · left
      refine ⟨?_, by unfold Split; omega⟩
      simp only [rangePosition, if_neg hk0, hk1, r1]
    · obtain ⟨f2, rfl⟩ : ∃ f2, f1 = f2 + 1 := ⟨f1 - 1, by omega⟩
      have htn : ((i1 : Int)).toNat = i1 := by simp
      rcases h : indexAux d (s.drop i1) with _ | ds
      · left
        have hidx := Index_of_none h
        refine ⟨?_, ?_⟩
        · simp only [rangePosition, if_neg hk0, hk1, r1, htn, hidx]
          rfl
        · have hs1 : splitOn d (f2 + 1) (s.drop i1) = [s.drop i1] := splitOn_none d f2 _ h
          rw [hs1] at r4
          have := length_of_drop _ _ _ r4
          unfold Split
          omega
      · right
        have hidx := Index_of_some h
        obtain ⟨h1, h2, _⟩ := (indexAux_some d (s.drop i1) ds).mp h
        have hlen : d.length + ds ≤ (s.drop i1).length := by
          rcases prefix_drop_length h1 with h4 | h4
          · exact h4
          · exact absurd h4 hd
        simp only [List.length_drop] at hlen
        have hnn : ¬ ((ds : Int) < 0) := by omega
        obtain ⟨f3, rfl⟩ : ∃ f3, f2 = f3 + 1 := ⟨f2 - 1, by omega⟩
        have hstart : ((i1 : Int) + (ds : Int) + (d.length : Int)) =
            ((i1 + ds + d.length : Nat) : Int) := by push_cast; rfl
        have htn2 : (((i1 + ds + d.length : Nat) : Int)).toNat = i1 + ds + d.length :=
          Int.toNat_ofNat _
        have hs1 : splitOn d (f3 + 1 + 1) (s.drop i1) =
            (s.drop i1).take ds :: splitOn d (f3 + 1) (s.drop (i1 + ds + d.length)) := by
          rw [splitOn_some d (f3 + 1) _ ds h, drop_drop_add, Nat.add_assoc]
        rw [hs1] at r4
        have hklen : k < (Split s d).length := by
          have := congrArg List.length r4
          simp only [List.length_drop, List.length_cons] at this
          have hpos : 0 < (splitOn d (f3 + 1) (s.drop (i1 + ds + d.length))).length :=
            List.length_pos.mpr (splitOn_ne_nil _ _ _)
          unfold Split
          omega
        rcases h2nd : indexAux d (s.drop (i1 + ds + d.length)) with _ | de
        · have hidx2 := Index_of_none h2nd
          refine ⟨i1 + ds + d.length, s.length, ?_, by omega, le_refl _, ?_, hklen⟩
          · simp only [rangePosition, if_neg hk0, hk1, r1, htn, hidx, if_neg hnn, hstart, htn2,
              hidx2]
            split_ifs <;> first | rfl | omega
          · have hs2 : splitOn d (f3 + 1) (s.drop (i1 + ds + d.length)) =
                [s.drop (i1 + ds + d.length)] := splitOn_none d f3 _ h2nd
            rw [hs2] at r4
            have hget := getElem?_of_drop _ _ _ _ _ r4
            have hk2 : k - 1 + 1 = k := by omega
            rw [hk2] at hget
            unfold Split
            rw [hget]
            congr 1
            rw [List.take_of_length_le]
            simp
        · have hidx2 := Index_of_some h2nd
          obtain ⟨g1, g2, _⟩ := (indexAux_some d (s.drop (i1 + ds + d.length)) de).mp h2nd
          have hlen2 : d.length + de ≤ (s.drop (i1 + ds + d.length)).length := by
            rcases prefix_drop_length g1 with h4 | h4
            · exact h4
            · exact absurd h4 hd
          simp only [List.length_drop] at hlen2
          have hlt : ((i1 + ds + d.length : Nat) : Int) < (s.length : Int) := by omega
          have hnn2 : ¬ ((de : Int) < 0) := by omega
          refine ⟨i1 + ds + d.length, i1 + ds + d.length + de, ?_, by omega, by omega, ?_,
            hklen⟩
          · simp only [rangePosition, if_neg hk0, hk1, r1, htn, hidx, if_neg hnn, hstart, htn2,
              hidx2, if_pos hlt, if_neg hnn2]
            push_cast
            rfl
          · have hs2 : splitOn d (f3 + 1) (s.drop (i1 + ds + d.length)) =
                (s.drop (i1 + ds + d.length)).take de ::
                  splitOn d f3 (s.drop (i1 + ds + d.length + (de + d.length))) := by
              rw [splitOn_some d f3 _ de h2nd, drop_drop_add]
            rw [hs2] at r4
            have hget := getElem?_of_drop _ _ _ _ _ r4
            have hk2 : k - 1 + 1 = k := by omega
            rw [hk2] at hget
            unfold Split
            rw [hget]
            congr 2
            omega
  refine ⟨?_, ?_, ?_, ?_, ?_⟩
  · intro hk hlen
    rcases hmain hk with ⟨_, r2⟩ | ⟨a, b, r1, r2, r3, r4, _⟩
    · omega
    · exact ⟨a, b, r1, r2, r3, r4⟩
  · intro hk hlen
    rcases hmain hk with ⟨r1, _⟩ | ⟨a, b, _, _, _, _, r5⟩
    · exact r1
    · omega
  · simp [rangePosition]
  · intro h
    exact Index_of_none ((indexAux_none d s).mpr h)
  · intro i h1 h2
    have hi : i ≤ s.length := by
      rcases prefix_drop_length h1 with h4 | h4
      · omega
      · exact absurd h4 hd
    exact Index_of_some ((indexAux_some d s i).mpr ⟨h1, hi, h2⟩)

/-- Witness for C19 at the fields 1 and 3 of `a,b,c`. -/
theorem rangePosition_field_witness :
    (∃ a b : Nat, rangePosition (str "a,b,c") (str ",") ((1 : Nat) : Int) = ((a : Int), (b : Int)) ∧
      a ≤ b ∧ b ≤ (str "a,b,c").length ∧
      (Split (str "a,b,c") (str ","))[1]? = some (((str "a,b,c").drop a).take (b - a))) ∧
    rangePosition (str "a,b,c") (str ",") ((3 : Nat) : Int) = (-1, -1) :=
  ⟨(rangePosition_field (str "a,b,c") (str ",") 1 (by decide)).1 (by decide) (by decide),
   (rangePosition_field (str "a,b,c") (str ",") 3 (by decide)).2.1 (by decide) (by decide)⟩


/-! ## The start of the incremental search -/

theorem Contains_iff_occurs (s w : List Nat) : Contains s w = true ↔ w <:+: s := by
  rw [Contains_iff]
  constructor
  · rintro ⟨j, _, t, ht⟩
    refine ⟨s.take j, t, ?_⟩
    rw [List.append_assoc, ht, List.take_append_drop]
  · rintro ⟨a, b, hab⟩
    refine ⟨a.length, ?_, b, ?_⟩
    · rw [← hab]; simp
    · rw [← hab]; simp

/-- C21, counterexample: the previous term `b` is not a prefix of the new term
`ab`, and `returnStartPosition` returns the top line 5, not the stored origin
2. -/
theorem returnStartPosition_inner_occurrence :
    ¬ ((sampleSearch (str "b") (str "ab")).OriginStr <+:
        (sampleSearch (str "b") (str "ab")).searchWord) ∧
    (returnStartPosition (sampleSearch (str "b") (str "ab"))).1 =
      (sampleSearch (str "b") (str "ab")).topLN ∧
    (returnStartPosition (sampleSearch (str "b") (str "ab"))).1 ≠
      (sampleSearch (str "b") (str "ab")).OriginPos := by
  decide

/-- C21, amended: `returnStartPosition` returns `Doc.topLN` when the previous
search term `OriginStr` occurs in the new term `searchWord` as a substring, as
it does when it is a prefix of it (`a` then `ab`); for any new term in which
the previous term does not occur it returns the stored origin `OriginPos`.  In
both cases it leaves `OriginPos` and every other field unchanged and sets
`OriginStr` to the new term. -/
theorem returnStartPosition_substring (root : Root) :
    (root.OriginStr <:+: root.searchWord → (returnStartPosition root).1 = root.topLN) ∧
    (root.OriginStr <+: root.searchWord → (returnStartPosition root).1 = root.topLN) ∧
    (¬ root.OriginStr <:+: root.searchWord → (returnStartPosition root).1 = root.OriginPos) ∧
    (returnStartPosition root).2 = { root with OriginStr := root.searchWord } := by
  have hin : root.OriginStr <:+: root.searchWord → (returnStartPosition root).1 = root.topLN := by
    intro h
    have hc := (Contains_iff_occurs root.searchWord root.OriginStr).mpr h
    simp [returnStartPosition, hc]
  refine ⟨hin, fun h => hin h.isInfix, ?_, rfl⟩
  intro h
  have hc : Contains root.searchWord root.OriginStr = false := by
    rw [← Bool.not_eq_true, Contains_iff_occurs]
    exact h
  simp [returnStartPosition, hc]

/-- Witness for C21 at the terms `a` then `ab`, `b` then `ab` and `ab` then
`c`. -/
theorem returnStartPosition_substring_witness :
    (returnStartPosition (sampleSearch (str "b") (str "ab"))).1 = 5 ∧
    (returnStartPosition (sampleSearch (str "a") (str "ab"))).1 = 5 ∧
    (returnStartPosition (sampleSearch (str "ab") (str "c"))).1 = 2 :=
  ⟨(returnStartPosition_substring _).1 ⟨str "a", [], by decide⟩,
   (returnStartPosition_substring _).2.1 ⟨str "b", by decide⟩,
   (returnStartPosition_substring _).2.2.1 (by decide)⟩

/-! ## One row down in wrap mode -/

theorem find_gt_least (L : List Int) (t : Int) (hs : L.Pairwise (fun a b => a ≤ b)) :
    (∀ x, L.find? (fun x => decide (x > t)) = some x →
      x ∈ L ∧ x > t ∧ ∀ y ∈ L, y > t → x ≤ y) ∧
    (L.find? (fun x => decide (x > t)) = none → ∀ y ∈ L, y ≤ t) := by
  induction L with
  | nil => simp
  | cons a l ih =>
    rw [List.pairwise_cons] at hs
    obtain ⟨ih1, ih2⟩ := ih hs.2
    by_cases ha : a > t
    · simp only [List.find?_cons, ha, decide_True]
      refine ⟨?_, by simp⟩
      intro x hx
      injection hx with hx
      subst hx
      refine ⟨by simp, ha, ?_⟩
      intro y hy _
      rcases List.mem_cons.mp hy with rfl | hy
      · exact le_refl _
      · exact hs.1 y hy
    · simp only [List.find?_cons, ha, decide_False]
      refine ⟨?_, ?_⟩
      · intro x hx
        obtain ⟨h1, h2, h3⟩ := ih1 x hx
        refine ⟨List.mem_cons_of_mem _ h1, h2, ?_⟩
        intro y hy hyt
        rcases List.mem_cons.mp hy with rfl | hy
        · exact absurd hyt ha
        · exact h3 y hy hyt
      · intro hn y hy
        rcases List.mem_cons.mp hy with rfl | hy
        · omega
        · exact ih2 hn y hy

/-- C22: in wrap mode, when the wrap index `L` of the current top line is
available and ascending: if `L` has an entry greater than `topLX`, `moveDown`
sets `topLX` to the least such entry and leaves `topLN` unchanged; if it has
none, `moveDown` sets `topLN` to `topLN + 1` and `topLX` to 0.  No other field
changes. -/
theorem moveDown_wrap_row (leftMostX : Int → Option (List Int)) (root : Root) (L : List Int)
    (hw : root.WrapMode = true) (hL : leftMostX (root.topLN + root.Header) = some L)
    (hs : L.Pairwise (fun a b => a ≤ b)) :
    ((∃ x ∈ L, x > root.topLX) →
      ∃ m ∈ L, m > root.topLX ∧ (∀ y ∈ L, y > root.topLX → m ≤ y) ∧
        moveDown leftMostX root = { root with topLX := m }) ∧
    ((∀ x ∈ L, x ≤ root.topLX) →
      moveDown leftMostX root = { root with topLN := root.topLN + 1, topLX := 0 }) := by
  obtain ⟨h1, h2⟩ := find_gt_least L root.topLX hs
  have hw2 : ¬ (root.WrapMode = false) := by simp [hw]
  refine ⟨?_, ?_⟩
  · rintro ⟨x, hx, hxt⟩
    rcases hf : L.find? (fun x => decide (x > root.topLX)) with _ | m
    · have := h2 hf x hx
      omega
    · obtain ⟨m1, m2, m3⟩ := h1 m hf
      refine ⟨m, m1, m2, m3, ?_⟩
      simp only [moveDown, if_neg hw2, hL, hf]
  · intro hall
    rcases hf : L.find? (fun x => decide (x > root.topLX)) with _ | m
    · simp only [moveDown, if_neg hw2, hL, hf]
    · obtain ⟨m1, m2, _⟩ := h1 m hf
      have := hall m m1
      omega

/-- Witness for C22 on a line with the rows 0 and 80: from the first row and
from the last one. -/
theorem moveDown_wrap_row_witness :
    (∃ m ∈ [(0 : Int), 80], m > sampleRoot.topLX ∧
      (∀ y ∈ [(0 : Int), 80], y > sampleRoot.topLX → m ≤ y) ∧
      moveDown sampleLeftMostX sampleRoot = { sampleRoot with topLX := m }) ∧
    moveDown sampleLeftMostX { sampleRoot with topLX := 80 } =
      { sampleRoot with topLN := 1, topLX := 0 } :=
  ⟨(moveDown_wrap_row sampleLeftMostX sampleRoot [0, 80] rfl rfl (by decide)).1
      ⟨80, by decide, by decide⟩,
   (moveDown_wrap_row sampleLeftMostX { sampleRoot with topLX := 80 } [0, 80] rfl rfl
      (by decide)).2 (by decide)⟩


/-! ## Several rows down in wrap mode -/

theorem getD_append_mid (pre post : List Int) (x : Int) :
    (pre ++ x :: post).getD pre.length 0 = x := by
  simp only [List.getD_eq_getElem?_getD]
  rw [List.getElem?_append_right (le_refl _)]
  simp

theorem getD_append_post (pre post : List Int) (x : Int) (k : Nat) :
    (pre ++ x :: post).getD (pre.length + 1 + k) 0 = post.getD k 0 := by
  simp only [List.getD_eq_getElem?_getD]
  rw [List.getElem?_append_right (by omega)]
  have : pre.length + 1 + k - pre.length = k + 1 := by omega
  rw [this, List.getElem?_cons_succ]

/-- On a strictly ascending list `numOfReverseSlice` returns the index of the
entry `x`. -/
theorem numOfReverseSliceLoop_at (pre post : List Int) (x : Int) (hpost : ∀ y ∈ post, x < y) :
    ∀ k, k ≤ post.length →
      numOfReverseSliceLoop (pre ++ x :: post) x (pre.length + 1 + k) = pre.length := by
  intro k
  induction k with
  | zero =>
    intro _
    simp only [Nat.add_zero, numOfReverseSliceLoop, getD_append_mid, le_refl, if_true]
  | succ k ih =>
    intro hk
    have hlt : k < post.length := by omega
    have hget : post.getD k 0 = post[k] := by
      simp [List.getD_eq_getElem?_getD, List.getElem?_eq_getElem hlt]
    have hgt : x < post.getD k 0 := by
      rw [hget]; exact hpost _ (List.getElem_mem _)
    have : pre.length + 1 + (k + 1) = (pre.length + 1 + k) + 1 := by omega
    rw [this]
    simp only [numOfReverseSliceLoop, getD_append_post]
    rw [if_neg (by omega)]
    exact ih (by omega)

theorem numOfReverseSlice_at (pre post : List Int) (x : Int) (hpost : ∀ y ∈ post, x < y) :
    numOfReverseSlice (pre ++ x :: post) x = pre.length := by
  have := numOfReverseSliceLoop_at pre post x hpost post.length (le_refl _)
  unfold numOfReverseSlice
  rw [← this]
  congr 1
  simp
  omega

theorem rowX_mid (pre post : List Int) (x : Int) : rowX (pre ++ x :: post) pre.length = x := by
  unfold rowX
  rw [if_pos (by simp), getD_append_mid]

/-- The single step `moveDown` changes `topLN` and `topLX` only. -/
theorem moveDown_fields (leftMostX : Int → Option (List Int)) (root : Root) :
    ∃ a b, moveDown leftMostX root = { root with topLN := a, topLX := b } := by
  unfold moveDown
  split_ifs
  · exact ⟨_, _, rfl⟩
  · split
    · exact ⟨root.topLN, root.topLX, rfl⟩
    · split
      · exact ⟨root.topLN, _, rfl⟩
      · exact ⟨_, _, rfl⟩

theorem iterate_moveDown_fields (leftMostX : Int → Option (List Int)) (N : Nat) :
    ∀ root : Root,
      ∃ a b, (moveDown leftMostX)^[N] root = { root with topLN := a, topLX := b } := by
  induction N with
  | zero => intro root; exact ⟨root.topLN, root.topLX, rfl⟩
  | succ N ih =>
    intro root
    rw [Function.iterate_succ_apply]
    obtain ⟨a, b, h1⟩ := moveDown_fields leftMostX root
    obtain ⟨c, d, h2⟩ := ih (moveDown leftMostX root)
    rw [h2, h1]
    exact ⟨c, d, rfl⟩

/-- The single step from the row `x` of a strictly ascending wrap index: to
the row behind it. -/
theorem moveDown_next_row (leftMostX : Int → Option (List Int)) (root : Root)
    (pre post : List Int) (b : Int) (hw : root.WrapMode = true)
    (hL : leftMostX (root.topLN + root.Header) = some (pre ++ root.topLX :: b :: post))
    (hs : (pre ++ root.topLX :: b :: post).Pairwise (fun a b => a < b)) :
    moveDown leftMostX root = { root with topLX := b } := by
  have hw2 : ¬ (root.WrapMode = false) := by simp [hw]
  rw [List.pairwise_append] at hs
  obtain ⟨_, h2, h3⟩ := hs
  rw [List.pairwise_cons] at h2
  have hb : root.topLX < b := h2.1 b (by simp)
  have hf : (pre ++ root.topLX :: b :: post).find? (fun x => decide (x > root.topLX)) =
      some b := by
    rw [List.find?_append]
    have hpre : pre.find? (fun x => decide (x > root.topLX)) = none := by
      rw [List.find?_eq_none]
      intro y hy
      have := h3 y hy root.topLX (by simp)
      simp only [gt_iff_lt, decide_eq_true_eq]
      omega
    rw [hpre]
    simp [List.find?_cons, hb]
  simp only [moveDown, if_neg hw2, hL, hf]

/-- The single step from the last row of a strictly ascending wrap index: to
the next line. -/
theorem moveDown_next_line (leftMostX : Int → Option (List Int)) (root : Root)
    (pre : List Int) (hw : root.WrapMode = true)
    (hL : leftMostX (root.topLN + root.Header) = some (pre ++ [root.topLX]))
    (hs : (pre ++ [root.topLX]).Pairwise (fun a b => a < b)) :
    moveDown leftMostX root = { root with topLX := 0, topLN := root.topLN + 1 } := by
  have hw2 : ¬ (root.WrapMode = false) := by simp [hw]
  rw [List.pairwise_append] at hs
  obtain ⟨_, _, h3⟩ := hs
  have hf : (pre ++ [root.topLX]).find? (fun x => decide (x > root.topLX)) = none := by
    rw [List.find?_eq_none]
    intro y hy
    simp only [gt_iff_lt, decide_eq_true_eq]
    rcases List.mem_append.mp hy with hy | hy
    · have := h3 y hy root.topLX (by simp)
      omega
    · simp at hy
      omega
  simp only [moveDown, if_neg hw2, hL, hf]

/-- The loop of `moveNumDown`, entered behind the row of the viewport (the row
index `n` is one more than the index of `topLX`), makes one single step per
pass. -/
theorem moveNumDownLoop_iterate (leftMostX : Int → Option (List Int)) (y : Nat) :
    ∀ (root : Root) (pre post : List Int), root.WrapMode = true →
      leftMostX (root.topLN + root.Header) = some (pre ++ root.topLX :: post) →
      (pre ++ root.topLX :: post).Pairwise (fun a b => a < b) →
      (∀ k, root.topLN + root.Header < k → k ≤ root.topLN + root.Header + y →
        ∃ L, leftMostX k = some (0 :: L) ∧ (0 :: L).Pairwise (fun a b => a < b)) →
      root.topLN + root.Header + y ≤ root.endNum →
      moveNumDownLoop leftMostX root.endNum y (root.topLN + root.Header) root.topLX
          (pre ++ root.topLX :: post) (pre.length + 1) =
        some (((moveDown leftMostX)^[y] root).topLN + root.Header,
              ((moveDown leftMostX)^[y] root).topLX) := by
  induction y with
  | zero => intro root pre post _ _ _ _ _; rfl
  | succ y ih =>
    intro root pre post hw hL hs hrows hend
    rw [Function.iterate_succ_apply]
    cases post with
    | nil =>
      have hstep := moveDown_next_line leftMostX root pre hw hL hs
      obtain ⟨L, hL1, hs1⟩ := hrows (root.topLN + root.Header + 1) (by omega)
        (by push_cast; omega)
      have hge : pre.length + 1 ≥ (pre ++ [root.topLX]).length := by simp
      have hend1 : ¬ (root.topLN + root.Header + 1 > root.endNum) := by
        push_cast at hend; omega
      have hrow0 : rowX (0 :: L) 0 = 0 := by simp [rowX]
      simp only [moveNumDownLoop, if_pos hge, if_neg hend1, hL1, hrow0]
      rw [hstep]
      have hnum : root.topLN + root.Header + 1 = (root.topLN + 1) + root.Header := by ring
      have := ih { root with topLX := 0, topLN := root.topLN + 1 } [] L hw
        (by simpa [← hnum] using hL1) (by simpa using hs1)
        (by
          intro k hk1 hk2
          simp only at hk1 hk2
          exact hrows k (by omega) (by push_cast; omega))
        (by simp only; push_cast at hend; omega)
      simp only [List.nil_append, List.length_nil, Nat.zero_add, ← hnum] at this
      exact this
    | cons b post =>
      have hstep := moveDown_next_row leftMostX root pre post b hw hL hs
      have hlt : ¬ (pre.length + 1 ≥ (pre ++ root.topLX :: b :: post).length) := by simp
      have hrow : rowX (pre ++ root.topLX :: b :: post) (pre.length + 1) = b := by
        have := rowX_mid (pre ++ [root.topLX]) post b
        simpa using this
      simp only [moveNumDownLoop, if_neg hlt, hrow]
      rw [hstep]
      have := ih { root with topLX := b } (pre ++ [root.topLX]) post hw
        (by simpa using hL) (by simpa using hs)
        (by
          intro k hk1 hk2
          simp only at hk1 hk2
          exact hrows k hk1 (by push_cast; omega))
        (by simp only; push_cast at hend; omega)
      simpa using this


/-- C23, as the code behaves: in wrap mode, from a viewport at the start of a
visual row, with every visited line available (its wrap index strictly
ascending, the index of each line entered starting at 0) and the last line not
reached, `moveNumDown(N + 1)` leaves the viewport where `N` single steps of
`moveDown` leave it, one step short of `N + 1`: the first pass of the loop reads
the row of the viewport itself.  So `moveNumDown(1)` does not move, as
`moveNumDown(0)`, where `moveDown` goes from the row 0 to the row 80. -/
theorem moveNumDown_one_step_short (leftMostX : Int → Option (List Int)) (root : Root)
    (N : Nat) (L0 : List Int) (hw : root.WrapMode = true)
    (h0 : leftMostX (root.topLN + root.Header) = some L0) (hx : root.topLX ∈ L0)
    (hs0 : L0.Pairwise (fun a b => a < b))
    (hrows : ∀ k, root.topLN + root.Header < k → k ≤ root.topLN + root.Header + N →
      ∃ L, leftMostX k = some (0 :: L) ∧ (0 :: L).Pairwise (fun a b => a < b))
    (hend : root.topLN + root.Header + N ≤ root.endNum) :
    moveNumDown leftMostX root ((N : Int) + 1) = (moveDown leftMostX)^[N] root ∧
    moveNumDown leftMostX root 0 = root ∧
    moveNumDown sampleLeftMostX sampleRoot 1 = sampleRoot ∧
    moveNumDown sampleLeftMostX sampleRoot 2 = { sampleRoot with topLX := 80 } ∧
    moveDown sampleLeftMostX sampleRoot = { sampleRoot with topLX := 80 } := by
  have hw2 : ¬ (root.WrapMode = false) := by simp [hw]
  refine ⟨?_, ?_, by decide, by decide, by decide⟩
  · obtain ⟨pre, post, rfl⟩ := List.append_of_mem hx
    have hpost : ∀ y ∈ post, root.topLX < y := by
      have h1 := (List.pairwise_append.mp hs0).2.1
      rw [List.pairwise_cons] at h1
      exact h1.1
    have hn := numOfReverseSlice_at pre post root.topLX hpost
    have hfuel : ((N : Int) + 1).toNat = N + 1 := by omega
    have hlt : ¬ (pre.length ≥ (pre ++ root.topLX :: post).length) := by simp
    have hloop := moveNumDownLoop_iterate leftMostX N root pre post hw h0 hs0 hrows hend
    obtain ⟨a, b, hab⟩ := iterate_moveDown_fields leftMostX N root
    simp only [moveNumDown, if_neg hw2, h0, hn, hfuel, moveNumDownLoop, if_neg hlt, rowX_mid,
      hloop]
    rw [hab]
    simp
  · simp only [moveNumDown, if_neg hw2, h0, Int.toNat_zero, moveNumDownLoop]
    simp

/-- Witness for C23 at two rows down from the top of the sample document. -/
theorem moveNumDown_one_step_short_witness :
    moveNumDown sampleLeftMostX sampleRoot (((2 : Nat) : Int) + 1) =
      (moveDown sampleLeftMostX)^[2] sampleRoot ∧
    moveNumDown sampleLeftMostX sampleRoot 0 = sampleRoot :=
  let h := moveNumDown_one_step_short sampleLeftMostX sampleRoot 2 [0, 80] rfl rfl
    (by decide) (by decide)
    (fun k hk1 _ => ⟨[80], by
      have h0 : sampleRoot.topLN + sampleRoot.Header = 0 := rfl
      rw [h0] at hk1
      simp only [sampleLeftMostX]
      rw [if_neg (by omega)], by decide⟩)
    (by decide)
  ⟨h.1, h.2.1⟩

/-! ## Moves when a wrap index cannot be computed -/

/-- The loop of `moveNumDown` returns on the error when the next line is inside
the document, its wrap index cannot be computed and the passes left outnumber
the rows left on the current line. -/
theorem moveNumDownLoop_error (leftMostX : Int → Option (List Int)) (endNum num : Int)
    (listX : List Int) (h1 : num + 1 ≤ endNum) (hn : leftMostX (num + 1) = none) :
    ∀ (y n : Nat) (x : Int), listX.length - n < y →
      moveNumDownLoop leftMostX endNum y num x listX n = none := by
  intro y
  induction y with
  | zero => intro n x h; omega
  | succ y ih =>
    intro n x h
    have hend : ¬ (num + 1 > endNum) := by omega
    by_cases hge : n ≥ listX.length
    · simp only [moveNumDownLoop, if_pos hge, if_neg hend, hn]
    · simp only [moveNumDownLoop, if_neg hge]
      exact ih (n + 1) _ (by omega)

/-- C24, as the code behaves: in wrap mode `moveDown` and `moveNumDown` leave
the viewport as it was when the wrap index of the top line cannot be computed,
`moveNumDown` also when the one of the next line cannot (the next line being
inside the document and `moveY` greater than the number of rows of the top
line), and so does `moveUp` for the top line when `topLX > 0`.  But when
`moveUp` goes to the previous line (`topLX = 0`, `topLN > 0`) and the wrap
index of that line cannot be computed, `topLN` is already decremented when the
function returns: from line 1 the viewport is left at line 0. -/
theorem wrap_move_failure (leftMostX : Int → Option (List Int)) (root : Root) (moveY : Int)
    (hw : root.WrapMode = true) :
    (leftMostX (root.topLN + root.Header) = none →
      moveDown leftMostX root = root ∧ moveNumDown leftMostX root moveY = root) ∧
    (∀ L, leftMostX (root.topLN + root.Header) = some L →
      leftMostX (root.topLN + root.Header + 1) = none →
      root.topLN + root.Header + 1 ≤ root.endNum → (L.length : Int) < moveY →
      moveNumDown leftMostX root moveY = root) ∧
    (root.topLX > 0 → leftMostX (root.topLN + root.Header) = none →
      moveUp leftMostX root = some root) ∧
    (root.topLX = 0 → root.topLN > 0 → leftMostX (root.topLN - 1 + root.Header) = none →
      moveUp leftMostX root = some { root with topLN := root.topLN - 1 }) ∧
    moveUp (fun _ => none) { sampleRoot with topLN := 1 } = some sampleRoot := by
  have hw2 : ¬ (root.WrapMode = false) := by simp [hw]
  refine ⟨?_, ?_, ?_, ?_, by decide⟩
  · intro h
    exact ⟨by simp only [moveDown, if_neg hw2, h], by simp only [moveNumDown, if_neg hw2, h]⟩
  · intro L hL hnext hend hlen
    have hloop := moveNumDownLoop_error leftMostX root.endNum (root.topLN + root.Header) L hend
      hnext moveY.toNat (numOfReverseSlice L root.topLX) root.topLX (by omega)
    simp only [moveNumDown, if_neg hw2, hL, hloop]
  · intro hx h
    have h1 : ¬ (root.topLN = 0 ∧ root.topLX = 0) := by omega
    simp only [moveUp, if_neg h1, if_neg hw2, if_pos hx, h]
  · intro hx hn h
    have h1 : ¬ (root.topLN = 0 ∧ root.topLX = 0) := by omega
    have h2 : ¬ (root.topLX > 0) := by omega
    have h3 : ¬ (root.topLN - 1 < 0) := by omega
    simp only [moveUp, if_neg h1, if_neg hw2, if_neg h2, moveUpPrevious, if_neg h3, h]

/-- Witness for C24 on a document none of whose wrap indices can be computed,
and on one whose line 1 alone has none. -/
theorem wrap_move_failure_witness :
    (moveDown (fun _ => none) sampleRoot = sampleRoot ∧
      moveNumDown (fun _ => none) sampleRoot 3 = sampleRoot) ∧
    moveNumDown (fun k => if k = 1 then none else some [0, 80]) sampleRoot 3 = sampleRoot ∧
    moveUp (fun _ => none) { sampleRoot with topLX := 80 } =
      some { sampleRoot with topLX := 80 } ∧
    moveUp (fun _ => none) { sampleRoot with topLN := 1 } =
      some { sampleRoot with topLN := 1 - 1 } :=
  ⟨(wrap_move_failure (fun _ => none) sampleRoot 3 rfl).1 rfl,
   (wrap_move_failure (fun k => if k = 1 then none else some [0, 80]) sampleRoot 3 rfl).2.1
     [0, 80] rfl rfl (by decide) (by decide),
   (wrap_move_failure (fun _ => none) { sampleRoot with topLX := 80 } 3 rfl).2.2.1
     (by decide) rfl,
   (wrap_move_failure (fun _ => none) { sampleRoot with topLN := 1 } 3 rfl).2.2.2.1
     rfl (by decide) rfl⟩


/-! ## Tabs behind an overstrike -/

/-- C25, as the code behaves: for a tab width `t > 0` the tab read in the text
state is sized by the counter `x`, which it brings to a multiple of `t`; the
backspace removes one or two cells and leaves `x` as it is.  Behind an
overstrike the counter is therefore ahead of the rendered columns: in
`a BS a TAB b` with `t = 4` the tab is read at column 1 with `x = 2` and gives
two spaces, so the row holds 3 columns behind the tab, not 4. -/
theorem tab_sized_by_counter (env : Env) (t : Nat) (s : ParseState) (ht : 0 < t)
    (htab : env.RuneWidth 9 = 0) (hbs : env.RuneWidth 8 = 0)
    (hst : s.state = AnsiState.ansiText) :
    (∃ s1, step env (t : Int) s 9 = some s1 ∧
      s1.contents = s.contents ++
        List.replicate (t - s.x % t) { width := 1, mainc := 32, combc := [], style := s.style } ∧
      s1.x = s.x + (t - s.x % t) ∧ t ∣ s1.x) ∧
    (∀ s1, step env (t : Int) s 8 = some s1 →
      s1.x = s.x ∧ (s.contents ≠ [] → s1.contents.length < s.contents.length)) ∧
    (run sampleEnv 4 (str "a\x08a") initState).map (fun s => (s.x, columns s.contents)) =
      some (2, 1) ∧
    (run sampleEnv 4 (str "a\x08a\t") initState).map (fun s => (s.x, columns s.contents)) =
      some (4, 3) ∧
    parseString sampleEnv (str "a\x08a\tb") 4 =
      some { contents := [{ width := 1, mainc := 97, combc := [],
                            style := StyleDefault.Bold true },
                          { width := 1, mainc := 32, combc := [], style := StyleDefault },
                          { width := 1, mainc := 32, combc := [], style := StyleDefault },
                          { width := 1, mainc := 98, combc := [], style := StyleDefault }],
             byteMap := [(5, 4), (4, 3), (3, 1), (2, 0), (1, 1), (0, 0)] } := by
  have hpos : (t : Int) > 0 := by exact_mod_cast ht
  refine ⟨?_, ?_, by decide, by decide, by decide⟩
  · obtain ⟨c, b, st, cp, sty, x, n, bf, bc⟩ := s
    simp only at hst
    subst hst
    have hstep : step env (t : Int)
        { contents := c, byteMap := b, state := AnsiState.ansiText, csiParameter := cp,
          style := sty, x := x, n := n, bsFlag := bf, bsContent := bc } 9 =
        some { contents := c ++ List.replicate (t - x % t)
                 { width := 1, mainc := 32, combc := [], style := sty },
               byteMap := (n, c.length) :: b, state := AnsiState.ansiText, csiParameter := cp,
               style := sty, x := x + (t - x % t), n := n + utf8Len 9, bsFlag := bf,
               bsContent := bc } := by
      simp [step, textStep, htab, hpos, record, DefaultContent, tabStop_eq]
    exact ⟨_, hstep, rfl, rfl, dvd_next_stop t x ht⟩
  · intro s1 h1
    obtain ⟨c, b, st, cp, sty, x, n, bf, bc⟩ := s
    simp only at hst
    subst hst
    simp only [step, textStep, hbs, record] at h1
    norm_num at h1
    split_ifs at h1 with h0 h2 h3 <;>
      first
      | (simp at h1; done)
      | (simp at h1
         subst h1
         refine ⟨rfl, fun hne => ?_⟩
         have hlen : 0 < c.length := List.length_pos.mpr hne
         first
           | exact absurd h0 hne
           | (simp only [List.length_take]; omega))

/-- Witness for C25 in the state behind `a BS a`. -/
theorem tab_sized_by_counter_witness :
    ∃ s1, step sampleEnv ((4 : Nat) : Int)
        { initState with
          contents := [{ width := 1, mainc := 97, combc := [],
                         style := StyleDefault.Bold true }],
          x := 2, n := 3 } 9 = some s1 ∧
      s1.contents =
        [{ width := 1, mainc := 97, combc := [], style := StyleDefault.Bold true }] ++
          List.replicate (4 - 2 % 4)
            { width := 1, mainc := 32, combc := [], style := StyleDefault } ∧
      s1.x = 2 + (4 - 2 % 4) ∧ 4 ∣ s1.x :=
  (tab_sized_by_counter sampleEnv 4
    { initState with
      contents := [{ width := 1, mainc := 97, combc := [], style := StyleDefault.Bold true }],
      x := 2, n := 3 } (by decide) (by decide) (by decide) rfl).1


/-! ## The visible text of a line for the parser and for the search -/

theorem matchSGR_ne (c : Nat) (cs : List Nat) (hc : c ≠ 27) : matchSGR (c :: cs) = none := by
  unfold matchSGR
  split
  · rename_i h
    injection h with h1 _
    exact absurd h1 hc
  · rfl

theorem skipParams_params (params rest : List Nat)
    (hp : ∀ b ∈ params, (48 ≤ b ∧ b ≤ 57) ∨ b = 59) :
    skipParams (params ++ 109 :: rest) = 109 :: rest := by
  induction params with
  | nil => simp [skipParams]
  | cons b l ih =>
    have hb := hp b (by simp)
    have hcl : (48 ≤ b ∧ b ≤ 57) ∨ b = 59 ∨ b = 42 := by omega
    simp only [List.cons_append, skipParams, if_pos hcl]
    exact ih (fun q hq => hp q (by simp [hq]))

theorem matchSGR_sgr (params rest : List Nat)
    (hp : ∀ b ∈ params, (48 ≤ b ∧ b ≤ 57) ∨ b = 59) :
    matchSGR (27 :: 91 :: (params ++ 109 :: rest)) = some rest := by
  simp only [matchSGR, skipParams_params params rest hp]

theorem stripLoop_keep (fuel c : Nat) (cs : List Nat) (hc : c ≠ 27)
    (h8 : cs.head? ≠ some 8) : stripLoop (fuel + 1) (c :: cs) = c :: stripLoop fuel cs := by
  cases cs with
  | nil => simp [stripLoop, matchSGR_ne c [] hc]
  | cons d ds =>
    have hd : d ≠ 8 := by simpa using h8
    simp only [stripLoop, matchSGR_ne c (d :: ds) hc]
    split
    · rename_i h
      injection h with h1 _
      exact absurd h1 hd
    · rfl

theorem Piece.valid_sgr {params : List Nat} (h : (Piece.sgr params).valid = true) :
    ∀ b ∈ params, (48 ≤ b ∧ b ≤ 57) ∨ b = 59 := by
  intro b hb
  simp only [Piece.valid, List.all_eq_true, decide_eq_true_eq] at h
  exact h b hb

theorem Piece.valid_char {c : Nat} (h : (Piece.char c).valid = true) : 32 ≤ c ∧ c ≤ 126 := by
  simpa [Piece.valid] using h

theorem lineOf_head (ps : List Piece) (hv : ∀ p ∈ ps, p.valid = true) :
    (lineOf ps).head? ≠ some 8 := by
  cases ps with
  | nil => simp [lineOf]
  | cons p ps =>
    cases p with
    | char c =>
      have := Piece.valid_char (hv _ (List.mem_cons_self _ _))
      simp only [lineOf, Piece.bytes, List.singleton_append, List.head?_cons, ne_eq,
        Option.some.injEq]
      omega
    | sgr params => simp [lineOf, Piece.bytes]

/-- The replacement loop of `stripEscapeSequence` keeps the characters of the
pieces and drops the SGR sequences. -/
theorem stripLoop_lineOf (ps : List Piece) (hv : ∀ p ∈ ps, p.valid = true) :
    ∀ fuel, (lineOf ps).length ≤ fuel → stripLoop fuel (lineOf ps) = textOf ps := by
  induction ps with
  | nil =>
    intro fuel _
    cases fuel <;> rfl
  | cons p ps ih =>
    have hv1 : ∀ q ∈ ps, q.valid = true := fun q hq => hv q (List.mem_cons_of_mem _ hq)
    intro fuel hf
    cases p with
    | char c =>
      have hc := Piece.valid_char (hv _ (List.mem_cons_self _ _))
      simp only [lineOf, Piece.bytes, List.singleton_append, List.length_cons] at hf ⊢
      obtain ⟨f, rfl⟩ : ∃ f, fuel = f + 1 := ⟨fuel - 1, by omega⟩
      rw [stripLoop_keep f c _ (by omega) (lineOf_head ps hv1), textOf, ih hv1 f (by omega)]
    | sgr params =>
      have hp := Piece.valid_sgr (hv _ (List.mem_cons_self _ _))
      have hline : lineOf (Piece.sgr params :: ps) =
          27 :: 91 :: (params ++ 109 :: lineOf ps) := by
        simp [lineOf, Piece.bytes]
      rw [hline] at hf ⊢
      simp only [List.length_cons, List.length_append] at hf
      obtain ⟨f, rfl⟩ : ∃ f, fuel = f + 1 := ⟨fuel - 1, by omega⟩
      simp only [stripLoop, matchSGR_sgr params (lineOf ps) hp, textOf]
      exact ih hv1 f (by omega)

theorem lineOf_plain (ps : List Piece) (hv : ∀ p ∈ ps, p.valid = true)
    (h : ContainsAny (lineOf ps) [27, 8] = false) : lineOf ps = textOf ps := by
  induction ps with
  | nil => rfl
  | cons p ps ih =>
    have hv1 : ∀ q ∈ ps, q.valid = true := fun q hq => hv q (List.mem_cons_of_mem _ hq)
    cases p with
    | char c =>
      simp only [lineOf, Piece.bytes, List.singleton_append, textOf]
      congr 1
      apply ih hv1
      simp only [lineOf, Piece.bytes, List.singleton_append, ContainsAny, List.any_cons,
        Bool.or_eq_false_iff] at h
      exact h.2
    | sgr params =>
      simp [lineOf, Piece.bytes, ContainsAny] at h

/-- The search sees the characters of the pieces. -/
theorem stripEscapeSequence_lineOf (ps : List Piece) (hv : ∀ p ∈ ps, p.valid = true) :
    stripEscapeSequence (lineOf ps) = textOf ps := by
  unfold stripEscapeSequence
  split_ifs with h
  · exact stripLoop_lineOf ps hv _ (le_refl _)
  · exact lineOf_plain ps hv (by simpa using h)


/-- The parameter bytes of an SGR sequence, read inside the control sequence,
are collected in `csiParameter`. -/
theorem run_params (env : Env) (tabWidth : Int) (params rest : List Nat)
    (hp : ∀ b ∈ params, (48 ≤ b ∧ b ≤ 57) ∨ b = 59) :
    ∀ s : ParseState, s.state = AnsiState.ansiControlSequence →
      run env tabWidth (params ++ rest) s =
        run env tabWidth rest { s with csiParameter := s.csiParameter ++ params } := by
  induction params with
  | nil => intro s _; simp
  | cons b l ih =>
    intro s hst
    have hb := hp b (by simp)
    have h1 : b ≠ 109 := by omega
    have h2 : ¬ (65 ≤ b ∧ b ≤ 84) := by omega
    have h3 : 48 ≤ b ∧ b ≤ 63 := by omega
    have hstep : step env tabWidth s b = some { s with csiParameter := s.csiParameter ++ [b] } := by
      simp only [step, hst, if_neg h1, if_neg h2, if_pos h3]
    have hrun : run env tabWidth (b :: l ++ rest) s =
        run env tabWidth (l ++ rest) { s with csiParameter := s.csiParameter ++ [b] } := by
      rw [List.cons_append]
      simp only [run, hstep]
    rw [hrun, ih (fun q hq => hp q (by simp [hq]))
      { s with csiParameter := s.csiParameter ++ [b] } hst]
    simp

/-- An SGR sequence read in the text state changes the style (and leaves its
parameters in the buffer); no cell and no `byteMap` entry come from it. -/
theorem run_sgr (env : Env) (tabWidth : Int) (params rest : List Nat)
    (hp : ∀ b ∈ params, (48 ≤ b ∧ b ≤ 57) ∨ b = 59) (s : ParseState)
    (hst : s.state = AnsiState.ansiText) :
    run env tabWidth (27 :: 91 :: (params ++ 109 :: rest)) s =
      run env tabWidth rest
        { s with style := csToStyle s.style params, csiParameter := params,
                 state := AnsiState.ansiText } := by
  obtain ⟨c, b, st, cp, sty, x, n, bf, bc⟩ := s
  simp only at hst
  subst hst
  have h1 : step env tabWidth
      { contents := c, byteMap := b, state := AnsiState.ansiText, csiParameter := cp,
        style := sty, x := x, n := n, bsFlag := bf, bsContent := bc } 27 =
      some { contents := c, byteMap := b, state := AnsiState.ansiEscape, csiParameter := cp,
             style := sty, x := x, n := n, bsFlag := bf, bsContent := bc } := by
    simp [step, textStep]
  have h2 : step env tabWidth
      { contents := c, byteMap := b, state := AnsiState.ansiEscape, csiParameter := cp,
        style := sty, x := x, n := n, bsFlag := bf, bsContent := bc } 91 =
      some { contents := c, byteMap := b, state := AnsiState.ansiControlSequence,
             csiParameter := [], style := sty, x := x, n := n, bsFlag := bf,
             bsContent := bc } := by
    simp [step]
  have h3 : step env tabWidth
      { contents := c, byteMap := b, state := AnsiState.ansiControlSequence,
        csiParameter := params, style := sty, x := x, n := n, bsFlag := bf,
        bsContent := bc } 109 =
      some { contents := c, byteMap := b, state := AnsiState.ansiText,
             csiParameter := params, style := csToStyle sty params, x := x, n := n,
             bsFlag := bf, bsContent := bc } := by
    simp [step]
  simp only [run, h1, h2]
  rw [run_params env tabWidth params (109 :: rest) hp _ rfl]
  simp only [List.nil_append, run, h3]

/-- The parser on a line of printable ASCII characters and SGR sequences,
started in the text state with no overstrike pending: one cell of width 1 per
character, one `byteMap` entry per character. -/
theorem run_pieces (env : Env) (tabWidth : Int)
    (hw : ∀ r, 32 ≤ r → r ≤ 126 → env.RuneWidth r = 1) (ps : List Piece)
    (hv : ∀ p ∈ ps, p.valid = true) :
    ∀ s : ParseState, s.state = AnsiState.ansiText → s.bsFlag = false →
      ∃ s1 cells, run env tabWidth (lineOf ps) s = some s1 ∧
        s1.state = AnsiState.ansiText ∧ s1.bsFlag = false ∧
        s1.contents = s.contents ++ cells ∧
        cells.map Content.mainc = textOf ps ∧ (∀ c ∈ cells, c.width = 1) ∧
        s1.n = s.n + (textOf ps).length ∧
        ∀ k, byteMapGet s1.byteMap k =
          if s.n ≤ k ∧ k < s.n + (textOf ps).length then some (s.contents.length + (k - s.n))
          else byteMapGet s.byteMap k := by
  induction ps with
  | nil =>
    intro s hst hbs
    refine ⟨s, [], rfl, hst, hbs, by simp, rfl, by simp, rfl, ?_⟩
    intro k
    rw [if_neg (by simp [textOf])]
  | cons p ps ih =>
    have hv1 : ∀ q ∈ ps, q.valid = true := fun q hq => hv q (List.mem_cons_of_mem _ hq)
    intro s hst hbs
    cases p with
    | char c =>
      have hc := Piece.valid_char (hv _ (List.mem_cons_self _ _))
      have hstep := step_printable env tabWidth s c hw hc hst hbs
      obtain ⟨s1, cells, h1, hs1, hb1, hc1, hm1, hw1, hn1, hg1⟩ :=
        ih hv1
          { s with
            contents := s.contents ++ [{ width := 1, mainc := c, combc := [], style := s.style }],
            byteMap := (s.n, s.contents.length) :: s.byteMap,
            x := s.x + 1, n := s.n + 1 } hst hbs
      dsimp only at hc1 hn1 hg1
      refine ⟨s1, { width := 1, mainc := c, combc := [], style := s.style } :: cells, ?_, hs1,
        hb1, ?_, ?_, ?_, ?_, ?_⟩
      · have hline : lineOf (Piece.char c :: ps) = c :: lineOf ps := rfl
        rw [hline]
        simp only [run, hstep]
        exact h1
      · simpa using hc1
      · simp [textOf, hm1]
      · intro d hd
        rcases List.mem_cons.mp hd with rfl | hd
        · rfl
        · exact hw1 d hd
      · rw [hn1]; simp only [textOf, List.length_cons]; omega
      · intro k
        rw [hg1 k]
        simp only [List.length_append, List.length_singleton, List.length_cons, List.length_nil,
          textOf, byteMapGet, List.lookup_cons]
        by_cases hk : k = s.n
        · subst hk
          simp
        · have hbeq : (k == s.n) = false := by simpa using hk
          rw [hbeq]
          by_cases h2 : s.n + 1 ≤ k ∧ k < s.n + 1 + (textOf ps).length
          · rw [if_pos h2, if_pos (by omega)]
            exact congrArg some (by omega)
          · rw [if_neg h2, if_neg (by omega)]
    | sgr params =>
      have hp := Piece.valid_sgr (hv _ (List.mem_cons_self _ _))
      have hline : lineOf (Piece.sgr params :: ps) =
          27 :: 91 :: (params ++ 109 :: lineOf ps) := by
        simp [lineOf, Piece.bytes]
      obtain ⟨s1, cells, h1, hs1, hb1, hc1, hm1, hw1, hn1, hg1⟩ :=
        ih hv1
          { s with style := csToStyle s.style params, csiParameter := params,
                   state := AnsiState.ansiText } rfl hbs
      dsimp only at hc1 hn1 hg1
      refine ⟨s1, cells, ?_, hs1, hb1, hc1, ?_, hw1, ?_, ?_⟩
      · rw [hline, run_sgr env tabWidth params _ hp s hst, h1]
      · simpa [textOf] using hm1
      · simpa [textOf] using hn1
      · intro k
        simpa [textOf] using hg1 k

/-- C26: for every line built only from printable ASCII characters and
well-formed SGR sequences (`ESC`, `[`, a possibly empty run of digits and `;`,
then `m`) and every tab width, `parseString` returns cells whose main
characters, read in order, spell exactly `stripEscapeSequence(line)`; every
cell has width 1; and `byteMap` holds `k -> k` for every `k` from 0 to
`len(stripEscapeSequence(line))` and no other key, so a range `[a, b)` of the
stripped text addresses, through `byteMap`, exactly the cells of its
characters. -/
theorem parseString_agrees_with_strip (env : Env) (ps : List Piece) (tabWidth : Int)
    (hw : ∀ r, 32 ≤ r → r ≤ 126 → env.RuneWidth r = 1) (hv : ∀ p ∈ ps, p.valid = true) :
    ∃ lc, parseString env (lineOf ps) tabWidth = some lc ∧
      lc.contents.map Content.mainc = stripEscapeSequence (lineOf ps) ∧
      (∀ c ∈ lc.contents, c.width = 1) ∧
      (∀ k, byteMapGet lc.byteMap k =
        if k ≤ (stripEscapeSequence (lineOf ps)).length then some k else none) ∧
      (∀ a b, a ≤ b → b ≤ (stripEscapeSequence (lineOf ps)).length →
        ∃ ca cb, byteMapGet lc.byteMap a = some ca ∧ byteMapGet lc.byteMap b = some cb ∧
          ((lc.contents.drop ca).take (cb - ca)).map Content.mainc =
            ((stripEscapeSequence (lineOf ps)).drop a).take (b - a)) := by
  obtain ⟨s, cells, hs, _, _, hc, hm, hw1, hn, hg⟩ :=
    run_pieces env tabWidth hw ps hv initState rfl rfl
  have hstrip := stripEscapeSequence_lineOf ps hv
  have hc0 : s.contents = cells := by simpa [initState] using hc
  have hn0 : s.n = (textOf ps).length := by simpa [initState] using hn
  have hlen : s.contents.length = (textOf ps).length := by
    rw [hc0, ← hm, List.length_map]
  have hmap : ∀ k, byteMapGet (finish s).byteMap k =
      if k ≤ (textOf ps).length then some k else none := by
    intro k
    simp only [finish, byteMapGet, List.lookup_cons]
    by_cases hk : k = s.n
    · subst hk
      simp [hlen, hn0]
    · have hbeq : (k == s.n) = false := by simpa using hk
      rw [hbeq]
      have := hg k
      simp only [byteMapGet, initState] at this
      rw [this]
      by_cases h2 : k < (textOf ps).length
      · simp [h2, le_of_lt h2]
      · have : ¬ k ≤ (textOf ps).length := by omega
        simp [h2, this]
  refine ⟨finish s, by simp [parseString, hs], ?_, ?_, ?_, ?_⟩
  · rw [hstrip, ← hm]
    simp [finish, hc0]
  · intro c hcm
    exact hw1 c (by simpa [finish, hc0] using hcm)
  · rw [hstrip]
    exact hmap
  · rw [hstrip]
    intro a b hab hb
    refine ⟨a, b, ?_, ?_, ?_⟩
    · rw [hmap a, if_pos (by omega)]
    · rw [hmap b, if_pos hb]
    · rw [← hm]
      simp [finish, hc0, List.map_take, List.map_drop]

/-- Witness for C26 at the line `ESC [ 3 1 m r e d ESC [ m` of the package
tests. -/
theorem parseString_agrees_with_strip_witness :
    ∃ lc, parseString sampleEnv
        (lineOf [Piece.sgr (str "31"), Piece.char 114, Piece.char 101, Piece.char 100,
                 Piece.sgr []]) 8 = some lc ∧
      lc.contents.map Content.mainc =
        stripEscapeSequence
          (lineOf [Piece.sgr (str "31"), Piece.char 114, Piece.char 101, Piece.char 100,
                   Piece.sgr []]) ∧
      (∀ c ∈ lc.contents, c.width = 1) ∧
      (∀ k, byteMapGet lc.byteMap k =
        if k ≤ (stripEscapeSequence
          (lineOf [Piece.sgr (str "31"), Piece.char 114, Piece.char 101, Piece.char 100,
                   Piece.sgr []])).length then some k else none) ∧
      (∀ a b, a ≤ b → b ≤ (stripEscapeSequence
          (lineOf [Piece.sgr (str "31"), Piece.char 114, Piece.char 101, Piece.char 100,
                   Piece.sgr []])).length →
        ∃ ca cb, byteMapGet lc.byteMap a = some ca ∧ byteMapGet lc.byteMap b = some cb ∧
          ((lc.contents.drop ca).take (cb - ca)).map Content.mainc =
            ((stripEscapeSequence
              (lineOf [Piece.sgr (str "31"), Piece.char 114, Piece.char 101, Piece.char 100,
                       Piece.sgr []])).drop a).take (b - a)) :=
  parseString_agrees_with_strip sampleEnv
    [Piece.sgr (str "31"), Piece.char 114, Piece.char 101, Piece.char 100, Piece.sgr []] 8
    (fun r h1 h2 => by simp only [sampleEnv]; rw [if_neg (by omega), if_neg (by omega)])
    (by decide)


/-! ## The first and the last key of the byte map -/

theorem textStep_offset (env : Env) (tabWidth : Int) (s s1 : ParseState) (r : Nat)
    (h : textStep env tabWidth s r = some s1) :
    s1.n = s.n + (if r ≠ 27 ∧ r ≠ 10 then
      (if r = 9 ∧ env.RuneWidth r = 0 ∧ tabWidth < 0 then utf8Len r + utf8Len r else utf8Len r)
      else 0) := by
  by_cases h27 : r = 27
  · simp [textStep, h27] at h
    subst h
    simp [h27]
  by_cases h10 : r = 10
  · simp [textStep, h27, h10] at h
    subst h
    simp [h10]
  rw [if_pos ⟨h27, h10⟩]
  by_cases hd : r = 9 ∧ env.RuneWidth r = 0 ∧ tabWidth < 0
  · rw [if_pos hd]
    obtain ⟨h9, hw, hneg⟩ := hd
    subst h9
    have hpos : ¬ tabWidth > 0 := by omega
    simp [textStep, hw, hpos, hneg, record] at h
    subst h
    simp only
    omega
  · rw [if_neg hd]
    unfold textStep at h
    rw [if_neg h27, if_neg h10] at h
    simp only at h
    split at h <;> (try split_ifs at h) <;>
      first
      | (simp at h; done)
      | (simp at h; subst h; simp [record]; done)
      | (exfalso; exact hd ⟨by assumption, by assumption, by assumption⟩)

theorem step_offset (env : Env) (tabWidth : Int) (s s1 : ParseState) (r : Nat)
    (h : step env tabWidth s r = some s1) : s1.n = s.n + consumed env tabWidth s r := by
  unfold step at h
  unfold consumed readAsText
  split at h
  · rename_i hst
    split_ifs at h with h1 h2 h3
    · simp at h; subst h; simp [hst, h1]
    · simp at h; subst h; simp [hst, h2]
    · simp at h; subst h; simp [hst, h3]
    · have := textStep_offset env tabWidth _ s1 r h
      rw [this]
      simp [hst, h1, h2, h3]
  · rename_i hst
    split_ifs at h with h1
    · simp at h; subst h; simp [hst, h1]
    · have := textStep_offset env tabWidth _ s1 r h
      rw [this]
      simp [hst, h1]
  · rename_i hst
    split_ifs at h <;> (simp at h; subst h; simp [hst])
  · rename_i hst
    have := textStep_offset env tabWidth _ s1 r h
    rw [this]
    simp [hst]

/-- The offset counter behind the loop. -/
theorem run_offset (env : Env) (tabWidth : Int) (line : List Nat) (s s1 : ParseState)
    (h : run env tabWidth line s = some s1) :
    s1.n = s.n + consumedBytes env tabWidth line s := by
  induction line generalizing s with
  | nil => simp [run] at h; subst h; simp [consumedBytes]
  | cons r rs ih =>
    simp only [run] at h
    cases hs : step env tabWidth s r with
    | none => rw [hs] at h; simp at h
    | some s2 =>
      rw [hs] at h
      have h1 := step_offset env tabWidth s s2 r hs
      have h2 := ih s2 h
      simp only [consumedBytes, hs]
      omega

/-- For a tab width that is not negative every rune handled as text counts
once. -/
theorem consumedBytes_textBytes (env : Env) (tabWidth : Int) (ht : 0 ≤ tabWidth)
    (line : List Nat) (s : ParseState) :
    consumedBytes env tabWidth line s = textBytes env tabWidth line s := by
  have hneg : ¬ tabWidth < 0 := by omega
  induction line generalizing s with
  | nil => rfl
  | cons r rs ih =>
    have hc : consumed env tabWidth s r = if readAsText s r then utf8Len r else 0 := by
      unfold consumed
      have : ¬ (r = 9 ∧ env.RuneWidth r = 0 ∧ tabWidth < 0) := fun h => hneg h.2.2
      rw [if_neg this]
    simp only [consumedBytes, textBytes, hc]
    cases step env tabWidth s r with
    | none => rfl
    | some s1 => simp only [ih s1]

/-- On a line without ESC and newline every rune is handled as text: the
offset counter advances by the bytes of the line, and once more by every tab
that is rendered as the two cells of a negative tab width. -/
theorem consumedBytes_plain (env : Env) (tabWidth : Int) (line : List Nat) (s : ParseState)
    (hst : s.state = AnsiState.ansiText) (hw : WellFormed s.contents)
    (h27 : 27 ∉ line) (h10 : 10 ∉ line) :
    consumedBytes env tabWidth line s =
      byteLen line + (if env.RuneWidth 9 = 0 ∧ tabWidth < 0 then line.count 9 else 0) := by
  induction line generalizing s with
  | nil => simp [consumedBytes, byteLen]
  | cons r rs ih =>
    have hr27 : r ≠ 27 := fun h => h27 (by simp [h])
    have hr10 : r ≠ 10 := fun h => h10 (by simp [h])
    have hread : readAsText s r = true := by simp [readAsText, hst, hr27, hr10]
    obtain ⟨s1, hs, hw1, _⟩ := step_ok env tabWidth s r hw
    have hst1 : s1.state = AnsiState.ansiText := by
      have : step env tabWidth s r = textStep env tabWidth s r := by simp [step, hst]
      rw [this] at hs
      rw [textStep_state env tabWidth s s1 r hs hr27, hst]
    have := ih s1 hst1 hw1 (fun h => h27 (by simp [h])) (fun h => h10 (by simp [h]))
    have hbl : byteLen (r :: rs) = utf8Len r + byteLen rs := by simp [byteLen]
    have hcons : consumedBytes env tabWidth (r :: rs) s =
        consumed env tabWidth s r + consumedBytes env tabWidth rs s1 := by
      simp only [consumedBytes, hs]
    have hone : consumed env tabWidth s r =
        if r = 9 ∧ env.RuneWidth r = 0 ∧ tabWidth < 0 then utf8Len r + utf8Len r
        else utf8Len r := by
      simp only [consumed, hread, if_true]
    rw [hcons, this, hbl, hone]
    by_cases h9 : r = 9
    · subst h9
      have h91 : utf8Len 9 = 1 := rfl
      by_cases hc : env.RuneWidth 9 = 0 ∧ tabWidth < 0
      · have hc3 : (9 : Nat) = 9 ∧ env.RuneWidth 9 = 0 ∧ tabWidth < 0 := ⟨rfl, hc⟩
        rw [if_pos hc3, if_pos hc, if_pos hc, List.count_cons_self, h91]
        omega
      · have hc3 : ¬ ((9 : Nat) = 9 ∧ env.RuneWidth 9 = 0 ∧ tabWidth < 0) := fun h => hc h.2
        rw [if_neg hc3, if_neg hc, if_neg hc]
        omega
    · have hc : ¬ (r = 9 ∧ env.RuneWidth r = 0 ∧ tabWidth < 0) := fun h => h9 h.1
      rw [if_neg hc, List.count_cons_of_ne (fun h => h9 h.symm)]
      omega

/-- C3: for every line and tab width `parseString` returns, and in its
`byteMap` key 0 holds 0 and the largest key holds the cell count
`len(contents)`; that key is the final consumed byte offset, the value of the
offset counter behind the loop, which has advanced from 0 by the bytes of every
rune handled as text (and once more per tab rendered with a negative tab
width).  On a line without ESC and newline it is the byte length of the line
for a tab width `≥ 0`, as 5 for `hello`, and the byte length plus the number of
tabs for a negative one, as 4 for `a TAB b`; behind `ESC [ 3 1 m r e d ESC [ m`
it is 3. -/
theorem parseString_byteMap_first_last (env : Env) (line : List Nat) (tabWidth : Int) :
    ∃ lc, parseString env line tabWidth = some lc ∧
      byteMapGet lc.byteMap 0 = some 0 ∧
      byteMapGet lc.byteMap (consumedBytes env tabWidth line initState) =
        some lc.contents.length ∧
      (∀ k v, byteMapGet lc.byteMap k = some v →
        k ≤ consumedBytes env tabWidth line initState) ∧
      (∀ s, run env tabWidth line initState = some s →
        s.n = consumedBytes env tabWidth line initState) ∧
      (0 ≤ tabWidth →
        consumedBytes env tabWidth line initState = textBytes env tabWidth line initState) ∧
      (27 ∉ line → 10 ∉ line →
        consumedBytes env tabWidth line initState =
          byteLen line + (if env.RuneWidth 9 = 0 ∧ tabWidth < 0 then line.count 9 else 0)) ∧
      consumedBytes sampleEnv 8 (str "hello") initState = 5 ∧
      consumedBytes sampleEnv (-1) (str "a\tb") initState = 4 ∧
      consumedBytes sampleEnv 8 (str "\x1b[31mred\x1b[m") initState = 3 := by
  obtain ⟨s, hs, ⟨_, hk, hz⟩, _, _⟩ := run_inv env tabWidth line initState initState_inv
  have hn : s.n = consumedBytes env tabWidth line initState := by
    have := run_offset env tabWidth line initState s hs
    simpa [initState] using this
  rw [← hn]
  refine ⟨finish s, by simp [parseString, hs], ?_, ?_, ?_, ?_, ?_, ?_, by decide, by decide,
    by decide⟩
  · rcases hz with ⟨h0, _, hc⟩ | ⟨hpos, hg⟩
    · rw [show (finish s).byteMap = (s.n, s.contents.length) :: s.byteMap from rfl, h0, hc]
      rfl
    · have hbeq : ((0 : Nat) == s.n) = false := by simpa using (show (0 : Nat) ≠ s.n by omega)
      simpa [finish, byteMapGet, List.lookup_cons, hbeq] using hg
  · simp [finish, byteMapGet, List.lookup_cons]
  · intro k v hkv
    have hmem := mem_of_lookup hkv
    rcases List.mem_cons.mp hmem with h1 | h1
    · have : k = s.n := congrArg Prod.fst h1
      omega
    · exact le_of_lt (hk (k, v) h1)
  · intro s2 h2
    rw [hs] at h2
    injection h2 with h2
    rw [← h2]
  · intro ht
    rw [hn]
    exact consumedBytes_textBytes env tabWidth ht line initState
  · intro h27 h10
    rw [hn]
    exact consumedBytes_plain env tabWidth line initState rfl WellFormed.nil h27 h10

/-- Witness for C3 at the line `hello` of five bytes, with tab width 8. -/
theorem parseString_byteMap_first_last_witness :
    ∃ lc, parseString sampleEnv (str "hello") 8 = some lc ∧
      byteMapGet lc.byteMap 0 = some 0 ∧
      byteMapGet lc.byteMap (consumedBytes sampleEnv 8 (str "hello") initState) =
        some lc.contents.length ∧
      consumedBytes sampleEnv 8 (str "hello") initState =
        textBytes sampleEnv 8 (str "hello") initState ∧
      consumedBytes sampleEnv 8 (str "hello") initState =
        byteLen (str "hello") +
          (if sampleEnv.RuneWidth 9 = 0 ∧ (8 : Int) < 0 then (str "hello").count 9 else 0) := by
  obtain ⟨lc, h1, h2, h3, _, _, h6, h7, _⟩ :=
    parseString_byteMap_first_last sampleEnv (str "hello") 8
  exact ⟨lc, h1, h2, h3, h6 (by decide), h7 (by decide) (by decide)⟩


end Ov
